import Mathlib

/-!
# Verification of the `typst` expression pretty-printer (`src/syntax/expr.rs`)

This file shallowly embeds the AST data model (`Expr` and its structural
children) and the canonical pretty-printer of `src/syntax/expr.rs`, and proves
the specification's claims about them.

Modelling conventions:
* The position wrapper `Spanned` pairs a payload with a source range that the
  printer never inspects; the embedding elides it and stores payloads directly.
* The output sink `Printer` only ever appends text, so every `fn pretty` is
  embedded as a pure function returning the appended `String`; `Printer::join`
  becomes comma/separator interleaving in the recursion.
* Types that the printed program references but whose code lives outside the
  given source (the markup `Node`/`Tree'`, the `f64` display of the standard
  library, `RgbaColor`, `geom::Unit`, and the external parser) are modelled
  from the spec; each such definition carries a doc comment saying so.
-/

/-- `Modelled from the spec:` the standard library's `f64` `Display` is external.
The spec asks for a "canonical minimal decimal representation" (`2.50` prints
as `2.5`, `1e2` as `100`), so a float literal is embedded as a sign, an integer
part and a list of fraction digits, displayed with trailing fraction zeros
stripped and the dot omitted for a zero fraction. -/
structure FloatLit where
  neg : Bool
  ip : Nat
  frac : List Nat

/-- Decimal digits of a natural number, most significant first; the first
argument is structural recursion fuel so that the definition computes in the
kernel. -/
def natCharsAux : Nat → Nat → List Char
  | 0, _ => []
  | fuel + 1, n =>
      if n < 10 then [Nat.digitChar n]
      else natCharsAux fuel (n / 10) ++ [Nat.digitChar (n % 10)]

/-- Decimal digits of a natural number, most significant first. -/
def natChars (n : Nat) : List Char :=
  natCharsAux (n + 1) n

/-- `Modelled from the spec:` canonical decimal rendering of a natural number,
standing in for the standard library's numeric `Display`. -/
def natStr (n : Nat) : String :=
  String.mk (natChars n)

/-- `Modelled from the spec:` canonical decimal rendering of an `i64`. -/
def intStr (v : Int) : String :=
  (if v < 0 then "-" else "") ++ natStr v.natAbs

/-- Lowercase hex digits of a natural number, most significant first, with
structural recursion fuel. -/
def hexCharsAux : Nat → Nat → List Char
  | 0, _ => []
  | fuel + 1, n =>
      if n < 16 then [Nat.digitChar n]
      else hexCharsAux fuel (n / 16) ++ [Nat.digitChar (n % 16)]

/-- Lowercase hex digits of a natural number, most significant first. -/
def hexChars (n : Nat) : List Char :=
  hexCharsAux (n + 1) n

/-- Strip trailing zero digits from a fraction digit list. -/
def stripZeros (ds : List Nat) : List Nat :=
  (ds.reverse.dropWhile (fun d => d = 0)).reverse

/-- Render a digit list (most significant first). -/
def digitsStr (ds : List Nat) : String :=
  String.mk (ds.map Nat.digitChar)

/-- Display of a modelled float literal: canonical minimal decimal form. -/
def FloatLit.display (f : FloatLit) : String :=
  (if f.neg then "-" else "") ++ natStr f.ip ++
    (let fr := stripZeros f.frac
     if fr.isEmpty then "" else "." ++ digitsStr fr)

/-- `Modelled from the spec:` `geom::Unit` is external; the spec only shows the
length form `<number><unit>` with units such as `12pt`, `3cm`. -/
inductive LengthUnit where
  | pt
  | mm
  | cm
  | inch

/-- Display of a length unit suffix. -/
def LengthUnit.display : LengthUnit → String
  | .pt => "pt"
  | .mm => "mm"
  | .cm => "cm"
  | .inch => "in"

/-- `Modelled from the spec:` `color::RgbaColor` is external; the spec asks for
"color via its canonical hex form" with a 6-digit form that round-trips
(`#fff` reprints as `#ffffff`), the alpha pair appended when not opaque. -/
structure RgbaColor where
  r : Nat
  g : Nat
  b : Nat
  a : Nat

/-- Two lowercase hex digits of a byte value. -/
def hex2 (n : Nat) : String :=
  String.mk [Nat.digitChar (n / 16 % 16), Nat.digitChar (n % 16)]

/-- Display of a modelled color: `#rrggbb`, with `aa` appended when not 255. -/
def RgbaColor.display (c : RgbaColor) : String :=
  "#" ++ hex2 c.r ++ hex2 c.g ++ hex2 c.b ++ (if c.a = 255 then "" else hex2 c.a)

/-- `Modelled from the spec:` the string literal form is external (`write!` with
the `Debug` formatter); the spec asks for "a quoted/escaped form" that
"round-trips its escaping exactly". One character's escaped rendering. -/
def escapeChars (c : Char) : List Char :=
  if c = '"' then ['\\', '"']
  else if c = '\\' then ['\\', '\\']
  else if c = '\n' then ['\\', 'n']
  else if c = '\r' then ['\\', 'r']
  else if c = '\t' then ['\\', 't']
  else if c.toNat < 32 ∨ c.toNat = 127 then
    '\\' :: 'u' :: '\x7b' :: hexChars c.toNat ++ ['\x7d']
  else [c]

/-- The escaped body of a string literal. -/
def escapeStr (s : String) : String :=
  String.mk (s.data.map escapeChars).flatten

/-- The quoted/escaped string literal form. -/
def strLit (s : String) : String :=
  "\"" ++ escapeStr s ++ "\""

/-- A unary operator (`src/syntax/expr.rs`, `UnOp`). -/
inductive UnOp where
  | Neg

/-- A binary operator (`src/syntax/expr.rs`, `BinOp`). -/
inductive BinOp where
  | Add
  | Sub
  | Mul
  | Div

/-- The source's `i64` integer payload. -/
abbrev I64 := Int

/-- The source's `bool` payload. -/
abbrev Boolean := Bool

mutual

/-- An expression (`src/syntax/expr.rs`, `enum Expr`). `Spanned` wrappers are
elided; `ExprUnary`/`ExprBinary` fields are inlined into their constructors;
`ExprArray`/`ExprDict`/`ExprContent` are the list types below. -/
inductive Expr where
  | None
  | Ident (v : String)
  | Bool (v : Boolean)
  | Int (v : I64)
  | Float (v : FloatLit)
  | Length (v : FloatLit) (unit : LengthUnit)
  | Percent (v : FloatLit)
  | Color (v : RgbaColor)
  | Str (s : String)
  | Call (call : ExprCall)
  | Unary (op : UnOp) (expr : Expr)
  | Binary (lhs : Expr) (op : BinOp) (rhs : Expr)
  | Array (items : Exprs)
  | Dict (pairs : Nameds)
  | Content (tree : Tree')

/-- An invocation of a function (`src/syntax/expr.rs`, `struct ExprCall`). -/
inductive ExprCall where
  | mk (name : String) (args : Args)

/-- The arguments to a function (`type ExprArgs = Vec<Argument>`). -/
inductive Args where
  | nil
  | cons (head : Argument) (tail : Args)

/-- An argument to a function call (`src/syntax/expr.rs`, `enum Argument`). -/
inductive Argument where
  | Pos (expr : Expr)
  | Named (named : Named)

/-- A pair of a name and an expression (`src/syntax/expr.rs`, `struct Named`). -/
inductive Named where
  | mk (name : String) (expr : Expr)

/-- An array expression's items (`type ExprArray = SpanVec<Expr>`). -/
inductive Exprs where
  | nil
  | cons (head : Expr) (tail : Exprs)

/-- A dictionary expression's pairs (`type ExprDict = Vec<Named>`). -/
inductive Nameds where
  | nil
  | cons (head : Named) (tail : Nameds)

/-- `Modelled from the spec:` the markup `Tree'` type is external; the spec
describes it as an "ordered sequence of positioned content-or-expression
nodes", opaque to this core except for the single-call-detection rule. -/
inductive Tree' where
  | nil
  | cons (head : Node) (tail : Tree')

/-- `Modelled from the spec:` the markup `Node` type is external; the source
only matches its `Node::Expr` variant, all other markup nodes are opaque and
are modelled as a single verbatim text character. -/
inductive Node where
  | Expr (e : Expr)
  | Text (c : Char)

end

/-- The callee name of a call. -/
def ExprCall.name : ExprCall → String
  | .mk n _ => n

/-- The argument list of a call. -/
def ExprCall.args : ExprCall → Args
  | .mk _ a => a

/-- The name of a named pair. -/
def Named.name : Named → String
  | .mk n _ => n

/-- The value expression of a named pair. -/
def Named.expr : Named → Expr
  | .mk _ e => e

/-- Rendering of a unary operator (`impl Pretty for UnOp`). -/
def UnOp.pretty : UnOp → String
  | .Neg => "-"

/-- Rendering of a binary operator (`impl Pretty for BinOp`). -/
def BinOp.pretty : BinOp → String
  | .Add => "+"
  | .Sub => "-"
  | .Mul => "*"
  | .Div => "/"

/-- Length of an `Exprs` list. -/
def Exprs.length : Exprs → Nat
  | .nil => 0
  | .cons _ t => t.length + 1

mutual

/-- Rendering of an expression (`impl Pretty for Expr`). -/
def Expr.pretty : Expr → String
  | .None => "none"
  | .Ident v => v
  | .Bool v => if v then "true" else "false"
  | .Int v => intStr v
  | .Float v => v.display
  | .Length v u => v.display ++ u.display
  | .Percent v => v.display ++ "%"
  | .Color v => v.display
  | .Str s => strLit s
  | .Call call => call.pretty
  | .Unary op expr => op.pretty ++ expr.pretty
  | .Binary lhs op rhs => lhs.pretty ++ " " ++ op.pretty ++ " " ++ rhs.pretty
  | .Array items => "(" ++ prettyExprs items ++
      (if items.length = 1 then "," else "") ++ ")"
  | .Dict .nil => "(" ++ ":" ++ ")"
  | .Dict pairs => "(" ++ prettyNameds pairs ++ ")"
  | .Content tree => pretty_content_expr tree
termination_by e => (sizeOf e, 1)

/-- Rendering of a call in expression position (`impl Pretty for ExprCall`):
always the generic parenthesized form. -/
def ExprCall.pretty : ExprCall → String
  | .mk name args => name ++ "(" ++ prettyArgs args ++ ")"
termination_by c => (sizeOf c, 1)

/-- Rendering of an argument (`impl Pretty for Argument`). -/
def Argument.pretty : Argument → String
  | .Pos expr => expr.pretty
  | .Named named => named.pretty
termination_by a => (sizeOf a, 1)

/-- Rendering of a named pair (`impl Pretty for Named`). -/
def Named.pretty : Named → String
  | .mk name expr => name ++ ": " ++ expr.pretty
termination_by n => (sizeOf n, 1)

/-- Rendering of an argument list (`impl Pretty for Vec<Argument>`):
the arguments joined by `", "`. -/
def prettyArgs : Args → String
  | .nil => ""
  | .cons a t =>
      a.pretty ++ (match t with
                   | .nil => ""
                   | .cons b t' => ", " ++ prettyArgs (.cons b t'))
termination_by l => (sizeOf l, 1)

/-- Rendering of array items joined by `", "` (`impl Pretty for ExprArray`). -/
def prettyExprs : Exprs → String
  | .nil => ""
  | .cons e t =>
      e.pretty ++ (match t with
                   | .nil => ""
                   | .cons f t' => ", " ++ prettyExprs (.cons f t'))
termination_by l => (sizeOf l, 1)

/-- Rendering of dictionary pairs joined by `", "` (`impl Pretty for ExprDict`). -/
def prettyNameds : Nameds → String
  | .nil => ""
  | .cons n t =>
      n.pretty ++ (match t with
                   | .nil => ""
                   | .cons m t' => ", " ++ prettyNameds (.cons m t'))
termination_by l => (sizeOf l, 1)

/-- Pretty print content in an expression context
(`src/syntax/expr.rs`, `pretty_content_expr`): a tree holding exactly one
node that is a call expression prints as a bracket call without braces,
everything else prints brace-wrapped. -/
def pretty_content_expr : Tree' → String
  | .cons (.Expr (.Call call)) .nil => pretty_bracket_call call false
  | tree => "\x7b" ++ tree.pretty ++ "\x7d"
termination_by t => (sizeOf t, 1)

/-- Pretty print a bracketed function call, with body or chaining when
possible (`src/syntax/expr.rs`, `pretty_bracket_call`). The Rust slice
pattern `[head @ .., Argument::Pos(Expr::Content(content))]` is compiled into
the structural helpers `bracketRest`/`bracketFirst`/`bracketMore` below, which
interleave the `", "` joining of the head arguments with the final
chain-or-body decision exactly as the source does. -/
def pretty_bracket_call (call : ExprCall) (chained : Boolean) : String :=
  match call with
  | .mk name args => (if chained then " | " else "[") ++ name ++ bracketRest args
termination_by (sizeOf call, 1)

/-- The part of a bracket call after the callee name: empty argument lists
close the header immediately (`p.push_str("]")` with neither branch taken). -/
def bracketRest : Args → String
  | .nil => "]"
  | .cons a t => bracketFirst a t
termination_by l => (sizeOf l, 1)

/-- First argument of a nonempty bracket-call argument list. A sole positional
content argument goes straight to the chain-or-body decision; otherwise the
source prints a single space and then the comma-joined arguments. -/
def bracketFirst (a : Argument) (t : Args) : String :=
  match t with
  | .cons b t' => " " ++ a.pretty ++ bracketMore b t'
  | .nil =>
      match a with
      | .Pos (.Content content) => chainOrBody content
      | a => " " ++ a.pretty ++ "]"
termination_by (sizeOf a + sizeOf t, 1)

/-- A later argument of a bracket-call argument list: a final positional
content argument triggers the chain-or-body decision (with no `", "` before
it, matching the source's `join` over the head slice only), any other
argument is appended after `", "`. -/
def bracketMore (a : Argument) (t : Args) : String :=
  match t with
  | .cons b t' => ", " ++ a.pretty ++ bracketMore b t'
  | .nil =>
      match a with
      | .Pos (.Content content) => chainOrBody content
      | a => ", " ++ a.pretty ++ "]"
termination_by (sizeOf a + sizeOf t, 1)

/-- The trailing content block of a bracket call: content holding exactly one
node that is a call recurses in chain form (the recursive call emits the
closing `]`); any other content is emitted as a `][`-delimited body. -/
def chainOrBody : Tree' → String
  | .cons (.Expr (.Call inner)) .nil => pretty_bracket_call inner true
  | content => "][" ++ content.pretty ++ "]"
termination_by t => (sizeOf t, 1)

/-- `Modelled from the spec:` the markup tree's `Pretty` impl is external; the
spec says a content block is "`{…}` wrapping the recursively printed content",
so the tree prints its nodes in sequence. -/
def Tree'.pretty : Tree' → String
  | .nil => ""
  | .cons n t => n.pretty ++ t.pretty
termination_by t => (sizeOf t, 0)

/-- `Modelled from the spec:` the markup node's `Pretty` impl is external.
Text nodes print verbatim; an expression node that is a call prints in bracket
form (the source's own tests reprint `[v [f], 1]` and `[v | f]` this way),
any other expression node prints brace-wrapped. -/
def Node.pretty : Node → String
  | .Expr (.Call call) => pretty_bracket_call call false
  | .Expr e => "\x7b" ++ e.pretty ++ "\x7d"
  | .Text c => String.singleton c
termination_by n => (sizeOf n, 1)

end

/-- Convert an argument list to a standard list. -/
def Args.toList : Args → List Argument
  | .nil => []
  | .cons a t => a :: t.toList

/-- Build an argument list from a standard list. -/
def Args.ofList : List Argument → Args
  | [] => .nil
  | a :: t => .cons a (Args.ofList t)

/-- Convert an array item list to a standard list. -/
def Exprs.toList : Exprs → List Expr
  | .nil => []
  | .cons e t => e :: t.toList

/-- Convert a dictionary pair list to a standard list. -/
def Nameds.toList : Nameds → List Named
  | .nil => []
  | .cons n t => n :: t.toList

/-- Join a list of strings with a separator, the behaviour of the external
printer's `join` helper. -/
def sepBy (sep : String) : List String → String
  | [] => ""
  | [x] => x
  | x :: xs => x ++ sep ++ sepBy sep xs

theorem Args.toList_ofList : ∀ (l : List Argument), (Args.ofList l).toList = l
  | [] => rfl
  | a :: t => by simp [Args.ofList, Args.toList, Args.toList_ofList t]

theorem Exprs.length_toList : ∀ (l : Exprs), l.length = l.toList.length
  | .nil => rfl
  | .cons e t => by simp [Exprs.length, Exprs.toList, Exprs.length_toList t]

/-- The argument-list rendering is the `", "`-joined list of the arguments'
renderings. -/
theorem prettyArgs_sepBy : ∀ (l : Args),
    prettyArgs l = sepBy ", " (l.toList.map Argument.pretty)
  | .nil => by simp [prettyArgs, Args.toList, sepBy]
  | .cons a .nil => by
      simp [prettyArgs, Args.toList, sepBy]
  | .cons a (.cons b t) => by
      have ih := prettyArgs_sepBy (.cons b t)
      simp [prettyArgs, Args.toList, sepBy, String.append_assoc] at ih ⊢
      simp [ih, String.append_assoc]

/-- The array-item rendering is the `", "`-joined list of the items'
renderings. -/
theorem prettyExprs_sepBy : ∀ (l : Exprs),
    prettyExprs l = sepBy ", " (l.toList.map Expr.pretty)
  | .nil => by simp [prettyExprs, Exprs.toList, sepBy]
  | .cons e .nil => by
      simp [prettyExprs, Exprs.toList, sepBy]
  | .cons e (.cons f t) => by
      have ih := prettyExprs_sepBy (.cons f t)
      simp [prettyExprs, Exprs.toList, sepBy, String.append_assoc] at ih ⊢
      simp [ih, String.append_assoc]

/-- The dictionary-pair rendering is the `", "`-joined list of the pairs'
renderings. -/
theorem prettyNameds_sepBy : ∀ (l : Nameds),
    prettyNameds l = sepBy ", " (l.toList.map Named.pretty)
  | .nil => by simp [prettyNameds, Nameds.toList, sepBy]
  | .cons n .nil => by
      simp [prettyNameds, Nameds.toList, sepBy]
  | .cons n (.cons m t) => by
      have ih := prettyNameds_sepBy (.cons m t)
      simp [prettyNameds, Nameds.toList, sepBy, String.append_assoc] at ih ⊢
      simp [ih, String.append_assoc]

/-- Unfolding of the bracket-call renderer into lead token, name and rest. -/
theorem pretty_bracket_call_eq (name : String) (args : Args) (chained : Boolean) :
    pretty_bracket_call (.mk name args) chained =
      (if chained then " | " else "[") ++ name ++ bracketRest args := by
  simp [pretty_bracket_call]

/-- A sole positional content argument goes straight to the chain-or-body
decision. -/
theorem bracketFirst_last_content (t : Tree') :
    bracketFirst (.Pos (.Content t)) .nil = chainOrBody t := by
  simp [bracketFirst]

/-- A final positional content argument after head arguments goes straight to
the chain-or-body decision. -/
theorem bracketMore_last_content (t : Tree') :
    bracketMore (.Pos (.Content t)) .nil = chainOrBody t := by
  simp [bracketMore]

/-- A sole argument that is not a positional content block is printed after a
space and closes the header. -/
theorem bracketFirst_last_other (a : Argument) (h : ∀ t, a ≠ .Pos (.Content t)) :
    bracketFirst a .nil = " " ++ a.pretty ++ "]" := by
  cases a with
  | Named n => simp [bracketFirst]
  | Pos e =>
    cases e <;> first
      | exact absurd rfl (h _)
      | simp [bracketFirst]

/-- A last argument that is not a positional content block is printed after
`", "` and closes the header. -/
theorem bracketMore_last_other (a : Argument) (h : ∀ t, a ≠ .Pos (.Content t)) :
    bracketMore a .nil = ", " ++ a.pretty ++ "]" := by
  cases a with
  | Named n => simp [bracketMore]
  | Pos e =>
    cases e <;> first
      | exact absurd rfl (h _)
      | simp [bracketMore]

/-- Continuation of a bracket-call argument list that ends in a
non-positional-content argument: all remaining arguments comma-joined, then
the closing bracket. -/
theorem bracketMore_append_other : ∀ (l : List Argument) (b a : Argument),
    (∀ t, a ≠ .Pos (.Content t)) →
    bracketMore b (Args.ofList (l ++ [a])) =
      ", " ++ sepBy ", " ((b :: (l ++ [a])).map Argument.pretty) ++ "]"
  | [], b, a => fun h => by
      simp [Args.ofList, bracketMore, sepBy, bracketMore_last_other a h,
        String.append_assoc]
  | c :: l, b, a => fun h => by
      have ih := bracketMore_append_other l c a h
      simp [Args.ofList, bracketMore, sepBy, ih, String.append_assoc]

/-- A bracket-call argument list that ends in a non-positional-content
argument prints as a space, the comma-joined arguments and the closing
bracket: neither the chain nor the body sugar fires. -/
theorem bracketRest_append_other (l : List Argument) (a : Argument)
    (h : ∀ t, a ≠ .Pos (.Content t)) :
    bracketRest (Args.ofList (l ++ [a])) =
      " " ++ sepBy ", " ((l ++ [a]).map Argument.pretty) ++ "]" := by
  cases l with
  | nil =>
      simp [Args.ofList, bracketRest, sepBy, bracketFirst_last_other a h]
  | cons b l' =>
    cases l' with
    | nil =>
        simp [Args.ofList, bracketRest, bracketFirst, sepBy,
          bracketMore_last_other a h, String.append_assoc]
    | cons c l'' =>
        have ih := bracketMore_append_other l'' c a h
        simp [Args.ofList, bracketRest, bracketFirst, sepBy, ih,
          String.append_assoc]

/-- Continuation of a bracket-call argument list that ends in a positional
content argument: the remaining head arguments comma-joined, then the
chain-or-body rendering with nothing in between. -/
theorem bracketMore_append_content : ∀ (l : List Argument) (b : Argument) (t : Tree'),
    bracketMore b (Args.ofList (l ++ [.Pos (.Content t)])) =
      ", " ++ sepBy ", " ((b :: l).map Argument.pretty) ++ chainOrBody t
  | [], b, t => by
      simp [Args.ofList, bracketMore, sepBy, String.append_assoc]
  | c :: l, b, t => by
      have ih := bracketMore_append_content l c t
      simp [Args.ofList, bracketMore, sepBy, ih, String.append_assoc]

/-- A bracket-call argument list that ends in a positional content argument
prints the head arguments (a space and the comma-joined head when nonempty)
followed directly by the chain-or-body rendering of the trailing content. -/
theorem bracketRest_append_content (l : List Argument) (t : Tree') :
    bracketRest (Args.ofList (l ++ [.Pos (.Content t)])) =
      (if l.isEmpty then "" else " " ++ sepBy ", " (l.map Argument.pretty)) ++
        chainOrBody t := by
  cases l with
  | nil =>
      simp [Args.ofList, bracketRest, bracketFirst]
  | cons b l' =>
    cases l' with
    | nil =>
        simp [Args.ofList, bracketRest, bracketFirst, bracketMore, sepBy,
          String.append_assoc]
    | cons c l'' =>
        have ih := bracketMore_append_content l'' c t
        simp [Args.ofList, bracketRest, bracketFirst, sepBy, ih,
          String.append_assoc]

/-- Content holding exactly one call node chains into the inner call. -/
theorem chainOrBody_single_call (inner : ExprCall) :
    chainOrBody (.cons (.Expr (.Call inner)) .nil) = pretty_bracket_call inner true := by
  simp [chainOrBody]

/-- `Modelled from the spec:` the external parser's tree for the surface form
`[v [f]]` — a bracket call to `v` whose sole (trailing positional) content
argument holds exactly one node, the call to `f`. -/
def parse_v_bracket_f : Tree' :=
  .cons (.Expr (.Call (.mk "v"
    (.cons (.Pos (.Content (.cons (.Expr (.Call (.mk "f" .nil))) .nil))) .nil)))) .nil

/-- `Modelled from the spec:` the external parser's tree for the surface form
`[v {[f]}]` — the braced content argument again holds exactly the one
bracket-call node `[f]`, so the parse coincides structurally with `[v [f]]`. -/
def parse_v_braced_f : Tree' :=
  .cons (.Expr (.Call (.mk "v"
    (.cons (.Pos (.Content (.cons (.Expr (.Call (.mk "f" .nil))) .nil))) .nil)))) .nil

/-- `Modelled from the spec:` the external parser's tree for the surface form
`[v][[f]]` — the `][`-delimited body is markup holding exactly the one
bracket-call node `[f]`, attached as the call's trailing content argument. -/
def parse_v_body_f : Tree' :=
  .cons (.Expr (.Call (.mk "v"
    (.cons (.Pos (.Content (.cons (.Expr (.Call (.mk "f" .nil))) .nil))) .nil)))) .nil

/-- `Modelled from the spec:` the external parser's tree for the surface form
`[v | f]` — chain sugar for a call to `v` whose body content is exactly the
call to `f`. -/
def parse_v_chain_f : Tree' :=
  .cons (.Expr (.Call (.mk "v"
    (.cons (.Pos (.Content (.cons (.Expr (.Call (.mk "f" .nil))) .nil))) .nil)))) .nil

/-- C1: the trees parsed from the four surface forms `[v [f]]`, `[v {[f]}]`,
`[v][[f]]` and `[v | f]` all print to the identical string `[v | f]`; and in
general, whenever a bracketed call's trailing positional content block holds
exactly one node and that node is a call expression, the printer recurses in
chain form, emitting the head arguments and then ` | ` followed by the inner
call instead of a bracketed body. -/
theorem claim_C1_chain_equivalence :
    (Tree'.pretty parse_v_bracket_f = "[v | f]" ∧
     Tree'.pretty parse_v_braced_f = "[v | f]" ∧
     Tree'.pretty parse_v_body_f = "[v | f]" ∧
     Tree'.pretty parse_v_chain_f = "[v | f]") ∧
    ∀ (name : String) (hd : List Argument) (inner : ExprCall) (chained : Boolean),
      pretty_bracket_call
          (.mk name (Args.ofList
            (hd ++ [.Pos (.Content (.cons (.Expr (.Call inner)) .nil))])))
          chained =
        (if chained then " | " else "[") ++ name ++
          (if hd.isEmpty then "" else " " ++ sepBy ", " (hd.map Argument.pretty)) ++
          pretty_bracket_call inner true := by
  constructor
  · refine ⟨?_, ?_, ?_, ?_⟩ <;>
      · simp only [parse_v_bracket_f, parse_v_braced_f, parse_v_body_f,
          parse_v_chain_f, Tree'.pretty, Node.pretty, pretty_bracket_call,
          bracketRest, bracketFirst, chainOrBody]
        rfl
  · intro name hd inner chained
    simp [pretty_bracket_call_eq, bracketRest_append_content,
      chainOrBody_single_call, String.append_assoc]

/-- C3, counterexample: inside the bracket-call renderer a call with no
arguments at all prints as the bracket header `[f]`, not as the generic
parenthesized form `f()` the claim asserts. -/
theorem claim_C3_counterexample :
    pretty_bracket_call (.mk "f" .nil) false = "[f]" ∧
    pretty_bracket_call (.mk "f" .nil) false ≠ "f()" := by
  have h : pretty_bracket_call (.mk "f" .nil) false = "[f]" := by
    simp only [pretty_bracket_call, bracketRest]
    rfl
  exact ⟨h, by rw [h]; decide⟩

/-- C3, amended: in the bracket-call renderer a call with no arguments renders
as the bare bracket header (`[name]`, or ` | name]` when chained) — the
bracket form persists even with nothing to simplify; the generic parenthesized
form `name()` is what the expression-position renderer `ExprCall::pretty`
produces for such a call. -/
theorem claim_C3_no_args_header :
    ∀ (name : String) (chained : Boolean),
      pretty_bracket_call (.mk name .nil) chained =
        (if chained then " | " else "[") ++ name ++ "]" ∧
      ExprCall.pretty (.mk name .nil) = name ++ "()" := by
  intro name chained
  constructor
  · simp [pretty_bracket_call_eq, bracketRest]
  · have h : ("(" : String) ++ ")" = "()" := rfl
    simp [ExprCall.pretty, prettyArgs, String.append_assoc, h]

/-- C4: a call whose trailing argument is a positional non-content (and
non-call) value triggers neither the chain nor the body sugar: in expression
position it renders in the generic parenthesized form `name(arg1, arg2, …)`,
and even inside the bracket renderer the whole argument list stays
comma-joined inside the single bracket header. -/
theorem claim_C4_non_content_trailing :
    ∀ (name : String) (hd : List Argument) (e : Expr) (chained : Boolean),
      (∀ t, e ≠ .Content t) →
      (∀ c, e ≠ .Call c) →
      ExprCall.pretty (.mk name (Args.ofList (hd ++ [.Pos e]))) =
        name ++ "(" ++ sepBy ", " ((hd ++ [Argument.Pos e]).map Argument.pretty) ++ ")" ∧
      pretty_bracket_call (.mk name (Args.ofList (hd ++ [.Pos e]))) chained =
        (if chained then " | " else "[") ++ name ++ " " ++
          sepBy ", " ((hd ++ [Argument.Pos e]).map Argument.pretty) ++ "]" := by
  intro name hd e chained hContent _hCall
  have hA : ∀ t, (Argument.Pos e) ≠ .Pos (.Content t) := by
    intro t h'
    exact hContent t (by injection h')
  constructor
  · simp [ExprCall.pretty, prettyArgs_sepBy, Args.toList_ofList, String.append_assoc]
  · simp [pretty_bracket_call_eq, bracketRest_append_other _ _ hA, String.append_assoc]

/-- C4, witness at `v(1)`. -/
theorem claim_C4_witness :
    ExprCall.pretty (.mk "v" (Args.ofList [Argument.Pos (.Int 1)])) = "v(1)" ∧
    pretty_bracket_call (.mk "v" (Args.ofList [Argument.Pos (.Int 1)])) false = "[v 1]" := by
  have h := claim_C4_non_content_trailing "v" [] (.Int 1) false
    (fun t h' => nomatch h') (fun c h' => nomatch h')
  constructor
  · refine h.1.trans ?_
    simp only [List.nil_append, List.map_cons, List.map_nil, Argument.pretty,
      Expr.pretty, sepBy]
    rfl
  · refine h.2.trans ?_
    simp only [List.nil_append, List.map_cons, List.map_nil, Argument.pretty,
      Expr.pretty, sepBy]
    rfl

/-- C5: a content block in expression position whose node sequence is exactly
one node that is a call expression is rendered by the bracket-call renderer
with no enclosing braces; every other content block (empty, multiple nodes,
or a single non-call node) renders as `{` ++ content ++ `}`. Concretely, a
dictionary value holding `{[f]}` prints as `[f]`. -/
theorem claim_C5_content_brace_elision :
    (∀ (c : ExprCall),
        pretty_content_expr (.cons (.Expr (.Call c)) .nil) =
          pretty_bracket_call c false) ∧
    (∀ (t : Tree'), (∀ c, t ≠ .cons (.Expr (.Call c)) .nil) →
        pretty_content_expr t = "\x7b" ++ t.pretty ++ "\x7d") ∧
    Expr.pretty (.Dict (.cons (.mk "func"
        (.Content (.cons (.Expr (.Call (.mk "f" .nil))) .nil))) .nil)) =
      "(func: [f])" := by
  refine ⟨?_, ?_, ?_⟩
  · intro c
    simp [pretty_content_expr]
  · intro t h
    cases t with
    | nil => simp [pretty_content_expr]
    | cons n t' =>
      cases n with
      | Text c => cases t' <;> simp [pretty_content_expr]
      | Expr e =>
        cases e <;> cases t' <;>
          first
            | exact absurd rfl (h _)
            | simp [pretty_content_expr]
  · simp only [Expr.pretty, prettyNameds, Named.pretty, pretty_content_expr,
      pretty_bracket_call, bracketRest]
    rfl

/-- C5, witness: the empty content block renders brace-wrapped. -/
theorem claim_C5_witness :
    pretty_content_expr .nil = "\x7b" ++ Tree'.pretty .nil ++ "\x7d" :=
  claim_C5_content_brace_elision.2.1 .nil (fun _ h => nomatch h)

/-- C6: an array renders as `(…)` with its elements' renderings joined by
`", "`, with a trailing comma exactly when the array has one element;
concretely the one-element array holding `-5` prints as `(-5,)`. -/
theorem claim_C6_array_trailing_comma :
    (∀ (items : Exprs),
        Expr.pretty (.Array items) =
          "(" ++ sepBy ", " (items.toList.map Expr.pretty) ++
            (if items.toList.length = 1 then "," else "") ++ ")") ∧
    Expr.pretty (.Array (.cons (.Int (-5)) .nil)) = "(-5,)" := by
  constructor
  · intro items
    simp [Expr.pretty, prettyExprs_sepBy, Exprs.length_toList]
  · simp only [Expr.pretty, prettyExprs, Exprs.length]
    rfl

/-- C7: the empty dictionary renders exactly as `(:)`; a non-empty dictionary
renders as `(…)` with its pairs joined by `", "`, each pair rendered as the
name, `": "`, and the value; concretely `(percent: 5%)`. -/
theorem claim_C7_dict :
    Expr.pretty (.Dict .nil) = "(:)" ∧
    (∀ (pairs : Nameds), pairs ≠ .nil →
        Expr.pretty (.Dict pairs) =
          "(" ++ sepBy ", " (pairs.toList.map Named.pretty) ++ ")") ∧
    (∀ (n : String) (e : Expr), Named.pretty (.mk n e) = n ++ ": " ++ Expr.pretty e) ∧
    Expr.pretty (.Dict (.cons (.mk "percent" (.Percent ⟨false, 5, []⟩)) .nil)) =
      "(percent: 5%)" := by
  refine ⟨?_, ?_, ?_, ?_⟩
  · simp only [Expr.pretty]
    rfl
  · intro pairs h
    cases pairs with
    | nil => exact absurd rfl h
    | cons n t => simp [Expr.pretty, prettyNameds_sepBy]
  · intro n e
    simp [Named.pretty, String.append_assoc]
  · simp only [Expr.pretty, prettyNameds, Named.pretty, FloatLit.display,
      stripZeros, digitsStr]
    rfl

/-- C7, witness: a concrete non-empty dictionary taken through the theorem. -/
theorem claim_C7_witness :
    Expr.pretty (.Dict (.cons (.mk "a" .None) .nil)) =
      "(" ++ sepBy ", " ((Nameds.cons (.mk "a" .None) .nil).toList.map Named.pretty) ++ ")" :=
  claim_C7_dict.2.1 (.cons (.mk "a" .None) .nil) (fun h => nomatch h)

/-- C8, counterexample: with two leading arguments before a trailing content
block the head arguments are joined by `", "`, not by single spaces — the
call `v(1, 2, {})` in bracket form prints `[v 1, 2][]`, not `[v 1 2][]`. -/
theorem claim_C8_counterexample :
    pretty_bracket_call (.mk "v" (.cons (.Pos (.Int 1)) (.cons (.Pos (.Int 2))
        (.cons (.Pos (.Content .nil)) .nil)))) false = "[v 1, 2][]" ∧
    pretty_bracket_call (.mk "v" (.cons (.Pos (.Int 1)) (.cons (.Pos (.Int 2))
        (.cons (.Pos (.Content .nil)) .nil)))) false ≠
      "[" ++ "v" ++ " " ++
        sepBy " " ([Argument.Pos (.Int 1), Argument.Pos (.Int 2)].map Argument.pretty) ++
        chainOrBody .nil := by
  have h : pretty_bracket_call (.mk "v" (.cons (.Pos (.Int 1)) (.cons (.Pos (.Int 2))
      (.cons (.Pos (.Content .nil)) .nil)))) false = "[v 1, 2][]" := by
    simp only [pretty_bracket_call, bracketRest, bracketFirst, bracketMore,
      chainOrBody, Tree'.pretty, Argument.pretty, Expr.pretty]
    rfl
  refine ⟨h, ?_⟩
  rw [h]
  have h2 : "[" ++ "v" ++ " " ++
      sepBy " " ([Argument.Pos (.Int 1), Argument.Pos (.Int 2)].map Argument.pretty) ++
      chainOrBody .nil = "[v 1 2][]" := by
    simp only [List.map_cons, List.map_nil, Argument.pretty, Expr.pretty, sepBy,
      chainOrBody, Tree'.pretty]
    rfl
  rw [h2]
  decide

/-- C8, amended: when a call's last argument is a positional content block and
one or more leading arguments precede it, the leading arguments are rendered
before the content (or chain continuation), preceded by a single space and
joined by `", "` (comma-space), not by bare spaces. -/
theorem claim_C8_head_args_comma_joined :
    ∀ (name : String) (hd : List Argument) (t : Tree') (chained : Boolean),
      hd ≠ [] →
      pretty_bracket_call (.mk name (Args.ofList (hd ++ [.Pos (.Content t)]))) chained =
        (if chained then " | " else "[") ++ name ++ " " ++
          sepBy ", " (hd.map Argument.pretty) ++ chainOrBody t := by
  intro name hd t chained h
  cases hd with
  | nil => exact absurd rfl h
  | cons a l =>
    rw [pretty_bracket_call_eq, bracketRest_append_content (a :: l) t]
    simp [String.append_assoc]

/-- C8, witness: one leading argument before an empty content body. -/
theorem claim_C8_witness :
    pretty_bracket_call (.mk "v" (Args.ofList
        [Argument.Pos (.Int 1), .Pos (.Content .nil)])) false =
      (if false then " | " else "[") ++ "v" ++ " " ++
        sepBy ", " ([Argument.Pos (.Int 1)].map Argument.pretty) ++ chainOrBody .nil :=
  claim_C8_head_args_comma_joined "v" [Argument.Pos (.Int 1)] .nil false
    (fun h => nomatch h)

/-- C9: the printer is a total function over the closed AST types — every
well-typed value of `Expr`, `Argument`, `UnOp` and `BinOp` has exactly one
rendering (the embedded recursion is accepted by Lean as terminating and
exhaustive, with no fallible path). -/
theorem claim_C9_total :
    (∀ e : Expr, ∃! s : String, Expr.pretty e = s) ∧
    (∀ a : Argument, ∃! s : String, Argument.pretty a = s) ∧
    (∀ u : UnOp, ∃! s : String, UnOp.pretty u = s) ∧
    (∀ b : BinOp, ∃! s : String, BinOp.pretty b = s) :=
  ⟨fun e => ⟨Expr.pretty e, rfl, fun _ h => h.symm⟩,
   fun a => ⟨Argument.pretty a, rfl, fun _ h => h.symm⟩,
   fun u => ⟨UnOp.pretty u, rfl, fun _ h => h.symm⟩,
   fun b => ⟨BinOp.pretty b, rfl, fun _ h => h.symm⟩⟩

/-- C10: when the last argument of a bracket-rendered call is a named
argument — even one whose value is a content block — no body or chain form is
produced: all arguments are rendered comma-joined inside the single bracket
header. Concretely `[v func: [f]]`. -/
theorem claim_C10_named_last_no_sugar :
    (∀ (name : String) (hd : List Argument) (n : Named) (chained : Boolean),
        pretty_bracket_call (.mk name (Args.ofList (hd ++ [.Named n]))) chained =
          (if chained then " | " else "[") ++ name ++ " " ++
            sepBy ", " ((hd ++ [Argument.Named n]).map Argument.pretty) ++ "]") ∧
    pretty_bracket_call (.mk "v" (.cons (.Named (.mk "func"
        (.Content (.cons (.Expr (.Call (.mk "f" .nil))) .nil)))) .nil)) false =
      "[v func: [f]]" := by
  constructor
  · intro name hd n chained
    have hA : ∀ t, (Argument.Named n) ≠ .Pos (.Content t) := fun t h' => nomatch h'
    simp [pretty_bracket_call_eq, bracketRest_append_other _ _ hA, String.append_assoc]
  · simp only [pretty_bracket_call, bracketRest, bracketFirst, Argument.pretty,
      Named.pretty, Expr.pretty, pretty_content_expr]
    rfl

/-- Build an array item list from a standard list. -/
def Exprs.ofList : List Expr → Exprs
  | [] => .nil
  | e :: t => .cons e (Exprs.ofList t)

/-- Build a dictionary pair list from a standard list. -/
def Nameds.ofList : List Named → Nameds
  | [] => .nil
  | n :: t => .cons n (Nameds.ofList t)

/-- Build a tree from a standard node list. -/
def Tree'.ofList : List Node → Tree'
  | [] => .nil
  | n :: t => .cons n (Tree'.ofList t)

/-- Convert a tree to a standard node list. -/
def Tree'.toList : Tree' → List Node
  | .nil => []
  | .cons n t => n :: t.toList

/-- The binary operator denoted by a printed operator character. -/
def binOpOf (c : Char) : Option BinOp :=
  if c = '+' then some .Add
  else if c = '-' then some .Sub
  else if c = '*' then some .Mul
  else if c = '/' then some .Div
  else none

/-- Longest alphabetic prefix of the input, with the remainder. -/
def takeAlpha : List Char → List Char × List Char
  | [] => ([], [])
  | c :: cs =>
      if c.isAlpha then
        let p := takeAlpha cs
        (c :: p.1, p.2)
      else ([], c :: cs)

/-- Longest decimal-digit prefix of the input as digit values, with the
remainder. -/
def takeDigits : List Char → List Nat × List Char
  | [] => ([], [])
  | c :: cs =>
      if c.isDigit then
        let p := takeDigits cs
        ((c.toNat - 48) :: p.1, p.2)
      else ([], c :: cs)

/-- The value of a hex digit character, if it is one (lowercase letters). -/
def hexDigitVal (c : Char) : Option Nat :=
  if c.isDigit then some (c.toNat - 48)
  else if 97 ≤ c.toNat ∧ c.toNat ≤ 102 then some (c.toNat - 87)
  else none

/-- Longest hex-digit prefix of the input as digit values, with the
remainder. -/
def takeHex : List Char → List Nat × List Char
  | [] => ([], [])
  | c :: cs =>
      match hexDigitVal c with
      | some d =>
          let p := takeHex cs
          (d :: p.1, p.2)
      | none => ([], c :: cs)

/-- Numeric value of decimal digit values, most significant first. -/
def digitsVal (ds : List Nat) : Nat :=
  ds.foldl (fun a d => a * 10 + d) 0

/-- Numeric value of hex digit values, most significant first. -/
def hexVal (ds : List Nat) : Nat :=
  ds.foldl (fun a d => a * 16 + d) 0

/-- `Modelled from the spec:` finish parsing a numeric literal: attach a
percent sign or a length unit suffix, or classify as integer or float. -/
def numFinish (ip : Nat) (fs : List Nat) (rest : List Char) : Expr × List Char :=
  match rest with
  | '%' :: r => (.Percent ⟨false, ip, fs⟩, r)
  | 'p' :: 't' :: r => (.Length ⟨false, ip, fs⟩ .pt, r)
  | 'm' :: 'm' :: r => (.Length ⟨false, ip, fs⟩ .mm, r)
  | 'c' :: 'm' :: r => (.Length ⟨false, ip, fs⟩ .cm, r)
  | 'i' :: 'n' :: r => (.Length ⟨false, ip, fs⟩ .inch, r)
  | _ => if fs.isEmpty then (.Int (Int.ofNat ip), rest) else (.Float ⟨false, ip, fs⟩, rest)

/-- `Modelled from the spec:` parse a numeric literal (integer part, optional
fraction, optional percent/unit suffix). -/
def pNumber (input : List Char) : Option (Expr × List Char) :=
  match takeDigits input with
  | ([], _) => none
  | (ds, r) =>
      match r with
      | '.' :: r' =>
          match takeDigits r' with
          | ([], _) => none
          | (fs, r'') => some (numFinish (digitsVal ds) fs r'')
      | _ => some (numFinish (digitsVal ds) [] r)

/-- `Modelled from the spec:` parse a color literal after the `#`: exactly six
or eight lowercase hex digits. -/
def pColor (input : List Char) : Option (Expr × List Char) :=
  match takeHex input with
  | (hs, r) =>
      if hs.length = 6 then
        some (.Color ⟨hexVal (hs.take 2), hexVal ((hs.drop 2).take 2),
          hexVal ((hs.drop 4).take 2), 255⟩, r)
      else if hs.length = 8 then
        some (.Color ⟨hexVal (hs.take 2), hexVal ((hs.drop 2).take 2),
          hexVal ((hs.drop 4).take 2), hexVal (hs.drop 6)⟩, r)
      else none

mutual

/-- Whether a bracket-printed call's rendering ends with a `][`-delimited
body (chains delegate to the innermost call): after such a call's print no
body-attachment ambiguity arises on reparse. -/
def ewbC : ExprCall → Bool
  | .mk _ args => ewbArgs args

/-- `ewbC` on the argument list: looks at the last argument. -/
def ewbArgs : Args → Bool
  | .nil => false
  | .cons (.Pos (.Content (.cons (.Expr (.Call inner)) .nil))) .nil => ewbC inner
  | .cons (.Pos (.Content _)) .nil => true
  | .cons _ .nil => false
  | .cons _ (.cons b t) => ewbArgs (.cons b t)

end

/-- A character allowed in an opaque markup text node: anything that does not
collide with the bracket/brace structure of printed markup. -/
def textOk (c : Char) : Bool :=
  !(c = '[' || c = ']' || c = '\x7b' || c = '\x7d')

/-- A well-formed identifier for the data model's invariant "name must be a
valid identifier (enforced upstream)": nonempty, alphabetic, and not one of
the literal keywords the upstream lexer claims for itself. -/
def identOk (s : String) : Bool :=
  !s.data.isEmpty && s.data.all Char.isAlpha &&
    !(s = "none" || s = "true" || s = "false")

/-- Well-formed float literal: digit values below ten. -/
def floatOk (f : FloatLit) : Bool :=
  f.frac.all (fun d => d < 10)

/-- Well-formed color literal: byte-sized components. -/
def colorOk (c : RgbaColor) : Bool :=
  decide (c.r < 256) && decide (c.g < 256) && decide (c.b < 256) && decide (c.a < 256)

mutual

/-- Well-formedness of an expression: the data model's upstream invariants
(identifier validity, digit and byte ranges) plus, inside content, the
no-ambiguous-adjacency condition of `wfT`. -/
def wfE : Expr → Bool
  | .None => true
  | .Ident v => identOk v
  | .Bool _ => true
  | .Int _ => true
  | .Float f => floatOk f
  | .Length f _ => floatOk f
  | .Percent f => floatOk f
  | .Color c => colorOk c
  | .Str _ => true
  | .Call c => wfC c
  | .Unary _ e => wfE e
  | .Binary l _ r => wfE l && wfE r
  | .Array items => wfEs items
  | .Dict pairs => wfNs pairs
  | .Content t => wfT t

/-- Well-formedness of a call: valid name, well-formed arguments. -/
def wfC : ExprCall → Bool
  | .mk name args => identOk name && wfAs args

/-- Well-formedness of an argument list. -/
def wfAs : Args → Bool
  | .nil => true
  | .cons a t => wfA a && wfAs t

/-- Well-formedness of an argument. -/
def wfA : Argument → Bool
  | .Pos e => wfE e
  | .Named n => wfN n

/-- Well-formedness of a named pair. -/
def wfN : Named → Bool
  | .mk name e => identOk name && wfE e

/-- Well-formedness of array items. -/
def wfEs : Exprs → Bool
  | .nil => true
  | .cons e t => wfE e && wfEs t

/-- Well-formedness of dictionary pairs. -/
def wfNs : Nameds → Bool
  | .nil => true
  | .cons n t => wfN n && wfNs t

/-- Well-formedness of a markup tree: each node well formed, and no call node
whose print ends with a bare header bracket is immediately followed by
another call node (whose print starts with `[`), since the reparse would
attach the second call as a body of the first. -/
def wfT : Tree' → Bool
  | .nil => true
  | .cons n t => wfNode n && adjOk n t && wfT t

/-- The adjacency condition between one markup node and its successors. -/
def adjOk (n : Node) (t : Tree') : Bool :=
  match n, t with
  | .Expr (.Call c), .cons (.Expr (.Call _)) _ => ewbC c
  | _, _ => true

/-- Well-formedness of a markup node. -/
def wfNode : Node → Bool
  | .Expr e => wfE e
  | .Text c => textOk c

end

mutual

/-- Parser fuel bound for an expression (counts parser steps generously). -/
def szE : Expr → Nat
  | .None => 2
  | .Ident _ => 2
  | .Bool _ => 2
  | .Int _ => 2
  | .Float _ => 2
  | .Length _ _ => 2
  | .Percent _ => 2
  | .Color _ => 2
  | .Str s => 2 + s.data.length
  | .Call c => 2 + szC c
  | .Unary _ e => 2 + szE e
  | .Binary l _ r => 2 + szE l + szE r
  | .Array items => 2 + szEs items
  | .Dict pairs => 2 + szNs pairs
  | .Content t => 2 + szT t

/-- Parser fuel bound for a call. -/
def szC : ExprCall → Nat
  | .mk _ args => 2 + szAs args

/-- Parser fuel bound for an argument list. -/
def szAs : Args → Nat
  | .nil => 1
  | .cons a t => 2 + szA a + szAs t

/-- Parser fuel bound for an argument. -/
def szA : Argument → Nat
  | .Pos e => 2 + szE e
  | .Named n => 2 + szN n

/-- Parser fuel bound for a named pair. -/
def szN : Named → Nat
  | .mk _ e => 2 + szE e

/-- Parser fuel bound for array items. -/
def szEs : Exprs → Nat
  | .nil => 1
  | .cons e t => 2 + szE e + szEs t

/-- Parser fuel bound for dictionary pairs. -/
def szNs : Nameds → Nat
  | .nil => 1
  | .cons n t => 2 + szN n + szNs t

/-- Parser fuel bound for a markup tree. -/
def szT : Tree' → Nat
  | .nil => 1
  | .cons n t => 2 + szNode n + szT t

/-- Parser fuel bound for a markup node. -/
def szNode : Node → Nat
  | .Expr e => 2 + szE e
  | .Text _ => 2

end

mutual

/-- `Modelled from the spec:` the external parser, restricted to the canonical
printed surface forms, in markup position: reads nodes until the end of input
or a closing `]`/`}` (left unconsumed). A `[` starts a bracket call node, a
`{` an embedded expression node, any other character an opaque text node. -/
def pMarkup : Nat → List Char → Option (Tree' × List Char)
  | 0, _ => none
  | fuel + 1, input =>
      match input with
      | [] => some (.nil, [])
      | ']' :: _ => some (.nil, input)
      | '\x7d' :: _ => some (.nil, input)
      | '[' :: r =>
          match pBracketInner fuel r with
          | some (c, r') =>
              match pMarkup fuel r' with
              | some (t, r'') => some (.cons (.Expr (.Call c)) t, r'')
              | none => none
          | none => none
      | '\x7b' :: r =>
          match pExpr fuel r with
          | some (e, '\x7d' :: r') =>
              match pMarkup fuel r' with
              | some (t, r'') => some (.cons (.Expr e) t, r'')
              | none => none
          | _ => none
      | c :: r =>
          match pMarkup fuel r with
          | some (t, r') => some (.cons (.Text c) t, r')
          | none => none

/-- `Modelled from the spec:` parse a bracket call after its opening `[` (or
after a chain separator): callee name, then header arguments, chain
continuation or `][`-delimited body, consuming the closing `]`. -/
def pBracketInner : Nat → List Char → Option (ExprCall × List Char)
  | 0, _ => none
  | fuel + 1, input =>
      match takeAlpha input with
      | ([], _) => none
      | (nm, r) =>
          match pBracketAfterName fuel [] r with
          | some (args, r') => some (.mk (String.mk nm) (Args.ofList args), r')
          | none => none

/-- `Modelled from the spec:` after the callee name (or after header
arguments): close the header and look for a body, continue a chain, or read
space-prefixed header arguments. -/
def pBracketAfterName : Nat → List Argument → List Char → Option (List Argument × List Char)
  | 0, _, _ => none
  | fuel + 1, acc, input =>
      match input with
      | ']' :: r => pBodyCheck fuel acc r
      | ' ' :: '|' :: ' ' :: r =>
          match pBracketInner fuel r with
          | some (inner, r') =>
              some (acc ++ [Argument.Pos (.Content (.cons (.Expr (.Call inner)) .nil))], r')
          | none => none
      | ' ' :: r =>
          match pArg fuel r with
          | some (a, r') => pArgsLoop fuel (acc ++ [a]) r'
          | none => none
      | _ => none

/-- `Modelled from the spec:` the header argument loop: `", "`-separated
arguments until a chain separator or the closing `]`. -/
def pArgsLoop : Nat → List Argument → List Char → Option (List Argument × List Char)
  | 0, _, _ => none
  | fuel + 1, acc, input =>
      match input with
      | ',' :: ' ' :: r =>
          match pArg fuel r with
          | some (a, r') => pArgsLoop fuel (acc ++ [a]) r'
          | none => none
      | ' ' :: '|' :: ' ' :: r =>
          match pBracketInner fuel r with
          | some (inner, r') =>
              some (acc ++ [Argument.Pos (.Content (.cons (.Expr (.Call inner)) .nil))], r')
          | none => none
      | ']' :: r => pBodyCheck fuel acc r
      | _ => none

/-- `Modelled from the spec:` after a closed bracket header, an immediately
following `[` opens the call's body markup (this greedy attachment is the
source of the body/adjacent-call ambiguity). -/
def pBodyCheck : Nat → List Argument → List Char → Option (List Argument × List Char)
  | 0, _, _ => none
  | fuel + 1, acc, input =>
      match input with
      | '[' :: r =>
          match pMarkup fuel r with
          | some (t, ']' :: r') => some (acc ++ [Argument.Pos (.Content t)], r')
          | _ => none
      | _ => some (acc, input)

/-- `Modelled from the spec:` parse one call argument: `name: value` when an
identifier is followed by `": "`, a positional expression otherwise. -/
def pArg : Nat → List Char → Option (Argument × List Char)
  | 0, _ => none
  | fuel + 1, input =>
      match takeAlpha input with
      | (nm, ':' :: ' ' :: r') =>
          if nm.isEmpty then
            match pExpr fuel input with
            | some (e, r) => some (.Pos e, r)
            | none => none
          else
            match pExpr fuel r' with
            | some (v, r'') => some (.Named (.mk (String.mk nm) v), r'')
            | none => none
      | _ =>
          match pExpr fuel input with
          | some (e, r) => some (.Pos e, r)
          | none => none

/-- `Modelled from the spec:` parse an expression: a primary followed by a
flat ` op `-separated binary tail (the printer emits no parentheses, so any
association re-prints identically). -/
def pExpr : Nat → List Char → Option (Expr × List Char)
  | 0, _ => none
  | fuel + 1, input =>
      match pPrimary fuel input with
      | some (e, r) => pBinTail fuel e r
      | none => none

/-- `Modelled from the spec:` the binary-operator loop: while the input
continues with a space, an operator character and a space, parse another
primary and extend the left-nested spine. -/
def pBinTail : Nat → Expr → List Char → Option (Expr × List Char)
  | 0, _, _ => none
  | fuel + 1, acc, input =>
      match input with
      | ' ' :: c :: ' ' :: r =>
          match binOpOf c with
          | some op =>
              match pPrimary fuel r with
              | some (rhs, r') => pBinTail fuel (.Binary acc op rhs) r'
              | none => none
          | none => some (acc, input)
      | _ => some (acc, input)

/-- `Modelled from the spec:` parse a primary expression: unary minus,
array/dictionary in parentheses, braced content, a bracket call (wrapped as
content, mirroring how the printer elides the braces of a single-call content
block), a string, a color, a number, or a keyword/identifier/generic call. -/
def pPrimary : Nat → List Char → Option (Expr × List Char)
  | 0, _ => none
  | fuel + 1, input =>
      match input with
      | '-' :: r =>
          match pPrimary fuel r with
          | some (e, r') => some (.Unary .Neg e, r')
          | none => none
      | '(' :: r => pParen fuel r
      | '\x7b' :: r =>
          match pMarkup fuel r with
          | some (t, '\x7d' :: r') => some (.Content t, r')
          | _ => none
      | '[' :: r =>
          match pBracketInner fuel r with
          | some (c, r') => some (.Content (.cons (.Expr (.Call c)) .nil), r')
          | none => none
      | '"' :: r =>
          match pStrBody fuel r with
          | some (cs, r') => some (.Str (String.mk cs), r')
          | none => none
      | '#' :: r => pColor r
      | c :: _ =>
          if c.isDigit then pNumber input
          else if c.isAlpha then
            match takeAlpha input with
            | (nm, r') =>
                if String.mk nm = "none" then some (.None, r')
                else if String.mk nm = "true" then some (.Bool true, r')
                else if String.mk nm = "false" then some (.Bool false, r')
                else
                  match r' with
                  | '(' :: r'' =>
                      match pParenArgs fuel r'' with
                      | some (args, r''') =>
                          some (.Call (.mk (String.mk nm) (Args.ofList args)), r''')
                      | none => none
                  | _ => some (.Ident (String.mk nm), r')
          else none
      | [] => none

/-- `Modelled from the spec:` the argument list of a generic parenthesized
call, after the `(`. -/
def pParenArgs : Nat → List Char → Option (List Argument × List Char)
  | 0, _ => none
  | fuel + 1, input =>
      match input with
      | ')' :: r => some ([], r)
      | _ =>
          match pArg fuel input with
          | some (a, r) => pParenArgsLoop fuel [a] r
          | none => none

/-- `Modelled from the spec:` the `", "`-separated continuation of a generic
call's argument list, up to the closing `)`. -/
def pParenArgsLoop : Nat → List Argument → List Char → Option (List Argument × List Char)
  | 0, _, _ => none
  | fuel + 1, acc, input =>
      match input with
      | ')' :: r => some (acc, r)
      | ',' :: ' ' :: r =>
          match pArg fuel r with
          | some (a, r') => pParenArgsLoop fuel (acc ++ [a]) r'
          | none => none
      | _ => none

/-- `Modelled from the spec:` an opening parenthesis in primary position:
the empty array `()`, the empty dictionary `(:)`, a dictionary when an
identifier key is followed by `": "`, an array otherwise. -/
def pParen : Nat → List Char → Option (Expr × List Char)
  | 0, _ => none
  | fuel + 1, input =>
      match input with
      | ')' :: r => some (.Array .nil, r)
      | ':' :: ')' :: r => some (.Dict .nil, r)
      | _ =>
          match takeAlpha input with
          | (nm, ':' :: ' ' :: r') =>
              if nm.isEmpty then pArrayStart fuel input
              else
                match pExpr fuel r' with
                | some (v, r'') => pDictLoop fuel [Named.mk (String.mk nm) v] r''
                | none => none
          | _ => pArrayStart fuel input

/-- `Modelled from the spec:` the first element of a non-empty array. -/
def pArrayStart : Nat → List Char → Option (Expr × List Char)
  | 0, _ => none
  | fuel + 1, input =>
      match pExpr fuel input with
      | some (e, r) => pArrayLoop fuel [e] r
      | none => none

/-- `Modelled from the spec:` the element loop of an array: `", "`-separated
elements, a trailing `,` allowed before the closing `)`. -/
def pArrayLoop : Nat → List Expr → List Char → Option (Expr × List Char)
  | 0, _, _ => none
  | fuel + 1, acc, input =>
      match input with
      | ',' :: ')' :: r => some (.Array (Exprs.ofList acc), r)
      | ',' :: ' ' :: r =>
          match pExpr fuel r with
          | some (e, r') => pArrayLoop fuel (acc ++ [e]) r'
          | none => none
      | ')' :: r => some (.Array (Exprs.ofList acc), r)
      | _ => none

/-- `Modelled from the spec:` the pair loop of a non-empty dictionary. -/
def pDictLoop : Nat → List Named → List Char → Option (Expr × List Char)
  | 0, _, _ => none
  | fuel + 1, acc, input =>
      match input with
      | ')' :: r => some (.Dict (Nameds.ofList acc), r)
      | ',' :: ' ' :: r =>
          match takeAlpha r with
          | (nm, ':' :: ' ' :: r') =>
              if nm.isEmpty then none
              else
                match pExpr fuel r' with
                | some (v, r'') => pDictLoop fuel (acc ++ [Named.mk (String.mk nm) v]) r''
                | none => none
          | _ => none
      | _ => none

/-- `Modelled from the spec:` the body of a string literal after the opening
quote, inverting the escaping, up to the closing quote. -/
def pStrBody : Nat → List Char → Option (List Char × List Char)
  | 0, _ => none
  | fuel + 1, input =>
      match input with
      | [] => none
      | '"' :: r => some ([], r)
      | '\\' :: r =>
          match r with
          | 'n' :: r' =>
              match pStrBody fuel r' with
              | some (cs, rr) => some ('\n' :: cs, rr)
              | none => none
          | 'r' :: r' =>
              match pStrBody fuel r' with
              | some (cs, rr) => some ('\r' :: cs, rr)
              | none => none
          | 't' :: r' =>
              match pStrBody fuel r' with
              | some (cs, rr) => some ('\t' :: cs, rr)
              | none => none
          | '"' :: r' =>
              match pStrBody fuel r' with
              | some (cs, rr) => some ('"' :: cs, rr)
              | none => none
          | '\\' :: r' =>
              match pStrBody fuel r' with
              | some (cs, rr) => some ('\\' :: cs, rr)
              | none => none
          | 'u' :: '\x7b' :: r' =>
              match takeHex r' with
              | ([], _) => none
              | (hs, '\x7d' :: r'') =>
                  match pStrBody fuel r'' with
                  | some (cs, rr) => some (Char.ofNat (hexVal hs) :: cs, rr)
                  | none => none
              | (_, _) => none
          | _ => none
      | c :: r =>
          match pStrBody fuel r with
          | some (cs, rr) => some (c :: cs, rr)
          | none => none

end

/-- A tree whose print is not stable under one parse/print round trip: a call
to `outer` whose trailing content block holds two adjacent argumentless call
nodes `[v]` and `[w]`. -/
def ex_unstable : Tree' :=
  .cons (.Expr (.Call (.mk "outer" (.cons (.Pos (.Content
    (.cons (.Expr (.Call (.mk "v" .nil)))
      (.cons (.Expr (.Call (.mk "w" .nil))) .nil)))) .nil)))) .nil

/-- What the modelled parser returns for `print ex_unstable`: the body text
`[v][w]` re-parses as a single call `v` with body `w`, so the content block
now holds exactly one call node. -/
def ex_unstable_reparsed : Tree' :=
  .cons (.Expr (.Call (.mk "outer" (.cons (.Pos (.Content
    (.cons (.Expr (.Call (.mk "v" (.cons (.Pos (.Content
      (.cons (.Text 'w') .nil))) .nil))))
      .nil))) .nil)))) .nil

/-- C2, counterexample: `ex_unstable` prints as `[outer][[v][w]]`; parsing
that string yields `ex_unstable_reparsed`, whose content block holds exactly
one call node, so the chain rule of `pretty_bracket_call` fires on re-print
and produces `[outer | v][w]` — not byte-identical to the first print. Print
is therefore not a fixed point of one parse/print round trip. -/
theorem claim_C2_counterexample :
    Tree'.pretty ex_unstable = "[outer][[v][w]]" ∧
    pMarkup 64 (Tree'.pretty ex_unstable).data = some (ex_unstable_reparsed, []) ∧
    Tree'.pretty ex_unstable_reparsed = "[outer | v][w]" ∧
    Tree'.pretty ex_unstable_reparsed ≠ Tree'.pretty ex_unstable := by
  have h0 : Tree'.pretty ex_unstable = "[outer][[v][w]]" := by
    simp only [ex_unstable, Tree'.pretty, Node.pretty, pretty_bracket_call,
      bracketRest, bracketFirst, chainOrBody]
    rfl
  have h1 : Tree'.pretty ex_unstable_reparsed = "[outer | v][w]" := by
    simp only [ex_unstable_reparsed, Tree'.pretty, Node.pretty,
      pretty_bracket_call, bracketRest, bracketFirst, chainOrBody]
    rfl
  refine ⟨h0, ?_, h1, ?_⟩
  · rw [h0]
    rfl
  · rw [h0, h1]
    decide

/-- The input does not start with a decimal digit. -/
def noDigitHead : List Char → Bool
  | [] => true
  | c :: _ => !c.isDigit

/-- The input does not start with an alphabetic character. -/
def noAlphaHead : List Char → Bool
  | [] => true
  | c :: _ => !c.isAlpha

/-- The input does not start with a hex digit. -/
def noHexHead : List Char → Bool
  | [] => true
  | c :: _ => (hexDigitVal c).isNone

/-- Characters that may legally follow a printed primary expression. -/
def followPrim : List Char → Bool
  | [] => true
  | c :: _ => c == ',' || c == ')' || c == ']' || c == '\x7d' || c == ' '

/-- Characters that may legally follow a printed expression: list/pair
separators, closers, or a chain separator — never a binary-operator
continuation. -/
def followExpr : List Char → Bool
  | [] => true
  | c :: r =>
      c == ',' || c == ')' || c == ']' || c == '\x7d' ||
        (c == ' ' && match r with
                     | c2 :: _ => c2 == '|'
                     | [] => false)

theorem followExpr_cases (rest : List Char) (h : followExpr rest = true) :
    rest = [] ∨ (∃ r, rest = ',' :: r) ∨ (∃ r, rest = ')' :: r) ∨
      (∃ r, rest = ']' :: r) ∨ (∃ r, rest = '\x7d' :: r) ∨
      (∃ r, rest = ' ' :: '|' :: r) := by
  cases rest with
  | nil => exact Or.inl rfl
  | cons c r =>
    simp only [followExpr, Bool.or_eq_true, beq_iff_eq, Bool.and_eq_true] at h
    rcases h with (((h | h) | h) | h) | ⟨h, h2⟩
    · exact Or.inr (Or.inl ⟨r, by rw [h]⟩)
    · exact Or.inr (Or.inr (Or.inl ⟨r, by rw [h]⟩))
    · exact Or.inr (Or.inr (Or.inr (Or.inl ⟨r, by rw [h]⟩)))
    · exact Or.inr (Or.inr (Or.inr (Or.inr (Or.inl ⟨r, by rw [h]⟩))))
    · cases r with
      | nil => simp at h2
      | cons c2 r' =>
        simp only [beq_iff_eq] at h2
        exact Or.inr (Or.inr (Or.inr (Or.inr (Or.inr ⟨r', by rw [h, h2]⟩))))

theorem followPrim_cases (rest : List Char) (h : followPrim rest = true) :
    rest = [] ∨ (∃ c r, rest = c :: r ∧
      (c = ',' ∨ c = ')' ∨ c = ']' ∨ c = '\x7d' ∨ c = ' ')) := by
  cases rest with
  | nil => exact Or.inl rfl
  | cons c r =>
    simp only [followPrim, Bool.or_eq_true, beq_iff_eq] at h
    refine Or.inr ⟨c, r, rfl, ?_⟩
    tauto

theorem followExpr_followPrim (rest : List Char) (h : followExpr rest = true) :
    followPrim rest = true := by
  rcases followExpr_cases rest h with h | ⟨r, h⟩ | ⟨r, h⟩ | ⟨r, h⟩ | ⟨r, h⟩ | ⟨r, h⟩ <;>
    subst h <;> rfl

theorem followPrim_noDigitHead (rest : List Char) (h : followPrim rest = true) :
    noDigitHead rest = true := by
  rcases followPrim_cases rest h with h | ⟨c, r, rfl, hc⟩
  · subst h; rfl
  · rcases hc with rfl | rfl | rfl | rfl | rfl <;> rfl

theorem followPrim_noAlphaHead (rest : List Char) (h : followPrim rest = true) :
    noAlphaHead rest = true := by
  rcases followPrim_cases rest h with h | ⟨c, r, rfl, hc⟩
  · subst h; rfl
  · rcases hc with rfl | rfl | rfl | rfl | rfl <;> rfl

theorem followPrim_noHexHead (rest : List Char) (h : followPrim rest = true) :
    noHexHead rest = true := by
  rcases followPrim_cases rest h with h | ⟨c, r, rfl, hc⟩
  · subst h; rfl
  · rcases hc with rfl | rfl | rfl | rfl | rfl <;> rfl

theorem digitChar_isDigit : ∀ d, d < 10 → (Nat.digitChar d).isDigit = true := by
  decide

theorem digitChar_val : ∀ d, d < 10 → (Nat.digitChar d).toNat - 48 = d := by
  decide

theorem hexDigitVal_digitChar : ∀ d, d < 16 → hexDigitVal (Nat.digitChar d) = some d := by
  decide

theorem takeDigits_append : ∀ (l rest : List Char),
    (∀ c ∈ l, c.isDigit = true) → noDigitHead rest = true →
    takeDigits (l ++ rest) = (l.map (fun c => c.toNat - 48), rest)
  | [], rest, _, hr => by
      cases rest with
      | nil => rfl
      | cons c r =>
        simp only [noDigitHead, Bool.not_eq_true'] at hr
        simp [takeDigits, hr]
  | c :: l, rest, hl, hr => by
      have hc : c.isDigit = true := hl c (by simp)
      have ih := takeDigits_append l rest (fun x hx => hl x (by simp [hx])) hr
      simp [takeDigits, hc, ih]

theorem takeAlpha_append : ∀ (l rest : List Char),
    (∀ c ∈ l, c.isAlpha = true) → noAlphaHead rest = true →
    takeAlpha (l ++ rest) = (l, rest)
  | [], rest, _, hr => by
      cases rest with
      | nil => rfl
      | cons c r =>
        simp only [noAlphaHead, Bool.not_eq_true'] at hr
        simp [takeAlpha, hr]
  | c :: l, rest, hl, hr => by
      have hc : c.isAlpha = true := hl c (by simp)
      have ih := takeAlpha_append l rest (fun x hx => hl x (by simp [hx])) hr
      simp [takeAlpha, hc, ih]

theorem takeHex_append : ∀ (ds : List Nat) (rest : List Char),
    (∀ d ∈ ds, d < 16) → noHexHead rest = true →
    takeHex ((ds.map Nat.digitChar) ++ rest) = (ds, rest)
  | [], rest, _, hr => by
      cases rest with
      | nil => rfl
      | cons c r =>
        simp only [noHexHead, Option.isNone_iff_eq_none] at hr
        simp [takeHex, hr]
  | d :: ds, rest, hd, hr => by
      have hv := hexDigitVal_digitChar d (hd d (by simp))
      have ih := takeHex_append ds rest (fun x hx => hd x (by simp [hx])) hr
      simp [takeHex, hv, ih]

theorem map_val_digitChar : ∀ (ds : List Nat), (∀ d ∈ ds, d < 10) →
    (ds.map Nat.digitChar).map (fun c => c.toNat - 48) = ds
  | [], _ => rfl
  | d :: ds, h => by
      have := digitChar_val d (h d (by simp))
      have ih := map_val_digitChar ds (fun x hx => h x (by simp [hx]))
      simp only [List.map_cons] at ih ⊢
      rw [this, ih]

theorem natCharsAux_spec : ∀ (fuel n : Nat), n ≤ fuel →
    (∀ c ∈ natCharsAux (fuel + 1) n, c.isDigit = true) ∧
    digitsVal ((natCharsAux (fuel + 1) n).map (fun c => c.toNat - 48)) = n ∧
    natCharsAux (fuel + 1) n ≠ [] := by
  intro fuel
  induction fuel with
  | zero =>
      intro n hn
      interval_cases n
      refine ⟨?_, ?_, ?_⟩ <;> decide
  | succ f ih =>
      intro n hn
      by_cases h10 : n < 10
      · refine ⟨?_, ?_, ?_⟩
        · intro c hc
          simp only [natCharsAux, if_pos h10, List.mem_singleton] at hc
          subst hc
          exact digitChar_isDigit n h10
        · simp only [natCharsAux, if_pos h10, List.map_cons, List.map_nil]
          simp [digitsVal, digitChar_val n h10]
        · simp [natCharsAux, if_pos h10]
      · have hm : n / 10 ≤ f := by omega
        obtain ⟨ihd, ihv, ihne⟩ := ih (n / 10) hm
        have hmod : n % 10 < 10 := Nat.mod_lt n (by omega)
        have hunf : natCharsAux (f + 1 + 1) n =
            natCharsAux (f + 1) (n / 10) ++ [Nat.digitChar (n % 10)] := by
          conv_lhs => rw [natCharsAux]
          rw [if_neg h10]
        refine ⟨?_, ?_, ?_⟩
        · intro c hc
          rw [hunf] at hc
          simp only [List.mem_append, List.mem_singleton] at hc
          rcases hc with hc | hc
          · exact ihd c hc
          · subst hc; exact digitChar_isDigit _ hmod
        · rw [hunf]
          simp only [List.map_append, List.map_cons, List.map_nil]
          simp only [digitsVal, List.foldl_append, List.foldl_cons, List.foldl_nil]
          have hdc : (Nat.digitChar (n % 10)).toNat - 48 = n % 10 := digitChar_val _ hmod
          rw [hdc]
          simp only [digitsVal] at ihv
          rw [ihv]
          omega
        · rw [hunf]
          simp

theorem natChars_spec (n : Nat) :
    (∀ c ∈ natChars n, c.isDigit = true) ∧
    digitsVal ((natChars n).map (fun c => c.toNat - 48)) = n ∧
    natChars n ≠ [] :=
  natCharsAux_spec n n (Nat.le_refl n)

theorem hexCharsAux_spec : ∀ (fuel n : Nat), n ≤ fuel →
    ∃ ds : List Nat, (∀ d ∈ ds, d < 16) ∧
      hexCharsAux (fuel + 1) n = ds.map Nat.digitChar ∧ hexVal ds = n ∧ ds ≠ [] := by
  intro fuel
  induction fuel with
  | zero =>
      intro n hn
      interval_cases n
      exact ⟨[0], by decide, rfl, rfl, by decide⟩
  | succ f ih =>
      intro n hn
      by_cases h16 : n < 16
      · refine ⟨[n], ?_, ?_, ?_, by simp⟩
        · intro d hd
          simp only [List.mem_singleton] at hd
          omega
        · simp [hexCharsAux, if_pos h16]
        · simp [hexVal]
      · have hm : n / 16 ≤ f := by omega
        obtain ⟨ds, hds, heq, hval, hne⟩ := ih (n / 16) hm
        have hmod : n % 16 < 16 := Nat.mod_lt n (by omega)
        refine ⟨ds ++ [n % 16], ?_, ?_, ?_, by simp⟩
        · intro d hd
          simp only [List.mem_append, List.mem_singleton] at hd
          rcases hd with hd | hd
          · exact hds d hd
          · omega
        · have hunf : hexCharsAux (f + 1 + 1) n =
              hexCharsAux (f + 1) (n / 16) ++ [Nat.digitChar (n % 16)] := by
            conv_lhs => rw [hexCharsAux]
            rw [if_neg h16]
          rw [hunf, heq, List.map_append, List.map_cons, List.map_nil]
        · simp only [hexVal, List.foldl_append, List.foldl_cons, List.foldl_nil]
          simp only [hexVal] at hval
          rw [hval]
          omega

theorem hexChars_spec (n : Nat) :
    ∃ ds : List Nat, (∀ d ∈ ds, d < 16) ∧
      hexChars n = ds.map Nat.digitChar ∧ hexVal ds = n ∧ ds ≠ [] :=
  hexCharsAux_spec n n (Nat.le_refl n)

theorem pStrBody_escape : ∀ (l : List Char) (fuel : Nat) (rest : List Char),
    l.length < fuel →
    pStrBody fuel ((l.map escapeChars).flatten ++ '"' :: rest) = some (l, rest)
  | [], fuel, rest, h => by
      obtain ⟨f, rfl⟩ : ∃ f, fuel = f + 1 := ⟨fuel - 1, by omega⟩
      rfl
  | c :: l, fuel, rest, h => by
      obtain ⟨f, rfl⟩ : ∃ f, fuel = f + 1 := ⟨fuel - 1, by omega⟩
      have ih := pStrBody_escape l f rest (by simpa using Nat.lt_of_succ_lt_succ h)
      simp only [List.map_cons, List.flatten_cons, List.append_assoc]
      by_cases h1 : c = '"'
      · subst h1; simp [escapeChars, pStrBody, ih]
      · by_cases h2 : c = '\\'
        · subst h2; simp [escapeChars, pStrBody, ih, h1]
        · by_cases h3 : c = '\n'
          · subst h3; simp [escapeChars, pStrBody, ih]
          · by_cases h4 : c = '\r'
            · subst h4; simp [escapeChars, pStrBody, ih]
            · by_cases h5 : c = '\t'
              · subst h5; simp [escapeChars, pStrBody, ih]
              · by_cases h6 : c.toNat < 32 ∨ c.toNat = 127
                · obtain ⟨ds, hds, heq, hval, hne⟩ := hexChars_spec c.toNat
                  have hth := takeHex_append ds ('\x7d' :: (l.map escapeChars).flatten ++ '"' :: rest)
                    hds (by rfl)
                  simp only [escapeChars, if_neg h1, if_neg h2, if_neg h3, if_neg h4,
                    if_neg h5, if_pos h6, heq]
                  simp only [pStrBody, List.cons_append, List.nil_append,
                    List.append_assoc] at hth ⊢
                  rw [hth]
                  cases ds with
                  | nil => exact absurd rfl hne
                  | cons d ds' =>
                      simp only [ih]
                      rw [hval]
                      simp [Char.ofNat_toNat]
                · simp only [escapeChars, if_neg h1, if_neg h2, if_neg h3, if_neg h4,
                    if_neg h5, if_neg h6, List.cons_append, List.nil_append]
                  simp [pStrBody, ih, h1, h2]

/-- Whether an expression is a call (used to track that reparsing preserves
the printing branch taken for markup and content nodes). -/
def isCallE : Expr → Bool
  | .Call _ => true
  | _ => false

/-- Whether an expression is a content block. -/
def isContentE : Expr → Bool
  | .Content _ => true
  | _ => false

/-- The leftmost primary of an expression's printed form: binary spines are
followed to the left, unary operators decorate the atom. -/
def atomExpr : Expr → Expr
  | .Binary l _ _ => atomExpr l
  | .Unary op e => .Unary op (atomExpr e)
  | e => e

/-- The flat operator chain of an expression's printed form: each entry is an
operator and the atom of its right operand, in print order. -/
def chainOps : Expr → List (BinOp × Expr)
  | .Binary l op r => chainOps l ++ (op, atomExpr r) :: chainOps r
  | .Unary _ e => chainOps e
  | _ => []

/-- The printed text of an operator chain. -/
def opsStr : List (BinOp × Expr) → String
  | [] => ""
  | (op, a) :: t => " " ++ op.pretty ++ " " ++ Expr.pretty a ++ opsStr t

/-- Parser fuel bound for an operator chain. -/
def opsFuel : List (BinOp × Expr) → Nat
  | [] => 0
  | (_, a) :: t => 2 + szE a + opsFuel t

theorem opsStr_append : ∀ (s t : List (BinOp × Expr)),
    opsStr (s ++ t) = opsStr s ++ opsStr t
  | [], t => by simp [opsStr]
  | (op, a) :: s, t => by
      simp [opsStr, opsStr_append s t, String.append_assoc]

theorem opsFuel_append : ∀ (s t : List (BinOp × Expr)),
    opsFuel (s ++ t) = opsFuel s + opsFuel t
  | [], t => by simp [opsFuel]
  | (_, a) :: s, t => by
      simp [opsFuel, opsFuel_append s t]
      omega

theorem pretty_split : ∀ (e : Expr),
    Expr.pretty e = Expr.pretty (atomExpr e) ++ opsStr (chainOps e)
  | .Binary l op r => by
      have ihl := pretty_split l
      have ihr := pretty_split r
      simp only [Expr.pretty, atomExpr, chainOps, opsStr_append, opsStr]
      rw [ihl, ihr]
      simp [String.append_assoc]
  | .Unary op e => by
      have ih := pretty_split e
      simp only [Expr.pretty, atomExpr, chainOps]
      rw [ih]
      simp [Expr.pretty, String.append_assoc]
  | .None => by simp [atomExpr, chainOps, opsStr]
  | .Ident v => by simp [atomExpr, chainOps, opsStr]
  | .Bool v => by simp [atomExpr, chainOps, opsStr]
  | .Int v => by simp [atomExpr, chainOps, opsStr]
  | .Float v => by simp [atomExpr, chainOps, opsStr]
  | .Length v u => by simp [atomExpr, chainOps, opsStr]
  | .Percent v => by simp [atomExpr, chainOps, opsStr]
  | .Color v => by simp [atomExpr, chainOps, opsStr]
  | .Str s => by simp [atomExpr, chainOps, opsStr]
  | .Call c => by simp [atomExpr, chainOps, opsStr]
  | .Array items => by simp [atomExpr, chainOps, opsStr]
  | .Dict pairs => by simp [atomExpr, chainOps, opsStr]
  | .Content t => by simp [atomExpr, chainOps, opsStr]

theorem chainOps_atom : ∀ (e : Expr), chainOps (atomExpr e) = []
  | .Binary l _ _ => by simp [atomExpr, chainOps_atom l]
  | .Unary op e => by simp [atomExpr, chainOps, chainOps_atom e]
  | .None => rfl
  | .Ident _ => rfl
  | .Bool _ => rfl
  | .Int _ => rfl
  | .Float _ => rfl
  | .Length _ _ => rfl
  | .Percent _ => rfl
  | .Color _ => rfl
  | .Str _ => rfl
  | .Call _ => rfl
  | .Array _ => rfl
  | .Dict _ => rfl
  | .Content _ => rfl

theorem wf_atom_chain : ∀ (e : Expr), wfE e = true →
    wfE (atomExpr e) = true ∧ ∀ p ∈ chainOps e, wfE p.2 = true
  | .Binary l op r => fun h => by
      simp only [wfE, Bool.and_eq_true] at h
      obtain ⟨ihl, ihcl⟩ := wf_atom_chain l h.1
      obtain ⟨ihr, ihcr⟩ := wf_atom_chain r h.2
      refine ⟨by simpa [atomExpr] using ihl, ?_⟩
      intro p hp
      simp only [chainOps, List.mem_append, List.mem_cons] at hp
      rcases hp with hp | hp | hp
      · exact ihcl p hp
      · subst hp; exact ihr
      · exact ihcr p hp
  | .Unary op e => fun h => by
      simp only [wfE] at h
      obtain ⟨ih1, ih2⟩ := wf_atom_chain e h
      exact ⟨by simpa [atomExpr, wfE] using ih1, by simpa [chainOps] using ih2⟩
  | .None => fun h => ⟨h, by simp [chainOps]⟩
  | .Ident _ => fun h => ⟨h, by simp [chainOps]⟩
  | .Bool _ => fun h => ⟨h, by simp [chainOps]⟩
  | .Int _ => fun h => ⟨h, by simp [chainOps]⟩
  | .Float _ => fun h => ⟨h, by simp [chainOps]⟩
  | .Length _ _ => fun h => ⟨h, by simp [chainOps]⟩
  | .Percent _ => fun h => ⟨h, by simp [chainOps]⟩
  | .Color _ => fun h => ⟨h, by simp [chainOps]⟩
  | .Str _ => fun h => ⟨h, by simp [chainOps]⟩
  | .Call _ => fun h => ⟨h, by simp [chainOps]⟩
  | .Array _ => fun h => ⟨h, by simp [chainOps]⟩
  | .Dict _ => fun h => ⟨h, by simp [chainOps]⟩
  | .Content _ => fun h => ⟨h, by simp [chainOps]⟩

theorem sz_atom_chain : ∀ (e : Expr),
    szE (atomExpr e) + opsFuel (chainOps e) ≤ szE e
  | .Binary l op r => by
      have ihl := sz_atom_chain l
      have ihr := sz_atom_chain r
      simp only [szE, atomExpr, chainOps, opsFuel_append, opsFuel]
      omega
  | .Unary op e => by
      have ih := sz_atom_chain e
      simp only [szE, atomExpr, chainOps]
      omega
  | .None => by simp [atomExpr, chainOps, opsFuel]
  | .Ident _ => by simp [atomExpr, chainOps, opsFuel]
  | .Bool _ => by simp [atomExpr, chainOps, opsFuel]
  | .Int _ => by simp [atomExpr, chainOps, opsFuel]
  | .Float _ => by simp [atomExpr, chainOps, opsFuel]
  | .Length _ _ => by simp [atomExpr, chainOps, opsFuel]
  | .Percent _ => by simp [atomExpr, chainOps, opsFuel]
  | .Color _ => by simp [atomExpr, chainOps, opsFuel]
  | .Str _ => by simp [atomExpr, chainOps, opsFuel]
  | .Call _ => by simp [atomExpr, chainOps, opsFuel]
  | .Array _ => by simp [atomExpr, chainOps, opsFuel]
  | .Dict _ => by simp [atomExpr, chainOps, opsFuel]
  | .Content _ => by simp [atomExpr, chainOps, opsFuel]

theorem flags_atom (e : Expr) (h : chainOps e = []) :
    isCallE (atomExpr e) = isCallE e ∧ isContentE (atomExpr e) = isContentE e := by
  cases e with
  | Binary l op r =>
      exfalso
      simp only [chainOps] at h
      exact absurd h (by simp)
  | Unary op e => simp [atomExpr, isCallE, isContentE]
  | _ => simp [atomExpr]

/-- Whether an argument is a positional content block (the shape that triggers
the chain/body sugar when in last position). -/
def isPosContentA : Argument → Bool
  | .Pos (.Content _) => true
  | .Pos _ => false
  | .Named _ => false

/-- Number of nodes of a markup tree. -/
def lenT : Tree' → Nat
  | .nil => 0
  | .cons _ t => lenT t + 1

/-- Whether a markup tree starts with a call node. -/
def headCall : Tree' → Bool
  | .cons (.Expr (.Call _)) _ => true
  | _ => false

/-- The input does not start with `[` (no body would be attached to a call
header that closes right before it). -/
def noLBracketHead : List Char → Bool
  | [] => true
  | c :: _ => !(c == '[')

/-- Characters that may follow printed markup: nothing (end of input) or the
delimiter closing the markup context. -/
def followMarkup : List Char → Bool
  | [] => true
  | c :: _ => c == ']' || c == '\x7d'

/-- The printed text of a bracket header after its first argument when the
last argument is not a positional content block: the remaining comma-joined
arguments and the closing bracket. -/
def othersTail : List Argument → String
  | [] => "]"
  | a :: l => ", " ++ Argument.pretty a ++ othersTail l

/-- The printed text of a bracket header after its first argument when the
last argument is a positional content block holding `t`: the remaining
comma-joined head arguments, then the chain-or-body rendering. -/
def contTail : List Argument → Tree' → String
  | [], t => chainOrBody t
  | a :: l, t => ", " ++ Argument.pretty a ++ contTail l t

/-- The printed text of an array's elements after the first: `", "` before
each. -/
def arrSep : List Expr → String
  | [] => ""
  | e :: l => ", " ++ Expr.pretty e ++ arrSep l

/-- The printed text of a dictionary's pairs after the first: `", "` before
each. -/
def dictSep : List Named → String
  | [] => ""
  | n :: l => ", " ++ Named.pretty n ++ dictSep l

theorem sepBy_close_othersTail : ∀ (l : List Argument) (a : Argument),
    sepBy ", " ((a :: l).map Argument.pretty) ++ "]" =
      Argument.pretty a ++ othersTail l
  | [], a => by simp [sepBy, othersTail]
  | b :: l, a => by
      have ih := sepBy_close_othersTail l b
      simp only [List.map_cons, sepBy, othersTail] at ih ⊢
      rw [String.append_assoc, String.append_assoc, ih]
      simp [String.append_assoc]

theorem sepBy_close_contTail : ∀ (l : List Argument) (a : Argument) (t : Tree'),
    sepBy ", " ((a :: l).map Argument.pretty) ++ chainOrBody t =
      Argument.pretty a ++ contTail l t
  | [], a, t => by simp [sepBy, contTail]
  | b :: l, a, t => by
      have ih := sepBy_close_contTail l b t
      simp only [List.map_cons, sepBy, contTail] at ih ⊢
      rw [String.append_assoc, String.append_assoc, ih]
      simp [String.append_assoc]

theorem sepBy_arrSep : ∀ (l : List Expr) (e : Expr),
    sepBy ", " ((e :: l).map Expr.pretty) = Expr.pretty e ++ arrSep l
  | [], e => by simp [sepBy, arrSep]
  | f :: l, e => by
      have ih := sepBy_arrSep l f
      simp only [List.map_cons, sepBy, arrSep] at ih ⊢
      rw [String.append_assoc, ih]
      simp [String.append_assoc]

theorem sepBy_dictSep : ∀ (l : List Named) (n : Named),
    sepBy ", " ((n :: l).map Named.pretty) = Named.pretty n ++ dictSep l
  | [], n => by simp [sepBy, dictSep]
  | m :: l, n => by
      have ih := sepBy_dictSep l m
      simp only [List.map_cons, sepBy, dictSep] at ih ⊢
      rw [String.append_assoc, ih]
      simp [String.append_assoc]

/-- The printed text of call arguments after the first. -/
def argSep : List Argument → String
  | [] => ""
  | a :: l => ", " ++ Argument.pretty a ++ argSep l

theorem sepBy_argSep : ∀ (l : List Argument) (a : Argument),
    sepBy ", " ((a :: l).map Argument.pretty) = Argument.pretty a ++ argSep l
  | [], a => by simp [sepBy, argSep]
  | b :: l, a => by
      have ih := sepBy_argSep l b
      simp only [List.map_cons, sepBy, argSep] at ih ⊢
      rw [String.append_assoc, ih]
      simp [String.append_assoc]

theorem dropWhile_idem (p : Nat → Bool) : ∀ (l : List Nat),
    (l.dropWhile p).dropWhile p = l.dropWhile p
  | [] => rfl
  | c :: l => by
      by_cases h : p c
      · simp [List.dropWhile_cons, h, dropWhile_idem p l]
      · simp [List.dropWhile_cons, h]

theorem stripZeros_idem (ds : List Nat) : stripZeros (stripZeros ds) = stripZeros ds := by
  simp only [stripZeros, List.reverse_reverse]
  rw [dropWhile_idem]

theorem stripZeros_mem {d : Nat} {ds : List Nat} (h : d ∈ stripZeros ds) : d ∈ ds := by
  simp only [stripZeros, List.mem_reverse] at h
  have := (List.dropWhile_sublist (l := ds.reverse) (p := fun x => x = 0)).mem h
  simpa using this

theorem alpha_not_special (c : Char) (h : c.isAlpha = true) :
    c ≠ ')' ∧ c ≠ ',' ∧ c ≠ ']' ∧ c ≠ '|' ∧ c ≠ ':' ∧ c ≠ ' ' ∧ c ≠ '\x7d' ∧
      c ≠ '[' ∧ c ≠ '(' ∧ c ≠ '.' := by
  refine ⟨?_, ?_, ?_, ?_, ?_, ?_, ?_, ?_, ?_, ?_⟩ <;>
    (rintro rfl; exact absurd h (by decide))

theorem digit_not_special (c : Char) (h : c.isDigit = true) :
    c ≠ ')' ∧ c ≠ ',' ∧ c ≠ ']' ∧ c ≠ '|' ∧ c ≠ ':' ∧ c ≠ ' ' ∧ c ≠ '\x7d' ∧
      c ≠ '[' ∧ c ≠ '(' ∧ c ≠ '.' := by
  refine ⟨?_, ?_, ?_, ?_, ?_, ?_, ?_, ?_, ?_, ?_⟩ <;>
    (rintro rfl; exact absurd h (by decide))

theorem identOk_spec {s : String} (h : identOk s = true) :
    s.data ≠ [] ∧ (∀ c ∈ s.data, c.isAlpha = true) ∧
      s ≠ "none" ∧ s ≠ "true" ∧ s ≠ "false" := by
  simp only [identOk, Bool.and_eq_true, Bool.not_eq_true', Bool.or_eq_false_iff,
    decide_eq_false_iff_not, List.all_eq_true] at h
  obtain ⟨⟨h1, h2⟩, ⟨h3, h4⟩, h5⟩ := h
  refine ⟨?_, h2, h3, h4, h5⟩
  intro hnil
  rw [hnil] at h1
  simp at h1

theorem natStr_head (n : Nat) :
    ∃ c cs, (natStr n).data = c :: cs ∧ c.isDigit = true := by
  obtain ⟨hd, _, hne⟩ := natChars_spec n
  cases h : natChars n with
  | nil => exact absurd h hne
  | cons c cs =>
      exact ⟨c, cs, by simp [natStr, h], hd c (by rw [h]; simp)⟩

theorem pce_shape : ∀ (t : Tree'),
    (∃ c, t = Tree'.cons (.Expr (.Call c)) .nil) ∨
      pretty_content_expr t = "\x7b" ++ Tree'.pretty t ++ "\x7d" := by
  intro t
  cases t with
  | nil => exact Or.inr (by simp [pretty_content_expr])
  | cons n t' =>
    cases n with
    | Text ch => exact Or.inr (by cases t' <;> simp [pretty_content_expr])
    | Expr e =>
        cases e <;> cases t' <;>
          first
            | exact Or.inl ⟨_, rfl⟩
            | exact Or.inr (by simp [pretty_content_expr])

theorem chainOrBody_shape : ∀ (t : Tree'),
    (∃ c, t = Tree'.cons (.Expr (.Call c)) .nil) ∨
      chainOrBody t = "][" ++ Tree'.pretty t ++ "]" := by
  intro t
  cases t with
  | nil => exact Or.inr (by simp [chainOrBody])
  | cons n t' =>
    cases n with
    | Text ch => exact Or.inr (by cases t' <;> simp [chainOrBody])
    | Expr e =>
        cases e <;> cases t' <;>
          first
            | exact Or.inl ⟨_, rfl⟩
            | exact Or.inr (by simp [chainOrBody])

theorem pce_single (c : ExprCall) :
    pretty_content_expr (.cons (.Expr (.Call c)) .nil) = pretty_bracket_call c false := by
  simp [pretty_content_expr]

theorem exists_head_append (s t : String) (c : Char)
    (h : ∃ cs, s.data = c :: cs) : ∃ cs, (s ++ t).data = c :: cs := by
  obtain ⟨cs, hcs⟩ := h
  exact ⟨cs ++ t.data, by simp [String.data_append, hcs]⟩

theorem display_head (f : FloatLit) :
    ∃ c cs, (FloatLit.display f).data = c :: cs ∧ (c.isDigit = true ∨ c = '-') := by
  by_cases hneg : f.neg = true
  · have h : ∃ cs, (FloatLit.display f).data = '-' :: cs := by
      simp only [FloatLit.display, if_pos hneg]
      apply exists_head_append
      apply exists_head_append
      exact ⟨[], rfl⟩
    obtain ⟨cs, hcs⟩ := h
    exact ⟨'-', cs, hcs, Or.inr rfl⟩
  · obtain ⟨c, cs0, hnat, hdig⟩ := natStr_head f.ip
    have h : ∃ cs, (FloatLit.display f).data = c :: cs := by
      simp only [FloatLit.display, if_neg hneg, String.empty_append]
      apply exists_head_append
      exact ⟨cs0, hnat⟩
    obtain ⟨cs, hcs⟩ := h
    exact ⟨c, cs, hcs, Or.inl hdig⟩

theorem prE_head : ∀ (e : Expr), wfE e = true →
    ∃ c cs, (Expr.pretty e).data = c :: cs ∧
      (c.isAlpha = true ∨ c.isDigit = true ∨
        c = '-' ∨ c = '(' ∨ c = '[' ∨ c = '\x7b' ∨ c = '"' ∨ c = '#')
  | .None, _ => ⟨'n', ['o', 'n', 'e'], by simp [Expr.pretty], by decide⟩
  | .Ident v, h => by
      obtain ⟨hne, hall, _⟩ := identOk_spec (by simpa [wfE] using h)
      cases hd : v.data with
      | nil => exact absurd hd hne
      | cons c cs =>
          exact ⟨c, cs, by simp [Expr.pretty, hd],
            Or.inl (hall c (by rw [hd]; simp))⟩
  | .Bool v, _ => by
      cases v
      · exact ⟨'f', ['a', 'l', 's', 'e'], by simp [Expr.pretty], by decide⟩
      · exact ⟨'t', ['r', 'u', 'e'], by simp [Expr.pretty], by decide⟩
  | .Int v, _ => by
      by_cases hv : v < 0
      · have h : ∃ cs, (intStr v).data = '-' :: cs := by
          simp only [intStr, if_pos hv]
          apply exists_head_append
          exact ⟨[], rfl⟩
        obtain ⟨cs, hcs⟩ := h
        exact ⟨'-', cs, by simpa [Expr.pretty] using hcs, by decide⟩
      · obtain ⟨c, cs0, hnat, hdig⟩ := natStr_head v.natAbs
        have h : ∃ cs, (intStr v).data = c :: cs := by
          simp only [intStr, if_neg hv, String.empty_append]
          exact ⟨cs0, hnat⟩
        obtain ⟨cs, hcs⟩ := h
        exact ⟨c, cs, by simpa [Expr.pretty] using hcs, Or.inr (Or.inl hdig)⟩
  | .Float v, _ => by
      obtain ⟨c, cs, hdata, hd⟩ := display_head v
      refine ⟨c, cs, by simpa [Expr.pretty] using hdata, ?_⟩
      rcases hd with hd | hd
      · exact Or.inr (Or.inl hd)
      · exact Or.inr (Or.inr (Or.inl hd))
  | .Length v u, _ => by
      obtain ⟨c, cs, hdata, hd⟩ := display_head v
      have h : ∃ cs', (Expr.pretty (.Length v u)).data = c :: cs' := by
        simp only [Expr.pretty]
        apply exists_head_append
        exact ⟨cs, hdata⟩
      obtain ⟨cs', hcs⟩ := h
      refine ⟨c, cs', hcs, ?_⟩
      rcases hd with hd | hd
      · exact Or.inr (Or.inl hd)
      · exact Or.inr (Or.inr (Or.inl hd))
  | .Percent v, _ => by
      obtain ⟨c, cs, hdata, hd⟩ := display_head v
      have h : ∃ cs', (Expr.pretty (.Percent v)).data = c :: cs' := by
        simp only [Expr.pretty]
        apply exists_head_append
        exact ⟨cs, hdata⟩
      obtain ⟨cs', hcs⟩ := h
      refine ⟨c, cs', hcs, ?_⟩
      rcases hd with hd | hd
      · exact Or.inr (Or.inl hd)
      · exact Or.inr (Or.inr (Or.inl hd))
  | .Color v, _ => by
      have h : ∃ cs, (Expr.pretty (.Color v)).data = '#' :: cs := by
        simp only [Expr.pretty, RgbaColor.display]
        apply exists_head_append
        apply exists_head_append
        apply exists_head_append
        apply exists_head_append
        exact ⟨[], rfl⟩
      obtain ⟨cs, hcs⟩ := h
      exact ⟨'#', cs, hcs, by decide⟩
  | .Str s, _ => by
      have h : ∃ cs, (Expr.pretty (.Str s)).data = '"' :: cs := by
        simp only [Expr.pretty, strLit]
        apply exists_head_append
        apply exists_head_append
        exact ⟨[], rfl⟩
      obtain ⟨cs, hcs⟩ := h
      exact ⟨'"', cs, hcs, by decide⟩
  | .Call c, h => by
      cases c with
      | mk name args =>
          have hwf : identOk name = true := by
            simp only [wfE, wfC, Bool.and_eq_true] at h
            exact h.1
          obtain ⟨hne, hall, _⟩ := identOk_spec hwf
          cases hd : name.data with
          | nil => exact absurd hd hne
          | cons c cs =>
              have hh : ∃ cs', (Expr.pretty (.Call (.mk name args))).data = c :: cs' := by
                simp only [Expr.pretty, ExprCall.pretty]
                apply exists_head_append
                apply exists_head_append
                apply exists_head_append
                exact ⟨cs, hd⟩
              obtain ⟨cs', hcs⟩ := hh
              exact ⟨c, cs', hcs, Or.inl (hall c (by rw [hd]; simp))⟩
  | .Unary op e, _ => by
      cases op
      have h : ∃ cs, (Expr.pretty (.Unary .Neg e)).data = '-' :: cs := by
        simp only [Expr.pretty, UnOp.pretty]
        apply exists_head_append
        exact ⟨[], rfl⟩
      obtain ⟨cs, hcs⟩ := h
      exact ⟨'-', cs, hcs, by decide⟩
  | .Binary l op r, h => by
      have hl : wfE l = true := by
        simp only [wfE, Bool.and_eq_true] at h
        exact h.1
      obtain ⟨c, cs, hdata, hcls⟩ := prE_head l hl
      have hh : ∃ cs', (Expr.pretty (.Binary l op r)).data = c :: cs' := by
        simp only [Expr.pretty]
        apply exists_head_append
        apply exists_head_append
        apply exists_head_append
        apply exists_head_append
        exact ⟨cs, hdata⟩
      obtain ⟨cs', hcs⟩ := hh
      exact ⟨c, cs', hcs, hcls⟩
  | .Array items, _ => by
      have h : ∃ cs, (Expr.pretty (.Array items)).data = '(' :: cs := by
        simp only [Expr.pretty]
        apply exists_head_append
        apply exists_head_append
        apply exists_head_append
        exact ⟨[], rfl⟩
      obtain ⟨cs, hcs⟩ := h
      exact ⟨'(', cs, hcs, by decide⟩
  | .Dict pairs, _ => by
      cases pairs with
      | nil => exact ⟨'(', [':', ')'], by simp [Expr.pretty], by decide⟩
      | cons n t =>
          have h : ∃ cs, (Expr.pretty (.Dict (.cons n t))).data = '(' :: cs := by
            simp only [Expr.pretty]
            apply exists_head_append
            apply exists_head_append
            exact ⟨[], rfl⟩
          obtain ⟨cs, hcs⟩ := h
          exact ⟨'(', cs, hcs, by decide⟩
  | .Content t, _ => by
      rcases pce_shape t with ⟨c, rfl⟩ | heq
      · cases c with
        | mk nm args =>
            have h : ∃ cs, (pretty_bracket_call (.mk nm args) false).data = '[' :: cs := by
              rw [pretty_bracket_call_eq]
              apply exists_head_append
              apply exists_head_append
              exact ⟨[], rfl⟩
            obtain ⟨cs, hcs⟩ := h
            refine ⟨'[', cs, ?_, by decide⟩
            simpa [Expr.pretty, pretty_content_expr] using hcs
      · have h : ∃ cs, (pretty_content_expr t).data = '\x7b' :: cs := by
          rw [heq]
          apply exists_head_append
          apply exists_head_append
          exact ⟨[], rfl⟩
        obtain ⟨cs, hcs⟩ := h
        exact ⟨'\x7b', cs, by simpa [Expr.pretty] using hcs, by decide⟩

/-- The input does not start with a dot. -/
def noDotHead : List Char → Bool
  | [] => true
  | c :: _ => !(c == '.')

theorem pNumber_core (ip : Nat) (fs : List Nat) (rest' : List Char)
    (hfs : ∀ d ∈ fs, d < 10) (hnd : noDigitHead rest' = true)
    (hdot : noDotHead rest' = true) :
    pNumber (natChars ip ++ (if fs.isEmpty then [] else '.' :: fs.map Nat.digitChar) ++ rest') =
      some (numFinish ip fs rest') := by
  obtain ⟨hdig, hval, hne⟩ := natChars_spec ip
  by_cases hemp : fs.isEmpty
  · rw [if_pos hemp]
    have hfs0 : fs = [] := by
      cases fs with
      | nil => rfl
      | cons a b => simp at hemp
    subst hfs0
    simp only [List.append_nil]
    have htd := takeDigits_append (natChars ip) rest' hdig hnd
    cases hnc : natChars ip with
    | nil => exact absurd hnc hne
    | cons c cs =>
        rw [hnc] at htd
        simp only [pNumber, htd]
        rw [hnc] at hval
        simp only [List.map_cons] at htd hval ⊢
        cases hrest : rest' with
        | nil => simp [hval]
        | cons c2 r2 =>
            have hc2 : ¬c2 = '.' := by
              rw [hrest] at hdot
              simp only [noDotHead, Bool.not_eq_true', beq_eq_false_iff_ne, ne_eq] at hdot
              exact hdot
            rw [← hrest]
            split
            · injection hrest with h1 h2
              exact absurd h1.symm hc2
            · rw [hval]
  · rw [if_neg hemp]
    have hfsne : fs ≠ [] := by
      cases fs with
      | nil => simp at hemp
      | cons a b => simp
    have hfdig : ∀ c ∈ fs.map Nat.digitChar, c.isDigit = true := by
      intro c hc
      simp only [List.mem_map] at hc
      obtain ⟨d, hd, rfl⟩ := hc
      exact digitChar_isDigit d (hfs d hd)
    have htd1 := takeDigits_append (natChars ip) ('.' :: (fs.map Nat.digitChar ++ rest'))
      hdig (by rfl)
    have htd2 := takeDigits_append (fs.map Nat.digitChar) rest' hfdig hnd
    cases hnc : natChars ip with
    | nil => exact absurd hnc hne
    | cons c cs =>
        rw [hnc] at htd1
        rw [hnc] at hval
        simp only [List.cons_append, List.append_assoc] at htd1 ⊢
        simp only [pNumber, htd1]
        simp only [List.map_cons] at htd1 hval ⊢
        rw [map_val_digitChar fs hfs] at htd2
        cases hfc : fs with
        | nil => exact absurd hfc hfsne
        | cons d ds =>
            rw [hfc] at htd2
            simp only [htd2, hval]

theorem numFinish_default (ip : Nat) (fs : List Nat) (rest : List Char)
    (h : followPrim rest = true) :
    numFinish ip fs rest =
      (if fs.isEmpty then (.Int (Int.ofNat ip), rest) else (.Float ⟨false, ip, fs⟩, rest)) := by
  rcases followPrim_cases rest h with rfl | ⟨c, r, rfl, hc⟩
  · rfl
  · rcases hc with rfl | rfl | rfl | rfl | rfl <;> rfl

theorem pColor_display (col : RgbaColor) (rest : List Char)
    (hok : colorOk col = true) (hh : noHexHead rest = true) :
    pColor ((hex2 col.r).data ++ ((hex2 col.g).data ++ ((hex2 col.b).data ++
      ((if col.a = 255 then [] else (hex2 col.a).data) ++ rest)))) =
      some (.Color col, rest) := by
  cases col with
  | mk r g b a =>
    simp only [colorOk, Bool.and_eq_true, decide_eq_true_eq] at hok
    obtain ⟨⟨⟨hr, hg⟩, hb⟩, ha256⟩ := hok
    by_cases ha : a = 255
    · rw [if_pos ha]
      have hth := takeHex_append [r / 16 % 16, r % 16, g / 16 % 16, g % 16,
        b / 16 % 16, b % 16] rest (by
          intro d hd
          simp only [List.mem_cons, List.not_mem_nil, or_false] at hd
          rcases hd with rfl | rfl | rfl | rfl | rfl | rfl <;> omega) hh
      simp only [List.map_cons, List.map_nil, hex2] at hth ⊢
      simp only [List.nil_append, List.cons_append] at hth ⊢
      simp only [pColor, hth]
      norm_num
      subst ha
      have e1 : r / 16 % 16 * 16 + r % 16 = r := by omega
      have e2 : g / 16 % 16 * 16 + g % 16 = g := by omega
      have e3 : b / 16 % 16 * 16 + b % 16 = b := by omega
      simp [hexVal, e1, e2, e3]
    · rw [if_neg ha]
      have hth := takeHex_append [r / 16 % 16, r % 16, g / 16 % 16, g % 16,
        b / 16 % 16, b % 16, a / 16 % 16, a % 16] rest (by
          intro d hd
          simp only [List.mem_cons, List.not_mem_nil, or_false] at hd
          rcases hd with rfl | rfl | rfl | rfl | rfl | rfl | rfl | rfl <;> omega) hh
      simp only [List.map_cons, List.map_nil, hex2] at hth ⊢
      simp only [List.nil_append, List.cons_append] at hth ⊢
      simp only [pColor, hth]
      norm_num
      have e1 : r / 16 % 16 * 16 + r % 16 = r := by omega
      have e2 : g / 16 % 16 * 16 + g % 16 = g := by omega
      have e3 : b / 16 % 16 * 16 + b % 16 = b := by omega
      have e4 : a / 16 % 16 * 16 + a % 16 = a := by omega
      simp [hexVal, e1, e2, e3, e4]

/-- Parser fuel bound for a plain argument list (mirrors `szAs` through
`Args.ofList`/`Args.toList`). -/
def szAL : List Argument → Nat
  | [] => 1
  | a :: l => 2 + szA a + szAL l

/-- Parser fuel bound for a plain expression list (mirrors `szEs`). -/
def szEL : List Expr → Nat
  | [] => 1
  | e :: l => 2 + szE e + szEL l

/-- Parser fuel bound for a plain pair list (mirrors `szNs`). -/
def szNL : List Named → Nat
  | [] => 1
  | n :: l => 2 + szN n + szNL l

theorem szAL_toList : ∀ (args : Args), szAL args.toList = szAs args
  | .nil => by simp [Args.toList, szAL, szAs]
  | .cons a t => by simp [Args.toList, szAL, szAs, szAL_toList t]

theorem szEL_toList : ∀ (l : Exprs), szEL l.toList = szEs l
  | .nil => by simp [Exprs.toList, szEL, szEs]
  | .cons e t => by simp [Exprs.toList, szEL, szEs, szEL_toList t]

theorem szNL_toList : ∀ (l : Nameds), szNL l.toList = szNs l
  | .nil => by simp [Nameds.toList, szNL, szNs]
  | .cons n t => by simp [Nameds.toList, szNL, szNs, szNL_toList t]

theorem szAL_append : ∀ (l : List Argument) (a : Argument),
    szAL (l ++ [a]) = szAL l + szA a + 2
  | [], a => by simp [szAL]; omega
  | b :: l, a => by simp [szAL, szAL_append l a]; omega

theorem wfAs_toList : ∀ (args : Args), wfAs args = true →
    ∀ a ∈ args.toList, wfA a = true
  | .nil, _ => by simp [Args.toList]
  | .cons a t, h => by
      simp only [wfAs, Bool.and_eq_true] at h
      intro b hb
      simp only [Args.toList, List.mem_cons] at hb
      rcases hb with rfl | hb
      · exact h.1
      · exact wfAs_toList t h.2 b hb

theorem wfEs_toList : ∀ (l : Exprs), wfEs l = true →
    ∀ e ∈ l.toList, wfE e = true
  | .nil, _ => by simp [Exprs.toList]
  | .cons e t, h => by
      simp only [wfEs, Bool.and_eq_true] at h
      intro f hf
      simp only [Exprs.toList, List.mem_cons] at hf
      rcases hf with rfl | hf
      · exact h.1
      · exact wfEs_toList t h.2 f hf

theorem wfNs_toList : ∀ (l : Nameds), wfNs l = true →
    ∀ n ∈ l.toList, wfN n = true
  | .nil, _ => by simp [Nameds.toList]
  | .cons n t, h => by
      simp only [wfNs, Bool.and_eq_true] at h
      intro m hm
      simp only [Nameds.toList, List.mem_cons] at hm
      rcases hm with rfl | hm
      · exact h.1
      · exact wfNs_toList t h.2 m hm

theorem Args.ofList_toList : ∀ (args : Args), Args.ofList args.toList = args
  | .nil => rfl
  | .cons a t => by simp [Args.toList, Args.ofList, Args.ofList_toList t]

theorem string_mk_data (s : String) : String.mk s.data = s := rfl

/-- Splitting an arbitrary list at its last element. -/
theorem list_concat_cases {α : Type} : ∀ (l : List α), l = [] ∨ ∃ L a, l = L ++ [a]
  | [] => Or.inl rfl
  | x :: l => by
      rcases list_concat_cases l with rfl | ⟨L, a, rfl⟩
      · exact Or.inr ⟨[], x, rfl⟩
      · exact Or.inr ⟨x :: L, a, rfl⟩

theorem isPosContentA_true {a : Argument} (h : isPosContentA a = true) :
    ∃ t, a = .Pos (.Content t) := by
  cases a with
  | Named n => simp [isPosContentA] at h
  | Pos e => cases e <;> first
      | exact ⟨_, rfl⟩
      | simp [isPosContentA] at h

theorem isPosContentA_false {a : Argument} (h : isPosContentA a = false) :
    ∀ t, a ≠ .Pos (.Content t) := by
  intro t hEq
  subst hEq
  simp [isPosContentA] at h

/-- `ewbC` restricted to a trailing content block: a single-call block
delegates to the inner call, any other block prints as a `][`-delimited body
and therefore ends unambiguously. -/
def ewbT : Tree' → Bool
  | .cons (.Expr (.Call inner)) .nil => ewbC inner
  | _ => true

theorem ewbArgs_single_content : ∀ (t : Tree'),
    ewbArgs (.cons (.Pos (.Content t)) .nil) = ewbT t := by
  intro t
  cases t with
  | nil => simp [ewbArgs, ewbT]
  | cons n t' =>
    cases n with
    | Text c => cases t' <;> simp [ewbArgs, ewbT]
    | Expr e => cases e <;> cases t' <;> simp [ewbArgs, ewbT]

theorem ewbArgs_last_content : ∀ (mid : List Argument) (args : Args) (t : Tree'),
    args.toList = mid ++ [.Pos (.Content t)] → ewbArgs args = ewbT t
  | [], args, t => by
      intro h
      cases args with
      | nil => simp [Args.toList] at h
      | cons a t' =>
        simp only [Args.toList, List.nil_append, List.cons.injEq] at h
        obtain ⟨rfl, h2⟩ := h
        cases t' with
        | nil => exact ewbArgs_single_content t
        | cons b t'' => simp [Args.toList] at h2
  | x :: mid, args, t => by
      intro h
      cases args with
      | nil => simp [Args.toList] at h
      | cons a t' =>
        simp only [Args.toList, List.cons_append, List.cons.injEq] at h
        obtain ⟨rfl, h2⟩ := h
        cases t' with
        | nil => simp [Args.toList] at h2
        | cons b t'' =>
          have ih := ewbArgs_last_content mid (.cons b t'') t h2
          simpa [ewbArgs] using ih

theorem ewbArgs_last_other : ∀ (mid : List Argument) (args : Args) (a : Argument),
    isPosContentA a = false → args.toList = mid ++ [a] → ewbArgs args = false
  | [], args, a => by
      intro hflag h
      cases args with
      | nil => simp [Args.toList] at h
      | cons b t' =>
        simp only [Args.toList, List.nil_append, List.cons.injEq] at h
        obtain ⟨rfl, h2⟩ := h
        cases t' with
        | nil =>
            have hne := isPosContentA_false hflag
            cases b with
            | Named n => simp [ewbArgs]
            | Pos e => cases e <;> first
                | exact absurd rfl (hne _)
                | simp [ewbArgs]
        | cons c t'' => simp [Args.toList] at h2
  | x :: mid, args, a => by
      intro hflag h
      cases args with
      | nil => simp [Args.toList] at h
      | cons b t' =>
        simp only [Args.toList, List.cons_append, List.cons.injEq] at h
        obtain ⟨rfl, h2⟩ := h
        cases t' with
        | nil => simp [Args.toList] at h2
        | cons c t'' =>
          have ih := ewbArgs_last_other mid (.cons c t'') a hflag h2
          simpa [ewbArgs] using ih

/-- A tree is the single-call shape exactly when it has one node and that
node is a call. -/
theorem singleCall_iff (t : Tree') :
    (∃ c, t = Tree'.cons (.Expr (.Call c)) .nil) ↔ (lenT t = 1 ∧ headCall t = true) := by
  constructor
  · rintro ⟨c, rfl⟩
    simp [lenT, headCall]
  · rintro ⟨h1, h2⟩
    cases t with
    | nil => simp [lenT] at h1
    | cons n t' =>
      cases t' with
      | cons m t'' => simp [lenT] at h1
      | nil =>
        cases n with
        | Text c => simp [headCall] at h2
        | Expr e => cases e <;> first
            | exact ⟨_, rfl⟩
            | simp [headCall] at h2

theorem atomExpr_ne_binary : ∀ (e l : Expr) (op : BinOp) (r : Expr),
    atomExpr e ≠ .Binary l op r
  | .Binary l' op' r', l, op, r => by
      simp only [atomExpr]
      exact atomExpr_ne_binary l' l op r
  | .Unary _ _, _, _, _ => by simp [atomExpr]
  | .None, _, _, _ => by simp [atomExpr]
  | .Ident _, _, _, _ => by simp [atomExpr]
  | .Bool _, _, _, _ => by simp [atomExpr]
  | .Int _, _, _, _ => by simp [atomExpr]
  | .Float _, _, _, _ => by simp [atomExpr]
  | .Length _ _, _, _, _ => by simp [atomExpr]
  | .Percent _, _, _, _ => by simp [atomExpr]
  | .Color _, _, _, _ => by simp [atomExpr]
  | .Str _, _, _, _ => by simp [atomExpr]
  | .Call _, _, _, _ => by simp [atomExpr]
  | .Array _, _, _, _ => by simp [atomExpr]
  | .Dict _, _, _, _ => by simp [atomExpr]
  | .Content _, _, _, _ => by simp [atomExpr]

theorem digit_not_starters (c : Char) (h : c.isDigit = true) :
    c ≠ '-' ∧ c ≠ '(' ∧ c ≠ '\x7b' ∧ c ≠ '[' ∧ c ≠ '"' ∧ c ≠ '#' := by
  refine ⟨?_, ?_, ?_, ?_, ?_, ?_⟩ <;> (rintro rfl; exact absurd h (by decide))

theorem alpha_not_starters (c : Char) (h : c.isAlpha = true) :
    c ≠ '-' ∧ c ≠ '(' ∧ c ≠ '\x7b' ∧ c ≠ '[' ∧ c ≠ '"' ∧ c ≠ '#' := by
  refine ⟨?_, ?_, ?_, ?_, ?_, ?_⟩ <;> (rintro rfl; exact absurd h (by decide))

theorem followPrim_noDotHead (rest : List Char) (h : followPrim rest = true) :
    noDotHead rest = true := by
  rcases followPrim_cases rest h with h | ⟨c, r, rfl, hc⟩
  · subst h; rfl
  · rcases hc with rfl | rfl | rfl | rfl | rfl <;> rfl

/-- The single character of a binary operator's rendering. -/
def binChar : BinOp → Char
  | .Add => '+'
  | .Sub => '-'
  | .Mul => '*'
  | .Div => '/'

theorem binChar_pretty : ∀ (op : BinOp), BinOp.pretty op = String.singleton (binChar op)
  | .Add => rfl
  | .Sub => rfl
  | .Mul => rfl
  | .Div => rfl

theorem binOpOf_binChar : ∀ (op : BinOp), binOpOf (binChar op) = some op
  | .Add => rfl
  | .Sub => rfl
  | .Mul => rfl
  | .Div => rfl

theorem alpha_not_digit (c : Char) (h : c.isAlpha = true) : c.isDigit = false := by
  simp only [Char.isAlpha, Char.isUpper, Char.isLower, Char.isDigit,
    Bool.or_eq_true, Bool.and_eq_true, decide_eq_true_eq] at h
  rw [Char.isDigit]
  simp only [ge_iff_le, Bool.and_eq_false_iff, decide_eq_false_iff_not, not_le]
  rcases h with ⟨h1, h2⟩ | ⟨h1, h2⟩ <;>
    · right
      have h1' : 65 ≤ c.val.toNat ∨ 97 ≤ c.val.toNat := by
        first
          | exact Or.inl h1
          | exact Or.inr h1
      intro hle
      have h2' : c.val.toNat ≤ 57 := hle
      omega

/-- A body check on input that does not open a bracket returns the arguments
unchanged. -/
theorem pBodyCheck_none (f : Nat) (acc : List Argument) (rest : List Char)
    (h : noLBracketHead rest = true) :
    pBodyCheck (f + 1) acc rest = some (acc, rest) := by
  cases rest with
  | nil => rfl
  | cons c r =>
    simp only [noLBracketHead, Bool.not_eq_true', beq_eq_false_iff_ne, ne_eq] at h
    simp [pBodyCheck, h]

/-- A markup character outside the bracket/brace structure parses as a text
node. -/
theorem pMarkup_text (f : Nat) (c : Char) (r : List Char) (h : textOk c = true) :
    pMarkup (f + 1) (c :: r) =
      match pMarkup f r with
      | some (t, r') => some (.cons (.Text c) t, r')
      | none => none := by
  have h1 : ¬c = '[' := by rintro rfl; simp [textOk] at h
  have h2 : ¬c = ']' := by rintro rfl; simp [textOk] at h
  have h3 : ¬c = '\x7b' := by rintro rfl; simp [textOk] at h
  have h4 : ¬c = '\x7d' := by rintro rfl; simp [textOk] at h
  simp [pMarkup, h1, h2, h3, h4]

/-- A digit-headed primary parses as a number. -/
theorem pPrimary_digit (f : Nat) (c : Char) (r : List Char) (h : c.isDigit = true) :
    pPrimary (f + 1) (c :: r) = pNumber (c :: r) := by
  obtain ⟨n1, n2, n3, n4, n5, n6⟩ := digit_not_starters c h
  simp [pPrimary, n1, n2, n3, n4, n5, n6, h]

/-- An alphabetic-headed primary parses as a keyword, identifier or generic
call. -/
theorem pPrimary_alpha (f : Nat) (c : Char) (r : List Char) (ha : c.isAlpha = true) :
    pPrimary (f + 1) (c :: r) =
      (match takeAlpha (c :: r) with
       | (nm, r') =>
           if String.mk nm = "none" then some (.None, r')
           else if String.mk nm = "true" then some (.Bool true, r')
           else if String.mk nm = "false" then some (.Bool false, r')
           else
             match r' with
             | '(' :: r'' =>
                 match pParenArgs f r'' with
                 | some (args, r''') =>
                     some (.Call (.mk (String.mk nm) (Args.ofList args)), r''')
                 | none => none
             | _ => some (.Ident (String.mk nm), r')) := by
  obtain ⟨n1, n2, n3, n4, n5, n6⟩ := alpha_not_starters c ha
  have hd := alpha_not_digit c ha
  simp [pPrimary, n1, n2, n3, n4, n5, n6, ha, hd]

/-- A parenthesized group whose first character opens neither the empty array
nor the empty dictionary dispatches on a possible `key: ` prefix. -/
theorem pParen_other (f : Nat) (c : Char) (r : List Char)
    (h1 : ¬c = ')') (h2 : ¬c = ':') :
    pParen (f + 1) (c :: r) =
      (match takeAlpha (c :: r) with
       | (nm, ':' :: ' ' :: r') =>
           if nm.isEmpty then pArrayStart f (c :: r)
           else
             match pExpr f r' with
             | some (v, r'') => pDictLoop f [Named.mk (String.mk nm) v] r''
             | none => none
       | _ => pArrayStart f (c :: r)) := by
  simp [pParen, h1, h2]

theorem digit_not_alpha (c : Char) (h : c.isDigit = true) : c.isAlpha = false := by
  cases ha : c.isAlpha
  · rfl
  · rw [alpha_not_digit c ha] at h
    exact absurd h (by simp)

/-- What follows a printed expression's operator chain: the empty input or a
separator/closer/space, never an alphabetic character, a colon or an opening
parenthesis. -/
theorem after_chain_shape (e : Expr) (rest : List Char) (hf : followExpr rest = true) :
    (opsStr (chainOps e)).data ++ rest = [] ∨
      ∃ c r, (opsStr (chainOps e)).data ++ rest = c :: r ∧
        (c = ' ' ∨ c = ',' ∨ c = ')' ∨ c = ']' ∨ c = '\x7d') := by
  cases hch : chainOps e with
  | nil =>
      simp only [opsStr]
      rcases followExpr_cases rest hf with rfl | ⟨r, rfl⟩ | ⟨r, rfl⟩ | ⟨r, rfl⟩ |
        ⟨r, rfl⟩ | ⟨r, rfl⟩
      · exact Or.inl (by rfl)
      · exact Or.inr ⟨',', r, by rfl, by tauto⟩
      · exact Or.inr ⟨')', r, by rfl, by tauto⟩
      · exact Or.inr ⟨']', r, by rfl, by tauto⟩
      · exact Or.inr ⟨'\x7d', r, by rfl, by tauto⟩
      · exact Or.inr ⟨' ', '|' :: r, by rfl, by tauto⟩
  | cons p t =>
      obtain ⟨op, a⟩ := p
      refine Or.inr ⟨' ', ((op.pretty ++ " " ++ Expr.pretty a ++ opsStr t).data ++ rest), ?_, by tauto⟩
      simp [opsStr, String.data_append, String.append_assoc]

theorem after_chain_noAlpha (e : Expr) (rest : List Char) (hf : followExpr rest = true) :
    noAlphaHead ((opsStr (chainOps e)).data ++ rest) = true := by
  rcases after_chain_shape e rest hf with h | ⟨c, r, h, hc⟩ <;> rw [h]
  · rfl
  · rcases hc with rfl | rfl | rfl | rfl | rfl <;> rfl

theorem after_chain_ne (e : Expr) (rest : List Char) (hf : followExpr rest = true)
    (c : Char) (hc : c = ':' ∨ c = '(') :
    ∀ r', (opsStr (chainOps e)).data ++ rest ≠ c :: r' := by
  intro r' hEq
  rcases after_chain_shape e rest hf with h | ⟨c2, r2, h, hc2⟩ <;> rw [h] at hEq
  · simp at hEq
  · rw [List.cons.injEq] at hEq
    rcases hc with rfl | rfl <;> rcases hc2 with rfl | rfl | rfl | rfl | rfl <;>
      simp at hEq

theorem takeAlpha_head_stop (c : Char) (cs : List Char) (h : c.isAlpha = false) :
    takeAlpha (c :: cs) = ([], c :: cs) := by
  simp [takeAlpha, h]

/-- After the longest alphabetic prefix of a printed well-formed expression
(in a legal follow context) the remainder never starts with a colon: the
named-argument and dictionary-key detection cannot misfire inside a printed
positional expression. -/
theorem takeAlpha_expr_snd (e : Expr) (rest : List Char) (hwf : wfE e = true)
    (hf : followExpr rest = true) :
    ∀ r', (takeAlpha ((Expr.pretty e).data ++ rest)).2 ≠ ':' :: r' := by
  intro r' hEq
  have hwa := (wf_atom_chain e hwf).1
  rw [pretty_split e, String.data_append, List.append_assoc] at hEq
  have hXa : noAlphaHead ((opsStr (chainOps e)).data ++ rest) = true :=
    after_chain_noAlpha e rest hf
  have hXne := after_chain_ne e rest hf ':' (Or.inl rfl)
  cases hA : atomExpr e with
  | Binary l op r => exact absurd hA (atomExpr_ne_binary e l op r)
  | None =>
      rw [hA] at hEq
      simp only [Expr.pretty] at hEq
      rw [takeAlpha_append "none".data _ (by decide) hXa] at hEq
      exact hXne r' hEq
  | Bool v =>
      rw [hA] at hEq
      cases v <;> simp only [Expr.pretty, if_true, if_false, Bool.false_eq_true] at hEq
      · rw [takeAlpha_append "false".data _ (by decide) hXa] at hEq
        exact hXne r' hEq
      · rw [takeAlpha_append "true".data _ (by decide) hXa] at hEq
        exact hXne r' hEq
  | Ident v =>
      rw [hA] at hEq
      rw [hA] at hwa
      simp only [wfE] at hwa
      obtain ⟨-, hall, -⟩ := identOk_spec hwa
      simp only [Expr.pretty] at hEq
      rw [takeAlpha_append v.data _ hall hXa] at hEq
      exact hXne r' hEq
  | Call c =>
      rw [hA] at hEq
      rw [hA] at hwa
      cases c with
      | mk name args =>
        simp only [wfE, wfC, Bool.and_eq_true] at hwa
        obtain ⟨-, hall, -⟩ := identOk_spec hwa.1
        simp only [Expr.pretty, ExprCall.pretty, String.data_append,
          List.append_assoc, List.singleton_append, List.cons_append] at hEq
        rw [takeAlpha_append name.data _ hall (by rfl)] at hEq
        simp at hEq
  | Unary op e0 =>
      rw [hA] at hEq
      cases op
      simp only [Expr.pretty, UnOp.pretty, String.data_append, List.append_assoc,
        List.singleton_append, List.cons_append] at hEq
      rw [takeAlpha_head_stop '-' _ (by decide)] at hEq
      simp at hEq
  | Int v =>
      rw [hA] at hEq
      obtain ⟨c, cs, hncs, hdig⟩ := natStr_head v.natAbs
      by_cases hv : v < 0
      · simp only [Expr.pretty, intStr, if_pos hv, String.data_append,
          List.append_assoc, List.singleton_append, List.cons_append] at hEq
        rw [takeAlpha_head_stop '-' _ (by decide)] at hEq
        simp at hEq
      · simp only [Expr.pretty, intStr, if_neg hv, String.empty_append] at hEq
        rw [hncs] at hEq
        rw [List.cons_append, takeAlpha_head_stop c _ (digit_not_alpha c hdig)] at hEq
        rw [List.cons.injEq] at hEq
        exact absurd hEq.1 (digit_not_special c hdig).2.2.2.2.1
  | Float f =>
      rw [hA] at hEq
      obtain ⟨c, cs, hdata, hd⟩ := display_head f
      have hna : c.isAlpha = false := by
        rcases hd with hd | rfl
        · exact digit_not_alpha c hd
        · decide
      have hnc : c ≠ ':' := by
        rcases hd with hd | rfl
        · exact (digit_not_special c hd).2.2.2.2.1
        · decide
      simp only [Expr.pretty] at hEq
      rw [hdata, List.cons_append, takeAlpha_head_stop c _ hna] at hEq
      rw [List.cons.injEq] at hEq
      exact absurd hEq.1 hnc
  | Length f u =>
      rw [hA] at hEq
      obtain ⟨c, cs, hdata, hd⟩ := display_head f
      have hna : c.isAlpha = false := by
        rcases hd with hd | rfl
        · exact digit_not_alpha c hd
        · decide
      have hnc : c ≠ ':' := by
        rcases hd with hd | rfl
        · exact (digit_not_special c hd).2.2.2.2.1
        · decide
      simp only [Expr.pretty, String.data_append, List.append_assoc] at hEq
      rw [hdata, List.cons_append, takeAlpha_head_stop c _ hna] at hEq
      rw [List.cons.injEq] at hEq
      exact absurd hEq.1 hnc
  | Percent f =>
      rw [hA] at hEq
      obtain ⟨c, cs, hdata, hd⟩ := display_head f
      have hna : c.isAlpha = false := by
        rcases hd with hd | rfl
        · exact digit_not_alpha c hd
        · decide
      have hnc : c ≠ ':' := by
        rcases hd with hd | rfl
        · exact (digit_not_special c hd).2.2.2.2.1
        · decide
      simp only [Expr.pretty, String.data_append, List.append_assoc] at hEq
      rw [hdata, List.cons_append, takeAlpha_head_stop c _ hna] at hEq
      rw [List.cons.injEq] at hEq
      exact absurd hEq.1 hnc
  | Color col =>
      rw [hA] at hEq
      simp only [Expr.pretty, RgbaColor.display, String.data_append,
        List.append_assoc, List.singleton_append, List.cons_append] at hEq
      rw [takeAlpha_head_stop '#' _ (by decide)] at hEq
      simp at hEq
  | Str s =>
      rw [hA] at hEq
      simp only [Expr.pretty, strLit, String.data_append, List.append_assoc,
        List.singleton_append, List.cons_append] at hEq
      rw [takeAlpha_head_stop '"' _ (by decide)] at hEq
      simp at hEq
  | Array items =>
      rw [hA] at hEq
      simp only [Expr.pretty, String.data_append, List.append_assoc,
        List.singleton_append, List.cons_append] at hEq
      rw [takeAlpha_head_stop '(' _ (by decide)] at hEq
      simp at hEq
  | Dict pairs =>
      rw [hA] at hEq
      cases pairs <;>
        · simp only [Expr.pretty, String.data_append, List.append_assoc,
            List.singleton_append, List.cons_append] at hEq
          rw [takeAlpha_head_stop '(' _ (by decide)] at hEq
          simp at hEq
  | Content t =>
      rw [hA] at hEq
      rcases pce_shape t with ⟨c, rfl⟩ | hshape
      · obtain ⟨cname, cargs⟩ := c
        simp only [Expr.pretty, pce_single, pretty_bracket_call_eq, if_false,
          Bool.false_eq_true, String.data_append, List.append_assoc,
          List.singleton_append, List.cons_append] at hEq
        rw [takeAlpha_head_stop '[' _ (by decide)] at hEq
        simp at hEq
      · simp only [Expr.pretty, hshape, String.data_append, List.append_assoc,
          List.singleton_append, List.cons_append] at hEq
        rw [takeAlpha_head_stop '\x7b' _ (by decide)] at hEq
        simp at hEq

theorem node_pretty_notCall (e : Expr) (h : isCallE e = false) :
    Node.pretty (.Expr e) = "\x7b" ++ Expr.pretty e ++ "\x7d" := by
  rw [Node.pretty.eq_def]
  split
  · rename_i call heq
    rw [Node.Expr.injEq] at heq
    subst heq
    simp [isCallE] at h
  · rename_i e2 hne heq
    rw [Node.Expr.injEq] at heq
    subst heq
    rfl
  · rename_i c heq
    exact absurd heq (by simp)

theorem headCall_cons_expr (e : Expr) (t : Tree') :
    headCall (.cons (.Expr e) t) = isCallE e := by
  cases e <;> simp [headCall, isCallE]

/-- A well-formed tree whose head is not a call never prints with a leading
`[`, in a legal markup follow context. -/
theorem tree_not_lbracket (t : Tree') (rest : List Char) (hwf : wfT t = true)
    (hf : followMarkup rest = true) (hh : headCall t = false) :
    noLBracketHead ((Tree'.pretty t).data ++ rest) = true := by
  cases t with
  | nil =>
      simp only [Tree'.pretty]
      cases rest with
      | nil => rfl
      | cons c r =>
        simp only [followMarkup, Bool.or_eq_true, beq_iff_eq] at hf
        rcases hf with rfl | rfl <;> rfl
  | cons n t' =>
    cases n with
    | Text c =>
        simp only [wfT, Bool.and_eq_true, wfNode] at hwf
        have htx := hwf.1.1
        simp only [textOk, Bool.not_eq_true', Bool.or_eq_false_iff,
          decide_eq_false_iff_not] at htx
        simp only [Tree'.pretty, Node.pretty, String.data_append]
        rw [show (String.singleton c).data = [c] from rfl]
        simp only [List.cons_append, List.nil_append, noLBracketHead]
        simp [htx.1.1.1]
    | Expr e =>
        have hc : isCallE e = false := by
          rw [headCall_cons_expr] at hh
          exact hh
        simp only [Tree'.pretty, node_pretty_notCall e hc, String.data_append,
          List.append_assoc, List.singleton_append, List.cons_append]
        rfl

theorem followExpr_othersTail (m : List Argument) (rest : List Char) :
    followExpr ((othersTail m).data ++ rest) = true := by
  cases m with
  | nil => rfl
  | cons a l =>
      simp only [othersTail, String.data_append, List.append_assoc,
        List.cons_append, List.singleton_append]
      rfl

theorem followExpr_contTail (m : List Argument) (t : Tree') (rest : List Char) :
    followExpr ((contTail m t).data ++ rest) = true := by
  cases m with
  | nil =>
      simp only [contTail]
      rcases chainOrBody_shape t with ⟨c, rfl⟩ | hshape
      · obtain ⟨name, args⟩ := c
        simp only [chainOrBody_single_call, pretty_bracket_call_eq, if_true,
          String.data_append, List.append_assoc, List.cons_append,
          List.singleton_append]
        rfl
      · simp only [hshape, String.data_append, List.append_assoc,
          List.cons_append, List.singleton_append]
        rfl
  | cons a l =>
      simp only [contTail, String.data_append, List.append_assoc,
        List.cons_append, List.singleton_append]
      rfl

theorem followExpr_argSep (m : List Argument) (rest : List Char) :
    followExpr ((argSep m).data ++ ')' :: rest) = true := by
  cases m with
  | nil => rfl
  | cons a l =>
      simp only [argSep, String.data_append, List.append_assoc,
        List.cons_append, List.singleton_append]
      rfl

theorem followExpr_arrSep (m : List Expr) (rest : List Char) :
    followExpr ((arrSep m).data ++ ')' :: rest) = true := by
  cases m with
  | nil => rfl
  | cons e l =>
      simp only [arrSep, String.data_append, List.append_assoc,
        List.cons_append, List.singleton_append]
      rfl

theorem followExpr_dictSep (m : List Named) (rest : List Char) :
    followExpr ((dictSep m).data ++ ')' :: rest) = true := by
  cases m with
  | nil => rfl
  | cons n l =>
      simp only [dictSep, String.data_append, List.append_assoc,
        List.cons_append, List.singleton_append]
      rfl

theorem othersTail_congr : ∀ (l1 l2 : List Argument),
    l1.map Argument.pretty = l2.map Argument.pretty → othersTail l1 = othersTail l2
  | [], [], _ => rfl
  | [], b :: l2, h => by simp at h
  | a :: l1, [], h => by simp at h
  | a :: l1, b :: l2, h => by
      simp only [List.map_cons, List.cons.injEq] at h
      simp [othersTail, h.1, othersTail_congr l1 l2 h.2]

theorem contTail_congr : ∀ (l1 l2 : List Argument) (t1 t2 : Tree'),
    l1.map Argument.pretty = l2.map Argument.pretty → chainOrBody t1 = chainOrBody t2 →
    contTail l1 t1 = contTail l2 t2
  | [], [], t1, t2, _, ht => by simp [contTail, ht]
  | [], b :: l2, _, _, h, _ => by simp at h
  | a :: l1, [], _, _, h, _ => by simp at h
  | a :: l1, b :: l2, t1, t2, h, ht => by
      simp only [List.map_cons, List.cons.injEq] at h
      simp [contTail, h.1, contTail_congr l1 l2 t1 t2 h.2 ht]

theorem argSep_congr : ∀ (l1 l2 : List Argument),
    l1.map Argument.pretty = l2.map Argument.pretty → argSep l1 = argSep l2
  | [], [], _ => rfl
  | [], b :: l2, h => by simp at h
  | a :: l1, [], h => by simp at h
  | a :: l1, b :: l2, h => by
      simp only [List.map_cons, List.cons.injEq] at h
      simp [argSep, h.1, argSep_congr l1 l2 h.2]

theorem arrSep_congr : ∀ (l1 l2 : List Expr),
    l1.map Expr.pretty = l2.map Expr.pretty → arrSep l1 = arrSep l2
  | [], [], _ => rfl
  | [], b :: l2, h => by simp at h
  | a :: l1, [], h => by simp at h
  | a :: l1, b :: l2, h => by
      simp only [List.map_cons, List.cons.injEq] at h
      simp [arrSep, h.1, arrSep_congr l1 l2 h.2]

theorem dictSep_congr : ∀ (l1 l2 : List Named),
    l1.map Named.pretty = l2.map Named.pretty → dictSep l1 = dictSep l2
  | [], [], _ => rfl
  | [], b :: l2, h => by simp at h
  | a :: l1, [], h => by simp at h
  | a :: l1, b :: l2, h => by
      simp only [List.map_cons, List.cons.injEq] at h
      simp [dictSep, h.1, dictSep_congr l1 l2 h.2]

/-- The rendering of the remaining arguments of a bracket header, when the
last is a trailing positional content block: comma-joined head arguments and
then the chain-or-body rendering. -/
theorem bracketMore_toList_cont : ∀ (mid : List Argument) (b : Argument) (ts : Args)
    (tc : Tree'), b :: ts.toList = mid ++ [.Pos (.Content tc)] →
    bracketMore b ts = contTail mid tc
  | [], b, ts, tc => by
      intro h
      simp only [List.nil_append, List.cons.injEq] at h
      obtain ⟨rfl, h2⟩ := h
      cases ts with
      | cons x ts2 => simp [Args.toList] at h2
      | nil =>
          simp [bracketMore_last_content, contTail]
  | x :: mid, b, ts, tc => by
      intro h
      simp only [List.cons_append, List.cons.injEq] at h
      obtain ⟨rfl, h2⟩ := h
      cases ts with
      | nil => simp [Args.toList] at h2
      | cons b2 ts2 =>
          have ih := bracketMore_toList_cont mid b2 ts2 tc (by simpa [Args.toList] using h2)
          simp [bracketMore, ih, contTail]

/-- The rendering of the remaining arguments of a bracket header, when the
last is not a positional content block: all comma-joined, then the closing
bracket. -/
theorem bracketMore_toList_oth : ∀ (mid : List Argument) (la b : Argument) (ts : Args),
    isPosContentA la = false → b :: ts.toList = mid ++ [la] →
    bracketMore b ts = othersTail (mid ++ [la])
  | [], la, b, ts => by
      intro hflag h
      simp only [List.nil_append, List.cons.injEq] at h
      obtain ⟨rfl, h2⟩ := h
      cases ts with
      | cons x ts2 => simp [Args.toList] at h2
      | nil =>
          simp [bracketMore_last_other b (isPosContentA_false hflag), othersTail]
  | x :: mid, la, b, ts => by
      intro hflag h
      simp only [List.cons_append, List.cons.injEq] at h
      obtain ⟨rfl, h2⟩ := h
      cases ts with
      | nil => simp [Args.toList] at h2
      | cons b2 ts2 =>
          have ih := bracketMore_toList_oth mid la b2 ts2 hflag
            (by simpa [Args.toList] using h2)
          simp [bracketMore, ih, othersTail]

/-- Inverting a map equality against a list with a distinguished last
element. -/
theorem arg_maps_concat (la : Argument) : ∀ (l2 mid : List Argument),
    l2.map Argument.pretty = (mid ++ [la]).map Argument.pretty →
    l2.map isPosContentA = (mid ++ [la]).map isPosContentA →
    ∃ l3 a3, l2 = l3 ++ [a3] ∧ l3.map Argument.pretty = mid.map Argument.pretty ∧
      l3.map isPosContentA = mid.map isPosContentA ∧
      Argument.pretty a3 = Argument.pretty la ∧ isPosContentA a3 = isPosContentA la
  | [], mid, h1, _ => by
      rw [List.map_append] at h1
      exact absurd h1.symm (by simp)
  | x :: l2, [], h1, h2 => by
      simp only [List.map_cons, List.nil_append, List.map_nil, List.cons.injEq] at h1 h2
      obtain ⟨hx1, hl1⟩ := h1
      obtain ⟨hx2, hl2⟩ := h2
      have : l2 = [] := by
        cases l2 with
        | nil => rfl
        | cons y l3 => simp at hl1
      subst this
      exact ⟨[], x, rfl, rfl, rfl, hx1, hx2⟩
  | x :: l2, y :: mid, h1, h2 => by
      simp only [List.map_cons, List.cons_append, List.cons.injEq] at h1 h2
      obtain ⟨l3, a3, rfl, hm1, hm2, ha1, ha2⟩ :=
        arg_maps_concat la l2 mid h1.2 h2.2
      exact ⟨x :: l3, a3, rfl, by simp [h1.1, hm1], by simp [h2.1, hm2], ha1, ha2⟩

/-- The head character of a printed argument is a legal expression starter or
(for a named argument) alphabetic. -/
theorem prA_head (a : Argument) (h : wfA a = true) :
    ∃ c cs, (Argument.pretty a).data = c :: cs ∧
      (c.isAlpha = true ∨ c.isDigit = true ∨
        c = '-' ∨ c = '(' ∨ c = '[' ∨ c = '\x7b' ∨ c = '"' ∨ c = '#') := by
  cases a with
  | Pos e =>
      obtain ⟨c, cs, hdata, hc⟩ := prE_head e (by simpa [wfA] using h)
      exact ⟨c, cs, by simpa [Argument.pretty] using hdata, hc⟩
  | Named n =>
    cases n with
    | mk name v =>
      simp only [wfA, wfN, Bool.and_eq_true] at h
      obtain ⟨hne, hall, -⟩ := identOk_spec h.1
      cases hd : name.data with
      | nil => exact absurd hd hne
      | cons c cs =>
          refine ⟨c, cs ++ (": " ++ Expr.pretty v).data, ?_, ?_⟩
          · simp [Argument.pretty, Named.pretty, String.data_append, hd,
              String.append_assoc]
          · exact Or.inl (hall c (by rw [hd]; simp))

/-- A legal starter character is none of the separator or closer characters
the parsers dispatch on. -/
theorem starter_not_stops (c : Char)
    (h : c.isAlpha = true ∨ c.isDigit = true ∨
      c = '-' ∨ c = '(' ∨ c = '[' ∨ c = '\x7b' ∨ c = '"' ∨ c = '#') :
    c ≠ ')' ∧ c ≠ ',' ∧ c ≠ ']' ∧ c ≠ '|' ∧ c ≠ ':' ∧ c ≠ ' ' ∧ c ≠ '\x7d' := by
  rcases h with h | h | rfl | rfl | rfl | rfl | rfl | rfl
  · have := alpha_not_special c h
    tauto
  · have := digit_not_special c h
    tauto
  all_goals refine ⟨?_, ?_, ?_, ?_, ?_, ?_, ?_⟩ <;> decide

/-- Round-trip statement for markup at a given fuel: parsing the print of a
well-formed tree (in a legal markup follow context) succeeds, consumes
exactly the print, and returns a tree with the same print, node count and
head shape. -/
def StMarkup (fuel : Nat) : Prop :=
  ∀ t rest, wfT t = true → szT t < fuel → followMarkup rest = true →
    ∃ t', pMarkup fuel ((Tree'.pretty t).data ++ rest) = some (t', rest) ∧
      Tree'.pretty t' = Tree'.pretty t ∧ lenT t' = lenT t ∧ headCall t' = headCall t

/-- Round-trip statement for a bracket call after its opening delimiter. -/
def StCall (fuel : Nat) : Prop :=
  ∀ name args rest, wfC (.mk name args) = true → szC (.mk name args) < fuel →
    (ewbArgs args = true ∨ noLBracketHead rest = true) →
    ∃ name2 args2,
      pBracketInner fuel (name.data ++ ((bracketRest args).data ++ rest)) =
        some (.mk name2 args2, rest) ∧
      name2 = name ∧ bracketRest args2 = bracketRest args

/-- Round-trip statement for a bracket call's argument part after the callee
name. -/
def StAfterName (fuel : Nat) : Prop :=
  ∀ args acc rest, wfAs args = true → szAs args < fuel →
    (ewbArgs args = true ∨ noLBracketHead rest = true) →
    ∃ l2, pBracketAfterName fuel acc ((bracketRest args).data ++ rest) =
        some (acc ++ l2, rest) ∧ bracketRest (Args.ofList l2) = bracketRest args

/-- Round-trip statement for the bracket-header argument loop when the
remaining arguments are all comma-joined and close the header. -/
def StLoopOthers (fuel : Nat) : Prop :=
  ∀ m acc rest, (∀ a ∈ m, wfA a = true) → szAL m < fuel →
    noLBracketHead rest = true →
    ∃ l2, pArgsLoop fuel acc ((othersTail m).data ++ rest) = some (acc ++ l2, rest) ∧
      l2.map Argument.pretty = m.map Argument.pretty ∧
      l2.map isPosContentA = m.map isPosContentA

/-- Round-trip statement for the bracket-header argument loop when the
remaining arguments end in a trailing positional content block. -/
def StLoopCont (fuel : Nat) : Prop :=
  ∀ m t acc rest, (∀ a ∈ m, wfA a = true) → wfT t = true →
    szAL m + szT t + 2 < fuel → (ewbT t = true ∨ noLBracketHead rest = true) →
    ∃ l2 t2, pArgsLoop fuel acc ((contTail m t).data ++ rest) =
        some (acc ++ (l2 ++ [.Pos (.Content t2)]), rest) ∧
      l2.map Argument.pretty = m.map Argument.pretty ∧
      l2.map isPosContentA = m.map isPosContentA ∧
      chainOrBody t2 = chainOrBody t

/-- Round-trip statement for a `][`-delimited body. -/
def StBody (fuel : Nat) : Prop :=
  ∀ acc t rest, wfT t = true → szT t + 2 < fuel →
    ∃ t2, pBodyCheck fuel acc ('[' :: ((Tree'.pretty t).data ++ ']' :: rest)) =
        some (acc ++ [.Pos (.Content t2)], rest) ∧
      Tree'.pretty t2 = Tree'.pretty t ∧ lenT t2 = lenT t ∧ headCall t2 = headCall t

/-- Round-trip statement for a single call argument. -/
def StArg (fuel : Nat) : Prop :=
  ∀ a rest, wfA a = true → szA a < fuel → followExpr rest = true →
    ∃ a2, pArg fuel ((Argument.pretty a).data ++ rest) = some (a2, rest) ∧
      Argument.pretty a2 = Argument.pretty a ∧ isPosContentA a2 = isPosContentA a

/-- Round-trip statement for a full expression. -/
def StExpr (fuel : Nat) : Prop :=
  ∀ e rest, wfE e = true → szE e + 1 < fuel → followExpr rest = true →
    ∃ e2, pExpr fuel ((Expr.pretty e).data ++ rest) = some (e2, rest) ∧
      Expr.pretty e2 = Expr.pretty e ∧ isCallE e2 = isCallE e ∧
      isContentE e2 = isContentE e

/-- Round-trip statement for the binary-operator loop over a printed operator
chain. -/
def StBinTail (fuel : Nat) : Prop :=
  ∀ chain acc rest, (∀ p ∈ chain, wfE (Prod.snd p) = true ∧ chainOps (Prod.snd p) = []) →
    opsFuel chain < fuel → followExpr rest = true →
    ∃ e2, pBinTail fuel acc ((opsStr chain).data ++ rest) = some (e2, rest) ∧
      Expr.pretty e2 = Expr.pretty acc ++ opsStr chain ∧
      (chain = [] → e2 = acc) ∧
      (chain ≠ [] → isCallE e2 = false ∧ isContentE e2 = false)

/-- Round-trip statement for a primary expression (one with an empty operator
chain). -/
def StPrim (fuel : Nat) : Prop :=
  ∀ e rest, wfE e = true → chainOps e = [] → szE e < fuel → followPrim rest = true →
    ∃ e2, pPrimary fuel ((Expr.pretty e).data ++ rest) = some (e2, rest) ∧
      Expr.pretty e2 = Expr.pretty e ∧ isCallE e2 = isCallE e ∧
      isContentE e2 = isContentE e

/-- Round-trip statement for a generic parenthesized argument list. -/
def StParenArgs (fuel : Nat) : Prop :=
  ∀ m rest, (∀ a ∈ m, wfA a = true) → szAL m < fuel →
    ∃ l2, pParenArgs fuel ((sepBy ", " (m.map Argument.pretty)).data ++ ')' :: rest) =
        some (l2, rest) ∧ l2.map Argument.pretty = m.map Argument.pretty

/-- Round-trip statement for the tail of a generic parenthesized argument
list. -/
def StParenLoop (fuel : Nat) : Prop :=
  ∀ m acc rest, (∀ a ∈ m, wfA a = true) → szAL m < fuel →
    ∃ l2, pParenArgsLoop fuel acc ((argSep m).data ++ ')' :: rest) =
        some (acc ++ l2, rest) ∧ l2.map Argument.pretty = m.map Argument.pretty

/-- Round-trip statement for the tail of a non-empty array literal. -/
def StArrLoop (fuel : Nat) : Prop :=
  ∀ m acc rest, (∀ e ∈ m, wfE e = true) → szEL m < fuel →
    ∃ l2, pArrayLoop fuel acc ((arrSep m).data ++ ')' :: rest) =
        some (.Array (Exprs.ofList (acc ++ l2)), rest) ∧
      l2.map Expr.pretty = m.map Expr.pretty

/-- Round-trip statement for the tail of a non-empty dictionary literal. -/
def StDictLoop (fuel : Nat) : Prop :=
  ∀ m acc rest, (∀ n ∈ m, wfN n = true) → szNL m < fuel →
    ∃ l2, pDictLoop fuel acc ((dictSep m).data ++ ')' :: rest) =
        some (.Dict (Nameds.ofList (acc ++ l2)), rest) ∧
      l2.map Named.pretty = m.map Named.pretty

/-- The full bundle of round-trip statements at a given fuel. -/
structure StAll (fuel : Nat) : Prop where
  markup : StMarkup fuel
  call : StCall fuel
  afterName : StAfterName fuel
  loopOthers : StLoopOthers fuel
  loopCont : StLoopCont fuel
  body : StBody fuel
  arg : StArg fuel
  expr : StExpr fuel
  binTail : StBinTail fuel
  prim : StPrim fuel
  parenArgs : StParenArgs fuel
  parenLoop : StParenLoop fuel
  arrLoop : StArrLoop fuel
  dictLoop : StDictLoop fuel

theorem szT_pos (t : Tree') : 0 < szT t := by
  cases t <;> simp [szT]

theorem szAs_pos (args : Args) : 0 < szAs args := by
  cases args <;> simp [szAs]

theorem szAL_pos (m : List Argument) : 0 < szAL m := by
  cases m <;> simp [szAL]

theorem szEL_pos (m : List Expr) : 0 < szEL m := by
  cases m <;> simp [szEL]

theorem szNL_pos (m : List Named) : 0 < szNL m := by
  cases m <;> simp [szNL]

theorem szE_pos (e : Expr) : 0 < szE e := by
  cases e <;> simp [szE]

theorem szC_pos (c : ExprCall) : 0 < szC c := by
  cases c
  simp [szC]

theorem szA_pos (a : Argument) : 0 < szA a := by
  cases a <;> simp [szA]


theorem stAll_zero : StAll 0 := by
  constructor
  · intro t rest _ h _; omega
  · intro name args rest _ h _; omega
  · intro args acc rest _ h _; omega
  · intro m acc rest _ h _; omega
  · intro m t acc rest _ _ h _; omega
  · intro acc t rest _ h; omega
  · intro a rest _ h _; omega
  · intro e rest _ h _; omega
  · intro chain acc rest _ h _; omega
  · intro e rest _ _ h _; omega
  · intro m rest _ h; omega
  · intro m acc rest _ h; omega
  · intro m acc rest _ h; omega
  · intro m acc rest _ h; omega

theorem stBody_step (f : Nat) (ih : ∀ g, g ≤ f → StAll g) : StBody (f + 1) := by
  intro acc t rest hwf hsz
  obtain ⟨t2, hp, hpr, hlen, hhead⟩ :=
    (ih f le_rfl).markup t (']' :: rest) hwf (by omega) (by rfl)
  refine ⟨t2, ?_, hpr, hlen, hhead⟩
  simp [pBodyCheck, hp]

theorem stBinTail_step (f : Nat) (ih : ∀ g, g ≤ f → StAll g) : StBinTail (f + 1) := by
  intro chain acc rest hch hfuel hf
  cases chain with
  | nil =>
      refine ⟨acc, ?_, by simp [opsStr], fun _ => rfl, fun h => absurd rfl h⟩
      show pBinTail (f + 1) acc rest = some (acc, rest)
      rcases followExpr_cases rest hf with rfl | ⟨r, rfl⟩ | ⟨r, rfl⟩ | ⟨r, rfl⟩ |
        ⟨r, rfl⟩ | ⟨r, rfl⟩
      · rfl
      · rfl
      · rfl
      · rfl
      · rfl
      · cases r with
        | nil => rfl
        | cons c3 r3 =>
            by_cases hc3 : c3 = ' '
            · subst hc3; rfl
            · simp [pBinTail, hc3]
  | cons p t =>
    obtain ⟨op, a⟩ := p
    obtain ⟨ha, hca⟩ := hch (op, a) (by simp)
    have hinput : (opsStr ((op, a) :: t)).data ++ rest =
        ' ' :: binChar op :: ' ' ::
          ((Expr.pretty a).data ++ ((opsStr t).data ++ rest)) := by
      rw [opsStr, binChar_pretty op]
      simp [String.data_append, String.singleton, String.append_assoc]
    have hfp : followPrim ((opsStr t).data ++ rest) = true := by
      cases t with
      | nil =>
          show followPrim (("" : String).data ++ rest) = true
          show followPrim rest = true
          exact followExpr_followPrim rest hf
      | cons q t' =>
          obtain ⟨op2, a2⟩ := q
          rw [opsStr]
          simp only [String.data_append, List.cons_append, List.append_assoc]
          rfl
    obtain ⟨a2, hp1, hpra, -, -⟩ :=
      (ih f le_rfl).prim a ((opsStr t).data ++ rest) ha hca
        (by simp only [opsFuel] at hfuel; omega) hfp
    obtain ⟨e2, hp2, hpr2, hnil2, hne2⟩ :=
      (ih f le_rfl).binTail t (.Binary acc op a2) rest
        (fun p hp => hch p (by simp [hp]))
        (by simp only [opsFuel] at hfuel; omega) hf
    refine ⟨e2, ?_, ?_, fun h => by simp at h, fun _ => ?_⟩
    · rw [hinput]
      simp only [pBinTail, binOpOf_binChar, hp1, hp2]
    · rw [hpr2]
      simp only [Expr.pretty, hpra, opsStr]
      simp [String.append_assoc]
    · cases t with
      | nil =>
          rw [hnil2 rfl]
          simp [isCallE, isContentE]
      | cons q t' => exact hne2 (by simp)

theorem stParenLoop_step (f : Nat) (ih : ∀ g, g ≤ f → StAll g) : StParenLoop (f + 1) := by
  intro m acc rest hm hsz
  cases m with
  | nil =>
      refine ⟨[], ?_, rfl⟩
      show pParenArgsLoop (f + 1) acc ((argSep []).data ++ ')' :: rest) =
        some (acc ++ [], rest)
      simp [argSep, pParenArgsLoop]
  | cons a m' =>
      have hinput : (argSep (a :: m')).data ++ ')' :: rest =
          ',' :: ' ' :: ((Argument.pretty a).data ++ ((argSep m').data ++ ')' :: rest)) := by
        simp [argSep, String.data_append]
      obtain ⟨a2, hp1, hpa, -⟩ := (ih f le_rfl).arg a ((argSep m').data ++ ')' :: rest)
        (hm a (by simp)) (by simp only [szAL] at hsz; omega) (followExpr_argSep m' rest)
      obtain ⟨l2, hp2, hm2⟩ := (ih f le_rfl).parenLoop m' (acc ++ [a2]) rest
        (fun x hx => hm x (by simp [hx])) (by simp only [szAL] at hsz; omega)
      refine ⟨a2 :: l2, ?_, by simp [hpa, hm2]⟩
      rw [hinput]
      simp only [pParenArgsLoop, hp1, hp2]
      simp

theorem stArrLoop_step (f : Nat) (ih : ∀ g, g ≤ f → StAll g) : StArrLoop (f + 1) := by
  intro m acc rest hm hsz
  cases m with
  | nil =>
      refine ⟨[], ?_, rfl⟩
      show pArrayLoop (f + 1) acc ((arrSep []).data ++ ')' :: rest) =
        some (.Array (Exprs.ofList (acc ++ [])), rest)
      simp [arrSep, pArrayLoop]
  | cons e m' =>
      have hinput : (arrSep (e :: m')).data ++ ')' :: rest =
          ',' :: ' ' :: ((Expr.pretty e).data ++ ((arrSep m').data ++ ')' :: rest)) := by
        simp [arrSep, String.data_append]
      have hm' : szEL m' ≥ 1 := szEL_pos m'
      obtain ⟨e2, hp1, hpe, -, -⟩ := (ih f le_rfl).expr e ((arrSep m').data ++ ')' :: rest)
        (hm e (by simp)) (by simp only [szEL] at hsz; omega) (followExpr_arrSep m' rest)
      obtain ⟨l2, hp2, hm2⟩ := (ih f le_rfl).arrLoop m' (acc ++ [e2]) rest
        (fun x hx => hm x (by simp [hx])) (by simp only [szEL] at hsz; omega)
      refine ⟨e2 :: l2, ?_, by simp [hpe, hm2]⟩
      rw [hinput]
      simp only [pArrayLoop, hp1, hp2]
      simp

theorem stDictLoop_step (f : Nat) (ih : ∀ g, g ≤ f → StAll g) : StDictLoop (f + 1) := by
  intro m acc rest hm hsz
  cases m with
  | nil =>
      refine ⟨[], ?_, rfl⟩
      show pDictLoop (f + 1) acc ((dictSep []).data ++ ')' :: rest) =
        some (.Dict (Nameds.ofList (acc ++ [])), rest)
      simp [dictSep, pDictLoop]
  | cons n m' =>
      obtain ⟨key, v⟩ := n
      have hwfn := hm (Named.mk key v) (by simp)
      simp only [wfN, Bool.and_eq_true] at hwfn
      obtain ⟨hne, hall, -⟩ := identOk_spec hwfn.1
      have hinput : (dictSep (Named.mk key v :: m')).data ++ ')' :: rest =
          ',' :: ' ' :: (key.data ++
            (':' :: ' ' :: ((Expr.pretty v).data ++ ((dictSep m').data ++ ')' :: rest)))) := by
        simp [dictSep, Named.pretty, String.data_append, String.append_assoc]
      have hta := takeAlpha_append key.data
        (':' :: ' ' :: ((Expr.pretty v).data ++ ((dictSep m').data ++ ')' :: rest)))
        hall (by rfl)
      have hkne : key.data.isEmpty = false := by
        cases hd : key.data with
        | nil => exact absurd hd hne
        | cons c cs => rfl
      obtain ⟨v2, hp1, hpv, -, -⟩ :=
        (ih f le_rfl).expr v ((dictSep m').data ++ ')' :: rest)
          hwfn.2 (by simp only [szNL, szN] at hsz; omega) (followExpr_dictSep m' rest)
      obtain ⟨l2, hp2, hm2⟩ := (ih f le_rfl).dictLoop m' (acc ++ [Named.mk key v2]) rest
        (fun x hx => hm x (by simp [hx])) (by simp only [szNL] at hsz; omega)
      refine ⟨Named.mk key v2 :: l2, ?_, ?_⟩
      · rw [hinput]
        simp only [pDictLoop, hta, hkne, Bool.false_eq_true, if_false, hp1,
          string_mk_data, hp2]
        simp
      · simp [Named.pretty, hpv, hm2]

theorem stLoopOthers_step (f : Nat) (ih : ∀ g, g ≤ f → StAll g) : StLoopOthers (f + 1) := by
  intro m acc rest hm hsz hrest
  cases m with
  | nil =>
      obtain ⟨g, rfl⟩ : ∃ g, f = g + 1 := ⟨f - 1, by simp only [szAL] at hsz; omega⟩
      refine ⟨[], ?_, rfl, rfl⟩
      show pArgsLoop (g + 1 + 1) acc ((othersTail []).data ++ rest) = some (acc ++ [], rest)
      simp only [othersTail]
      show pArgsLoop (g + 1 + 1) acc (']' :: rest) = some (acc ++ [], rest)
      simp [pArgsLoop, pBodyCheck_none g acc rest hrest]
  | cons a m' =>
      have hinput : (othersTail (a :: m')).data ++ rest =
          ',' :: ' ' :: ((Argument.pretty a).data ++ ((othersTail m').data ++ rest)) := by
        simp [othersTail, String.data_append, String.append_assoc]
      obtain ⟨a2, hp1, hpa, hfa⟩ := (ih f le_rfl).arg a ((othersTail m').data ++ rest)
        (hm a (by simp)) (by simp only [szAL] at hsz; omega)
        (followExpr_othersTail m' rest)
      obtain ⟨l2, hp2, hm2, hf2⟩ := (ih f le_rfl).loopOthers m' (acc ++ [a2]) rest
        (fun x hx => hm x (by simp [hx])) (by simp only [szAL] at hsz; omega) hrest
      refine ⟨a2 :: l2, ?_, by simp [hpa, hm2], by simp [hfa, hf2]⟩
      rw [hinput]
      simp only [pArgsLoop, hp1, hp2]
      simp

theorem chainOrBody_body_not_single (t : Tree')
    (hshape : chainOrBody t = "][" ++ Tree'.pretty t ++ "]") :
    ∀ c, t ≠ .cons (.Expr (.Call c)) .nil := by
  rintro c rfl
  rw [chainOrBody_single_call] at hshape
  cases c with
  | mk name args =>
    rw [pretty_bracket_call_eq] at hshape
    have hd := congrArg String.data hshape
    simp only [String.data_append, if_true, List.append_assoc,
      List.singleton_append, List.cons_append] at hd
    simp at hd

/-- Print, length and head preservation transfer the chain-or-body decision,
when the original content is a body. -/
theorem chainOrBody_transfer (t t2 : Tree')
    (hshape : chainOrBody t = "][" ++ Tree'.pretty t ++ "]")
    (hpr : Tree'.pretty t2 = Tree'.pretty t) (hlen : lenT t2 = lenT t)
    (hhead : headCall t2 = headCall t) :
    chainOrBody t2 = chainOrBody t := by
  have hns := chainOrBody_body_not_single t hshape
  rcases chainOrBody_shape t2 with ⟨c, rfl⟩ | h2
  · exfalso
    have h1 : lenT t = 1 ∧ headCall t = true := by
      constructor
      · rw [← hlen]; simp [lenT]
      · rw [← hhead]; simp [headCall]
    obtain ⟨c0, hc0⟩ := (singleCall_iff t).mpr h1
    exact hns c0 hc0
  · rw [h2, hshape, hpr]

theorem stLoopCont_step (f : Nat) (ih : ∀ g, g ≤ f → StAll g) : StLoopCont (f + 1) := by
  intro m t acc rest hm hwt hsz hcond
  cases m with
  | nil =>
      rcases chainOrBody_shape t with ⟨inner, rfl⟩ | hshape
      · obtain ⟨iname, iargs⟩ := inner
        have hwfc : wfC (.mk iname iargs) = true := by
          simp only [wfT, wfNode, wfE, adjOk, Bool.and_eq_true] at hwt
          exact hwt.1.1
        have hcond2 : ewbArgs iargs = true ∨ noLBracketHead rest = true := by
          rcases hcond with h | h
          · exact Or.inl (by simpa [ewbT, ewbC] using h)
          · exact Or.inr h
        obtain ⟨name2, args2, hpC, hn2, hbr2⟩ :=
          (ih f le_rfl).call iname iargs rest hwfc
            (by simp only [szAL, szT, szNode, szE, szC] at hsz ⊢; omega) hcond2
        refine ⟨[], .cons (.Expr (.Call (.mk name2 args2))) .nil, ?_, rfl, rfl, ?_⟩
        · have hinput : (contTail [] (Tree'.cons (.Expr (.Call (.mk iname iargs))) .nil)).data
              ++ rest =
              ' ' :: '|' :: ' ' :: (iname.data ++ ((bracketRest iargs).data ++ rest)) := by
            simp [contTail, chainOrBody_single_call, pretty_bracket_call_eq,
              String.data_append, String.append_assoc]
          rw [hinput]
          simp [pArgsLoop, hpC]
        · simp only [chainOrBody_single_call, pretty_bracket_call_eq, hn2, hbr2]
      · have hns : szT t + 2 < f := by
          simp only [szAL] at hsz
          omega
        obtain ⟨t2, hpB, hprB, hlenB, hheadB⟩ :=
          (ih f le_rfl).body acc t rest hwt hns
        refine ⟨[], t2, ?_, rfl, rfl,
          chainOrBody_transfer t t2 hshape hprB hlenB hheadB⟩
        have hinput : (contTail ([] : List Argument) t).data ++ rest =
            ']' :: '[' :: ((Tree'.pretty t).data ++ ']' :: rest) := by
          simp [contTail, hshape, String.data_append, String.append_assoc]
        rw [hinput]
        simp [pArgsLoop, hpB]
  | cons a m' =>
      have hinput : (contTail (a :: m') t).data ++ rest =
          ',' :: ' ' :: ((Argument.pretty a).data ++ ((contTail m' t).data ++ rest)) := by
        simp [contTail, String.data_append, String.append_assoc]
      obtain ⟨a2, hp1, hpa, hfa⟩ := (ih f le_rfl).arg a ((contTail m' t).data ++ rest)
        (hm a (by simp)) (by simp only [szAL] at hsz; omega)
        (followExpr_contTail m' t rest)
      obtain ⟨l2, t2, hp2, hm2, hf2, hcb⟩ :=
        (ih f le_rfl).loopCont m' t (acc ++ [a2]) rest
          (fun x hx => hm x (by simp [hx])) hwt
          (by simp only [szAL] at hsz; omega) hcond
      refine ⟨a2 :: l2, t2, ?_, by simp [hpa, hm2], by simp [hfa, hf2], hcb⟩
      rw [hinput]
      simp only [pArgsLoop, hp1, hp2]
      simp

theorem pBracketAfterName_arg (f : Nat) (acc : List Argument) (c : Char) (r : List Char)
    (hc : ¬c = '|') :
    pBracketAfterName (f + 1) acc (' ' :: c :: r) =
      (match pArg f (c :: r) with
       | some (a, r') => pArgsLoop f (acc ++ [a]) r'
       | none => none) := by
  simp [pBracketAfterName, hc]

theorem stAfterName_step (f : Nat) (ih : ∀ g, g ≤ f → StAll g) : StAfterName (f + 1) := by
  intro args acc rest hwf hsz hcond
  cases args with
  | nil =>
      obtain ⟨g, rfl⟩ : ∃ g, f = g + 1 := ⟨f - 1, by simp only [szAs] at hsz; omega⟩
      have hrest : noLBracketHead rest = true := by
        rcases hcond with h | h
        · simp [ewbArgs] at h
        · exact h
      refine ⟨[], ?_, by simp [Args.ofList]⟩
      show pBracketAfterName (g + 1 + 1) acc ((bracketRest .nil).data ++ rest) =
        some (acc ++ [], rest)
      simp only [bracketRest]
      show pBracketAfterName (g + 1 + 1) acc (']' :: rest) = some (acc ++ [], rest)
      simp [pBracketAfterName, pBodyCheck_none g acc rest hrest]
  | cons a ts =>
    have hwfa : wfA a = true :=
      wfAs_toList _ hwf a (by simp [Args.toList])
    cases ts with
    | nil =>
      cases hpc : isPosContentA a with
      | true =>
        obtain ⟨tc, rfl⟩ := isPosContentA_true hpc
        have hwt : wfT tc = true := by simpa [wfA, wfE] using hwfa
        have hcond2 : ewbT tc = true ∨ noLBracketHead rest = true := by
          rcases hcond with h | h
          · exact Or.inl (by rwa [ewbArgs_single_content] at h)
          · exact Or.inr h
        rcases chainOrBody_shape tc with ⟨inner, rfl⟩ | hshape
        · obtain ⟨iname, iargs⟩ := inner
          have hwfc : wfC (.mk iname iargs) = true := by
            simp only [wfT, wfNode, wfE, adjOk, Bool.and_eq_true] at hwt
            exact hwt.1.1
          have hcond3 : ewbArgs iargs = true ∨ noLBracketHead rest = true := by
            rcases hcond2 with h | h
            · exact Or.inl (by simpa [ewbT, ewbC] using h)
            · exact Or.inr h
          obtain ⟨name2, args2, hpC, hn2, hbr2⟩ :=
            (ih f le_rfl).call iname iargs rest hwfc
              (by simp only [szAs, szA, szE, szT, szNode, szC] at hsz ⊢; omega) hcond3
          refine ⟨[.Pos (.Content (.cons (.Expr (.Call (.mk name2 args2))) .nil))], ?_, ?_⟩
          · have hinput :
                (bracketRest (.cons (.Pos (.Content
                  (.cons (.Expr (.Call (.mk iname iargs))) .nil))) .nil)).data ++ rest =
                ' ' :: '|' :: ' ' :: (iname.data ++ ((bracketRest iargs).data ++ rest)) := by
              simp [bracketRest, bracketFirst_last_content, chainOrBody_single_call,
                pretty_bracket_call_eq, String.data_append, String.append_assoc]
            rw [hinput]
            simp [pBracketAfterName, hpC]
          · simp [Args.ofList, bracketRest, bracketFirst_last_content,
              chainOrBody_single_call, pretty_bracket_call_eq, hn2, hbr2]
        · have hns : szT tc + 2 < f := by
            simp only [szAs, szA, szE] at hsz; omega
          obtain ⟨t2, hpB, hprB, hlenB, hheadB⟩ := (ih f le_rfl).body acc tc rest hwt hns
          refine ⟨[.Pos (.Content t2)], ?_, ?_⟩
          · have hinput : (bracketRest (.cons (.Pos (.Content tc)) .nil)).data ++ rest =
                ']' :: '[' :: ((Tree'.pretty tc).data ++ ']' :: rest) := by
              simp [bracketRest, bracketFirst_last_content, hshape,
                String.data_append, String.append_assoc]
            rw [hinput]
            simp [pBracketAfterName, hpB]
          · have hcb := chainOrBody_transfer tc t2 hshape hprB hlenB hheadB
            simp [Args.ofList, bracketRest, bracketFirst_last_content, hcb]
      | false =>
        have hne := isPosContentA_false hpc
        obtain ⟨c, cs, hdata, hclass⟩ := prA_head a hwfa
        have hcne : ¬c = '|' := (starter_not_stops c hclass).2.2.2.1
        have hrest : noLBracketHead rest = true := by
          rcases hcond with h | h
          · rw [ewbArgs_last_other [] (.cons a .nil) a hpc (by simp [Args.toList])] at h
            simp at h
          · exact h
        obtain ⟨a2, hp1, hpa, hfa⟩ := (ih f le_rfl).arg a (']' :: rest) hwfa
          (by simp only [szAs] at hsz; omega) (by rfl)
        obtain ⟨l2, hp2, hm2, hf2⟩ := (ih f le_rfl).loopOthers [] (acc ++ [a2]) rest
          (by simp)
          (by simp only [szAs] at hsz; have := szA_pos a; simp only [szAL]; omega) hrest
        have hp2' : pArgsLoop f (acc ++ [a2]) (']' :: rest) =
            some (acc ++ [a2] ++ l2, rest) := hp2
        have hl2 : l2 = [] := by
          cases l2 with
          | nil => rfl
          | cons x xs => simp at hm2
        subst hl2
        refine ⟨[a2], ?_, ?_⟩
        · have hinput : (bracketRest (.cons a .nil)).data ++ rest =
              ' ' :: (c :: (cs ++ (']' :: rest))) := by
            simp only [bracketRest, bracketFirst_last_other a hne]
            simp [String.data_append, hdata, String.append_assoc]
          rw [hinput]
          rw [pBracketAfterName_arg f acc c _ hcne]
          have hp1' : pArg f (c :: (cs ++ (']' :: rest))) = some (a2, ']' :: rest) := by
            rw [← List.cons_append, ← hdata]
            exact hp1
          simp [hp1', hp2']
        · have hfa2 : isPosContentA a2 = false := by rw [hfa, hpc]
          simp [Args.ofList, bracketRest,
            bracketFirst_last_other a2 (isPosContentA_false hfa2),
            bracketFirst_last_other a hne, hpa]
    | cons b ts' =>
      rcases list_concat_cases (b :: Args.toList ts') with hLnil | ⟨mid, la, hL⟩
      · simp at hLnil
      have htl : Args.toList (.cons a (.cons b ts')) = (a :: mid) ++ [la] := by
        simp only [Args.toList]
        rw [show b :: Args.toList ts' = mid ++ [la] from hL]
        simp
      obtain ⟨c, cs, hdata, hclass⟩ := prA_head a hwfa
      have hcne : ¬c = '|' := (starter_not_stops c hclass).2.2.2.1
      have hwmid : ∀ x ∈ mid, wfA x = true := by
        intro x hx
        exact wfAs_toList _ hwf x (by rw [htl]; simp [hx])
      have hwla : wfA la = true :=
        wfAs_toList _ hwf la (by rw [htl]; simp)
      have hszL : szAs (.cons a (.cons b ts')) = 2 + szA a + szAL (mid ++ [la]) := by
        rw [← szAL_toList]
        simp only [Args.toList]
        rw [show b :: Args.toList ts' = mid ++ [la] from hL]
        simp [szAL]
      rw [hszL] at hsz
      have hfirst : bracketRest (.cons a (.cons b ts')) =
          " " ++ Argument.pretty a ++ bracketMore b ts' := by
        simp [bracketRest, bracketFirst]
      cases hpc : isPosContentA la with
      | true =>
        obtain ⟨tc, rfl⟩ := isPosContentA_true hpc
        have hwt : wfT tc = true := by simpa [wfA, wfE] using hwla
        have hbm : bracketMore b ts' = contTail mid tc :=
          bracketMore_toList_cont mid b ts' tc hL
        have hcond2 : ewbT tc = true ∨ noLBracketHead rest = true := by
          rcases hcond with h | h
          · exact Or.inl (by rwa [ewbArgs_last_content (a :: mid) _ tc htl] at h)
          · exact Or.inr h
        have hsplit : szAL (mid ++ [Argument.Pos (.Content tc)]) =
            szAL mid + szT tc + 6 := by
          rw [szAL_append]
          simp only [szA, szE]
          omega
        obtain ⟨a2, hp1, hpa, hfa⟩ :=
          (ih f le_rfl).arg a ((contTail mid tc).data ++ rest) hwfa
            (by rw [hsplit] at hsz; omega) (followExpr_contTail mid tc rest)
        obtain ⟨l2, t2, hp2, hm2, hf2, hcb⟩ :=
          (ih f le_rfl).loopCont mid tc (acc ++ [a2]) rest hwmid hwt
            (by rw [hsplit] at hsz; have := szA_pos a; omega) hcond2
        refine ⟨a2 :: (l2 ++ [.Pos (.Content t2)]), ?_, ?_⟩
        · have hinput : (bracketRest (.cons a (.cons b ts'))).data ++ rest =
              ' ' :: (c :: (cs ++ ((contTail mid tc).data ++ rest))) := by
            rw [hfirst, hbm]
            simp [String.data_append, hdata, String.append_assoc]
          rw [hinput, pBracketAfterName_arg f acc c _ hcne]
          have hp1' : pArg f (c :: (cs ++ ((contTail mid tc).data ++ rest))) =
              some (a2, (contTail mid tc).data ++ rest) := by
            rw [← List.cons_append, ← hdata]
            exact hp1
          simp [hp1', hp2]
        · obtain ⟨y, ys, hys⟩ :
              ∃ y ys, l2 ++ [Argument.Pos (.Content t2)] = y :: ys := by
            cases l2 with
            | nil => exact ⟨_, _, rfl⟩
            | cons z zs => exact ⟨_, _, rfl⟩
          have hbm2 : bracketMore y (Args.ofList ys) = contTail l2 t2 := by
            apply bracketMore_toList_cont
            rw [Args.toList_ofList, ← hys]
          rw [show Args.ofList (a2 :: (l2 ++ [Argument.Pos (.Content t2)])) =
              .cons a2 (Args.ofList (l2 ++ [Argument.Pos (.Content t2)])) from rfl]
          rw [hys]
          rw [show Args.ofList (y :: ys) = .cons y (Args.ofList ys) from rfl]
          have hfirst2 : bracketRest (.cons a2 (.cons y (Args.ofList ys))) =
              " " ++ Argument.pretty a2 ++ bracketMore y (Args.ofList ys) := by
            simp [bracketRest, bracketFirst]
          rw [hfirst2, hbm2, hfirst, hbm, hpa,
            contTail_congr l2 mid t2 tc hm2 hcb]
      | false =>
        have hbm : bracketMore b ts' = othersTail (mid ++ [la]) :=
          bracketMore_toList_oth mid la b ts' hpc hL
        have hrest : noLBracketHead rest = true := by
          rcases hcond with h | h
          · rw [ewbArgs_last_other (a :: mid) _ la hpc htl] at h
            simp at h
          · exact h
        obtain ⟨a2, hp1, hpa, hfa⟩ :=
          (ih f le_rfl).arg a ((othersTail (mid ++ [la])).data ++ rest) hwfa
            (by have := szAL_pos (mid ++ [la]); omega)
            (followExpr_othersTail (mid ++ [la]) rest)
        obtain ⟨l2, hp2, hm2, hf2⟩ :=
          (ih f le_rfl).loopOthers (mid ++ [la]) (acc ++ [a2]) rest
            (by intro x hx
                rcases List.mem_append.mp hx with hx | hx
                · exact hwmid x hx
                · simp only [List.mem_singleton] at hx
                  subst hx
                  exact hwla)
            (by have := szA_pos a; omega) hrest
        obtain ⟨l3, a3, rfl, hm3, hf3, hpa3, hfa3⟩ :=
          arg_maps_concat la l2 mid hm2 hf2
        refine ⟨a2 :: (l3 ++ [a3]), ?_, ?_⟩
        · have hinput : (bracketRest (.cons a (.cons b ts'))).data ++ rest =
              ' ' :: (c :: (cs ++ ((othersTail (mid ++ [la])).data ++ rest))) := by
            rw [hfirst, hbm]
            simp [String.data_append, hdata, String.append_assoc]
          rw [hinput, pBracketAfterName_arg f acc c _ hcne]
          have hp1' : pArg f (c :: (cs ++ ((othersTail (mid ++ [la])).data ++ rest))) =
              some (a2, (othersTail (mid ++ [la])).data ++ rest) := by
            rw [← List.cons_append, ← hdata]
            exact hp1
          simp [hp1', hp2]
        · obtain ⟨y, ys, hys⟩ : ∃ y ys, l3 ++ [a3] = y :: ys := by
            cases l3 with
            | nil => exact ⟨_, _, rfl⟩
            | cons z zs => exact ⟨_, _, rfl⟩
          have hfa3' : isPosContentA a3 = false := by rw [hfa3, hpc]
          have hbm2 : bracketMore y (Args.ofList ys) = othersTail (l3 ++ [a3]) := by
            apply bracketMore_toList_oth l3 a3 y (Args.ofList ys) hfa3'
            rw [Args.toList_ofList, ← hys]
          rw [show Args.ofList (a2 :: (l3 ++ [a3])) =
              .cons a2 (Args.ofList (l3 ++ [a3])) from rfl]
          rw [hys]
          rw [show Args.ofList (y :: ys) = .cons y (Args.ofList ys) from rfl]
          have hfirst2 : bracketRest (.cons a2 (.cons y (Args.ofList ys))) =
              " " ++ Argument.pretty a2 ++ bracketMore y (Args.ofList ys) := by
            simp [bracketRest, bracketFirst]
          rw [hfirst2, hbm2, hfirst, hbm, hpa,
            othersTail_congr (l3 ++ [a3]) (mid ++ [la]) (by simp [hm3, hpa3])]

theorem bracketRest_noAlpha (args : Args) (rest : List Char) :
    noAlphaHead ((bracketRest args).data ++ rest) = true := by
  cases args with
  | nil =>
      have h : bracketRest Args.nil = "]" := by simp [bracketRest]
      rw [h]
      rfl
  | cons a t =>
    cases t with
    | cons b t' =>
        have h : bracketRest (.cons a (.cons b t')) =
            " " ++ Argument.pretty a ++ bracketMore b t' := by
          simp [bracketRest, bracketFirst]
        rw [h]
        simp only [String.data_append, List.append_assoc, List.cons_append,
          List.singleton_append]
        rfl
    | nil =>
      cases hpc : isPosContentA a with
      | true =>
          obtain ⟨tc, rfl⟩ := isPosContentA_true hpc
          have h : bracketRest (.cons (.Pos (.Content tc)) .nil) = chainOrBody tc := by
            simp [bracketRest, bracketFirst_last_content]
          rw [h]
          rcases chainOrBody_shape tc with ⟨inner, rfl⟩ | hshape
          · obtain ⟨iname, iargs⟩ := inner
            simp only [chainOrBody_single_call, pretty_bracket_call_eq, if_true,
              String.data_append, List.append_assoc, List.cons_append,
              List.singleton_append]
            rfl
          · rw [hshape]
            simp only [String.data_append, List.append_assoc, List.cons_append,
              List.singleton_append]
            rfl
      | false =>
          have h : bracketRest (.cons a .nil) = " " ++ Argument.pretty a ++ "]" := by
            simp [bracketRest, bracketFirst_last_other a (isPosContentA_false hpc)]
          rw [h]
          simp only [String.data_append, List.append_assoc, List.cons_append,
            List.singleton_append]
          rfl

theorem isPosContentA_pos (e : Expr) : isPosContentA (.Pos e) = isContentE e := by
  cases e <;> simp [isPosContentA, isContentE]

theorem stCall_step (f : Nat) (ih : ∀ g, g ≤ f → StAll g) : StCall (f + 1) := by
  intro name args rest hwf hsz hcond
  simp only [wfC, Bool.and_eq_true] at hwf
  obtain ⟨hne, hall, -⟩ := identOk_spec hwf.1
  have hta := takeAlpha_append name.data ((bracketRest args).data ++ rest) hall
    (bracketRest_noAlpha args rest)
  obtain ⟨l2, hp2, hbr2⟩ := (ih f le_rfl).afterName args [] rest hwf.2
    (by simp only [szC] at hsz; omega) hcond
  cases hd : name.data with
  | nil => exact absurd hd hne
  | cons c cs =>
      refine ⟨String.mk name.data, Args.ofList l2, ?_, string_mk_data name, hbr2⟩
      simp only [pBracketInner]
      rw [hd] at hta
      rw [hta]
      simp only [hp2, List.nil_append]
      rw [hd]

theorem stArg_step (f : Nat) (ih : ∀ g, g ≤ f → StAll g) : StArg (f + 1) := by
  intro a rest hwfa hsz hf
  cases a with
  | Named n =>
    obtain ⟨key, v⟩ := n
    simp only [wfA, wfN, Bool.and_eq_true] at hwfa
    obtain ⟨hne, hall, -⟩ := identOk_spec hwfa.1
    have hkne : key.data.isEmpty = false := by
      cases hd : key.data with
      | nil => exact absurd hd hne
      | cons c cs => rfl
    have hta := takeAlpha_append key.data
      (':' :: ' ' :: ((Expr.pretty v).data ++ rest)) hall (by rfl)
    obtain ⟨v2, hp1, hpv, -, -⟩ := (ih f le_rfl).expr v rest hwfa.2
      (by simp only [szA, szN] at hsz; omega) hf
    refine ⟨.Named (.mk key v2), ?_, ?_, rfl⟩
    · have hinput : (Argument.pretty (.Named (.mk key v))).data ++ rest =
          key.data ++ (':' :: ' ' :: ((Expr.pretty v).data ++ rest)) := by
        simp [Argument.pretty, Named.pretty, String.data_append, String.append_assoc]
      rw [hinput]
      simp only [pArg, hta, hkne, Bool.false_eq_true, if_false, hp1, string_mk_data]
    · simp [Argument.pretty, Named.pretty, hpv]
  | Pos e =>
    have hwe : wfE e = true := by simpa [wfA] using hwfa
    obtain ⟨e2, hp1, hpe, hce, hcte⟩ := (ih f le_rfl).expr e rest hwe
      (by simp only [szA] at hsz; omega) hf
    have hsnd := takeAlpha_expr_snd e rest hwe hf
    refine ⟨.Pos e2, ?_, by simp [Argument.pretty, hpe], ?_⟩
    · have hinput : (Argument.pretty (.Pos e)).data ++ rest =
          (Expr.pretty e).data ++ rest := by
        simp [Argument.pretty]
      rw [hinput]
      cases hta : takeAlpha ((Expr.pretty e).data ++ rest) with
      | mk nm r2 =>
        cases r2 with
        | nil => simp [pArg, hta, hp1]
        | cons c2 r3 =>
            by_cases hc2 : c2 = ':'
            · subst hc2
              have hcontra := hsnd r3
              rw [hta] at hcontra
              exact absurd rfl hcontra
            · simp [pArg, hta, hc2, hp1]
    · rw [isPosContentA_pos, isPosContentA_pos, hcte]

theorem stParenArgs_step (f : Nat) (ih : ∀ g, g ≤ f → StAll g) : StParenArgs (f + 1) := by
  intro m rest hm hsz
  cases m with
  | nil =>
      refine ⟨[], ?_, rfl⟩
      show pParenArgs (f + 1) ((sepBy ", " []).data ++ ')' :: rest) = some ([], rest)
      simp [sepBy, pParenArgs]
  | cons a l =>
      have hwfa := hm a (by simp)
      obtain ⟨c, cs, hdata, hclass⟩ := prA_head a hwfa
      have hcne : ¬c = ')' := (starter_not_stops c hclass).1
      obtain ⟨a2, hp1, hpa, -⟩ := (ih f le_rfl).arg a ((argSep l).data ++ ')' :: rest)
        hwfa (by simp only [szAL] at hsz; omega) (followExpr_argSep l rest)
      obtain ⟨l2, hp2, hm2⟩ := (ih f le_rfl).parenLoop l [a2] rest
        (fun x hx => hm x (by simp [hx])) (by simp only [szAL] at hsz; omega)
      refine ⟨a2 :: l2, ?_, by simp [hpa, hm2]⟩
      have hinput : (sepBy ", " ((a :: l).map Argument.pretty)).data ++ ')' :: rest =
          c :: (cs ++ ((argSep l).data ++ ')' :: rest)) := by
        rw [sepBy_argSep]
        simp [String.data_append, hdata, String.append_assoc]
      rw [hinput]
      have hp1' : pArg f (c :: (cs ++ ((argSep l).data ++ ')' :: rest))) =
          some (a2, (argSep l).data ++ ')' :: rest) := by
        rw [← List.cons_append, ← hdata]
        exact hp1
      have hp2' : pParenArgsLoop f [a2] ((argSep l).data ++ ')' :: rest) =
          some ([a2] ++ l2, rest) := hp2
      simp [pParenArgs, hcne, hp1', hp2']

theorem chainOps_entries : ∀ (e : Expr), ∀ p ∈ chainOps e, chainOps (Prod.snd p) = []
  | .Binary l op r => by
      intro p hp
      simp only [chainOps, List.mem_append, List.mem_cons] at hp
      rcases hp with hp | hp | hp
      · exact chainOps_entries l p hp
      · subst hp; exact chainOps_atom r
      · exact chainOps_entries r p hp
  | .Unary op e0 => by
      intro p hp
      simp only [chainOps] at hp
      exact chainOps_entries e0 p hp
  | .None => by intro p hp; simp [chainOps] at hp
  | .Ident _ => by intro p hp; simp [chainOps] at hp
  | .Bool _ => by intro p hp; simp [chainOps] at hp
  | .Int _ => by intro p hp; simp [chainOps] at hp
  | .Float _ => by intro p hp; simp [chainOps] at hp
  | .Length _ _ => by intro p hp; simp [chainOps] at hp
  | .Percent _ => by intro p hp; simp [chainOps] at hp
  | .Color _ => by intro p hp; simp [chainOps] at hp
  | .Str _ => by intro p hp; simp [chainOps] at hp
  | .Call _ => by intro p hp; simp [chainOps] at hp
  | .Array _ => by intro p hp; simp [chainOps] at hp
  | .Dict _ => by intro p hp; simp [chainOps] at hp
  | .Content _ => by intro p hp; simp [chainOps] at hp

theorem flags_chain_ne (e : Expr) (h : chainOps e ≠ []) :
    isCallE e = false ∧ isContentE e = false := by
  cases e <;> first
    | exact ⟨rfl, rfl⟩
    | exact absurd rfl h

theorem stExpr_step (f : Nat) (ih : ∀ g, g ≤ f → StAll g) : StExpr (f + 1) := by
  intro e rest hwf hsz hf
  obtain ⟨hwa, hwc⟩ := wf_atom_chain e hwf
  have hsza := sz_atom_chain e
  have hsze := szE_pos (atomExpr e)
  have hfp : followPrim ((opsStr (chainOps e)).data ++ rest) = true := by
    cases hch : chainOps e with
    | nil =>
        show followPrim ((opsStr []).data ++ rest) = true
        show followPrim rest = true
        exact followExpr_followPrim rest hf
    | cons p t =>
        obtain ⟨op, a⟩ := p
        rw [opsStr]
        simp only [String.data_append, List.cons_append, List.append_assoc,
          List.singleton_append]
        rfl
  obtain ⟨e0, hp1, hpe0, hce0, hcte0⟩ := (ih f le_rfl).prim (atomExpr e)
    ((opsStr (chainOps e)).data ++ rest) hwa (chainOps_atom e) (by omega) hfp
  obtain ⟨e2, hp2, hpr2, hnil2, hne2⟩ := (ih f le_rfl).binTail (chainOps e) e0 rest
    (fun p hp => ⟨hwc p hp, chainOps_entries e p hp⟩) (by omega) hf
  refine ⟨e2, ?_, ?_, ?_, ?_⟩
  · rw [pretty_split e, String.data_append, List.append_assoc]
    simp only [pExpr, hp1, hp2]
  · rw [hpr2, hpe0, ← pretty_split e]
  · cases hch : chainOps e with
    | nil =>
        rw [hch] at hnil2
        rw [hnil2 rfl, hce0, (flags_atom e hch).1]
    | cons p t =>
        rw [hch] at hne2
        rw [(hne2 (by simp)).1, (flags_chain_ne e (by rw [hch]; simp)).1]
  · cases hch : chainOps e with
    | nil =>
        rw [hch] at hnil2
        rw [hnil2 rfl, hcte0, (flags_atom e hch).2]
    | cons p t =>
        rw [hch] at hne2
        rw [(hne2 (by simp)).2, (flags_chain_ne e (by rw [hch]; simp)).2]

theorem headCall_true {t : Tree'} (h : headCall t = true) :
    ∃ c2 t2, t = .cons (.Expr (.Call c2)) t2 := by
  cases t with
  | nil => simp [headCall] at h
  | cons n t2 =>
    cases n with
    | Text c => simp [headCall] at h
    | Expr e =>
        cases e <;> first
          | exact ⟨_, _, rfl⟩
          | simp [headCall] at h

theorem stMarkup_step (f : Nat) (ih : ∀ g, g ≤ f → StAll g) : StMarkup (f + 1) := by
  intro t rest hwf hsz hfm
  cases t with
  | nil =>
      refine ⟨.nil, ?_, rfl, rfl, rfl⟩
      have hp : Tree'.pretty .nil = "" := by simp [Tree'.pretty]
      rw [hp]
      show pMarkup (f + 1) rest = some (.nil, rest)
      cases rest with
      | nil => rfl
      | cons c r =>
          simp only [followMarkup, Bool.or_eq_true, beq_iff_eq] at hfm
          rcases hfm with rfl | rfl <;> rfl
  | cons n t' =>
    have hwfn : wfNode n = true := by
      simp only [wfT, Bool.and_eq_true] at hwf
      exact hwf.1.1
    have hadj : adjOk n t' = true := by
      simp only [wfT, Bool.and_eq_true] at hwf
      exact hwf.1.2
    have hwt' : wfT t' = true := by
      simp only [wfT, Bool.and_eq_true] at hwf
      exact hwf.2
    obtain ⟨t2, hpT, hprT, hlenT2, hheadT2⟩ := (ih f le_rfl).markup t' rest hwt'
      (by simp only [szT] at hsz; omega) hfm
    cases n with
    | Text c =>
        have htx : textOk c = true := by simpa [wfNode] using hwfn
        refine ⟨.cons (.Text c) t2, ?_, ?_, by simp [lenT, hlenT2],
          by simp [headCall]⟩
        · have hinput : (Tree'.pretty (.cons (.Text c) t')).data ++ rest =
              c :: ((Tree'.pretty t').data ++ rest) := by
            simp only [Tree'.pretty, Node.pretty, String.data_append]
            rw [show (String.singleton c).data = [c] from rfl]
            simp
          rw [hinput, pMarkup_text f c _ htx]
          simp [hpT]
        · simp only [Tree'.pretty, Node.pretty, hprT]
    | Expr e =>
      have hwe : wfE e = true := by simpa [wfNode] using hwfn
      cases hc : isCallE e with
      | true =>
        obtain ⟨call, rfl⟩ : ∃ call, e = .Call call := by
          cases e <;> first
            | exact ⟨_, rfl⟩
            | simp [isCallE] at hc
        obtain ⟨name, args⟩ := call
        have hwfc : wfC (.mk name args) = true := by simpa [wfE] using hwe
        have hcond : ewbArgs args = true ∨
            noLBracketHead ((Tree'.pretty t').data ++ rest) = true := by
          cases hh : headCall t' with
          | true =>
              left
              obtain ⟨c2, t'', rfl⟩ := headCall_true hh
              simpa [adjOk, ewbC] using hadj
          | false =>
              right
              exact tree_not_lbracket t' rest hwt' hfm hh
        obtain ⟨name2, args2, hpC, hn2, hbr2⟩ :=
          (ih f le_rfl).call name args ((Tree'.pretty t').data ++ rest) hwfc
            (by simp only [szT, szNode, szE] at hsz; omega) hcond
        refine ⟨.cons (.Expr (.Call (.mk name2 args2))) t2, ?_, ?_,
          by simp [lenT, hlenT2], by simp [headCall]⟩
        · have hinput :
              (Tree'.pretty (.cons (.Expr (.Call (.mk name args))) t')).data ++ rest =
              '[' :: (name.data ++
                ((bracketRest args).data ++ ((Tree'.pretty t').data ++ rest))) := by
            simp [Tree'.pretty, Node.pretty, pretty_bracket_call_eq,
              String.data_append, String.append_assoc]
          rw [hinput]
          simp only [pMarkup, hpC, hpT]
        · simp only [Tree'.pretty, Node.pretty, pretty_bracket_call_eq, hn2, hbr2,
            hprT]
      | false =>
        have hnp := node_pretty_notCall e hc
        obtain ⟨e2, hpE, hprE, hce2, hcte2⟩ := (ih f le_rfl).expr e
          ('\x7d' :: ((Tree'.pretty t').data ++ rest)) hwe
          (by simp only [szT, szNode] at hsz; have := szT_pos t'; omega) (by rfl)
        refine ⟨.cons (.Expr e2) t2, ?_, ?_, by simp [lenT, hlenT2], ?_⟩
        · have hinput : (Tree'.pretty (.cons (.Expr e) t')).data ++ rest =
              '\x7b' :: ((Expr.pretty e).data ++
                ('\x7d' :: ((Tree'.pretty t').data ++ rest))) := by
            simp [Tree'.pretty, hnp, String.data_append, String.append_assoc]
          rw [hinput]
          simp only [pMarkup, hpE, hpT]
        · have hnp2 := node_pretty_notCall e2 (by rw [hce2, hc])
          simp only [Tree'.pretty, hnp, hnp2, hprE, hprT]
        · rw [headCall_cons_expr, headCall_cons_expr, hce2]

theorem exprs_toList_ofList : ∀ (l : List Expr), (Exprs.ofList l).toList = l
  | [] => rfl
  | e :: t => by simp [Exprs.ofList, Exprs.toList, exprs_toList_ofList t]

theorem nameds_toList_ofList : ∀ (l : List Named), (Nameds.ofList l).toList = l
  | [] => rfl
  | n :: t => by simp [Nameds.ofList, Nameds.toList, nameds_toList_ofList t]

theorem noLBracketHead_of_followPrim (rest : List Char) (h : followPrim rest = true) :
    noLBracketHead rest = true := by
  rcases followPrim_cases rest h with rfl | ⟨c, r, rfl, hc⟩
  · rfl
  · rcases hc with rfl | rfl | rfl | rfl | rfl <;> rfl

theorem display_neg (ip : Nat) (fr : List Nat) :
    FloatLit.display ⟨true, ip, fr⟩ = "-" ++ FloatLit.display ⟨false, ip, fr⟩ := by
  simp [FloatLit.display, String.empty_append, String.append_assoc]

theorem display_data_eq (ip : Nat) (fr : List Nat) (X : List Char) :
    (FloatLit.display ⟨false, ip, fr⟩).data ++ X =
      natChars ip ++
        (if (stripZeros fr).isEmpty then []
         else '.' :: (stripZeros fr).map Nat.digitChar) ++ X := by
  simp only [FloatLit.display, Bool.false_eq_true, if_false, String.empty_append]
  by_cases hemp : (stripZeros fr).isEmpty
  · rw [if_pos hemp, if_pos hemp]
    simp [natStr, String.data_append]
  · rw [if_neg hemp, if_neg hemp]
    simp [natStr, digitsStr, String.data_append]

theorem pNumber_display (ip : Nat) (fr : List Nat) (X : List Char)
    (hfs : ∀ d ∈ stripZeros fr, d < 10) (hnd : noDigitHead X = true)
    (hdot : noDotHead X = true) :
    pNumber ((FloatLit.display ⟨false, ip, fr⟩).data ++ X) =
      some (numFinish ip (stripZeros fr) X) := by
  rw [display_data_eq]
  exact pNumber_core ip (stripZeros fr) X hfs hnd hdot

theorem display_head_digit (ip : Nat) (fr : List Nat) (X : List Char) :
    ∃ c cs, (FloatLit.display ⟨false, ip, fr⟩).data ++ X = c :: cs ∧
      c.isDigit = true := by
  obtain ⟨hdig, hval, hne⟩ := natChars_spec ip
  cases hnc : natChars ip with
  | nil => exact absurd hnc hne
  | cons c cs =>
      refine ⟨c, cs ++ ((if (stripZeros fr).isEmpty then []
        else '.' :: (stripZeros fr).map Nat.digitChar) ++ X), ?_,
        hdig c (by rw [hnc]; simp)⟩
      rw [display_data_eq, hnc]
      simp

theorem numFinish_unit (u : LengthUnit) (ip : Nat) (fs : List Nat) (rest : List Char) :
    numFinish ip fs ((LengthUnit.display u).data ++ rest) =
      (.Length ⟨false, ip, fs⟩ u, rest) := by
  cases u <;> rfl

theorem unit_noDigitHead (u : LengthUnit) (rest : List Char) :
    noDigitHead ((LengthUnit.display u).data ++ rest) = true := by
  cases u <;> rfl

theorem unit_noDotHead (u : LengthUnit) (rest : List Char) :
    noDotHead ((LengthUnit.display u).data ++ rest) = true := by
  cases u <;> rfl

/-- Pretty form of the expression a re-parsed numeric literal produces. -/
theorem numFinish_pretty (ip : Nat) (fr : List Nat) :
    Expr.pretty (if (stripZeros fr).isEmpty then .Int (Int.ofNat ip)
      else .Float ⟨false, ip, stripZeros fr⟩) = FloatLit.display ⟨false, ip, fr⟩ := by
  by_cases hemp : (stripZeros fr).isEmpty
  · rw [if_pos hemp]
    simp only [Expr.pretty, intStr, FloatLit.display, Bool.false_eq_true, if_false,
      String.empty_append, if_pos hemp]
    rw [if_neg (by exact not_lt.mpr (Int.ofNat_nonneg ip))]
    simp [Int.natAbs_ofNat]
  · rw [if_neg hemp]
    simp only [Expr.pretty, FloatLit.display, Bool.false_eq_true, if_false,
      String.empty_append, stripZeros_idem, if_neg hemp]

theorem numFinish_flags (ip : Nat) (fr : List Nat) :
    isCallE (if (stripZeros fr).isEmpty then Expr.Int (Int.ofNat ip)
      else .Float ⟨false, ip, stripZeros fr⟩) = false ∧
    isContentE (if (stripZeros fr).isEmpty then Expr.Int (Int.ofNat ip)
      else .Float ⟨false, ip, stripZeros fr⟩) = false := by
  by_cases hemp : (stripZeros fr).isEmpty
  · rw [if_pos hemp]; exact ⟨rfl, rfl⟩
  · rw [if_neg hemp]; exact ⟨rfl, rfl⟩

theorem pretty_dict_cons (n : Named) (tl : Nameds) :
    Expr.pretty (.Dict (.cons n tl)) = "(" ++ prettyNameds (.cons n tl) ++ ")" := by
  rw [Expr.pretty.eq_def]

theorem pce_body_not_single (t : Tree')
    (hshape : pretty_content_expr t = "\x7b" ++ Tree'.pretty t ++ "\x7d") :
    ∀ c, t ≠ .cons (.Expr (.Call c)) .nil := by
  rintro c rfl
  rw [pce_single] at hshape
  cases c with
  | mk name args =>
    rw [pretty_bracket_call_eq] at hshape
    have hd := congrArg String.data hshape
    simp only [String.data_append, if_false, Bool.false_eq_true, List.append_assoc,
      List.singleton_append, List.cons_append] at hd
    simp at hd

theorem pce_transfer (t t2 : Tree')
    (hshape : pretty_content_expr t = "\x7b" ++ Tree'.pretty t ++ "\x7d")
    (hpr : Tree'.pretty t2 = Tree'.pretty t) (hlen : lenT t2 = lenT t)
    (hhead : headCall t2 = headCall t) :
    pretty_content_expr t2 = pretty_content_expr t := by
  have hns := pce_body_not_single t hshape
  rcases pce_shape t2 with ⟨c, rfl⟩ | h2
  · exfalso
    have h1 : lenT t = 1 ∧ headCall t = true := by
      constructor
      · rw [← hlen]; simp [lenT]
      · rw [← hhead]; simp [headCall]
    obtain ⟨c0, hc0⟩ := (singleCall_iff t).mpr h1
    exact hns c0 hc0
  · rw [h2, hshape, hpr]

theorem display_strip (ip : Nat) (fr : List Nat) :
    FloatLit.display ⟨false, ip, stripZeros fr⟩ = FloatLit.display ⟨false, ip, fr⟩ := by
  simp [FloatLit.display, stripZeros_idem]

theorem pPrim_number_parse (f : Nat) (vip : Nat) (vfr : List Nat) (X : List Char)
    (hwfd : ∀ d ∈ stripZeros vfr, d < 10) (hnd : noDigitHead X = true)
    (hdot : noDotHead X = true) :
    pPrimary (f + 1) ((FloatLit.display ⟨false, vip, vfr⟩).data ++ X) =
      some (numFinish vip (stripZeros vfr) X) := by
  obtain ⟨c, cs, hX, hcd⟩ := display_head_digit vip vfr X
  rw [hX, pPrimary_digit f c cs hcd, ← hX]
  exact pNumber_display vip vfr X hwfd hnd hdot

theorem pPrim_float_core (f : Nat) (vip : Nat) (vfr : List Nat) (rest : List Char)
    (hwfd : ∀ d ∈ stripZeros vfr, d < 10) (hf : followPrim rest = true) :
    ∃ e2, pPrimary (f + 1) ((FloatLit.display ⟨false, vip, vfr⟩).data ++ rest) =
        some (e2, rest) ∧ Expr.pretty e2 = FloatLit.display ⟨false, vip, vfr⟩ ∧
      isCallE e2 = false ∧ isContentE e2 = false := by
  refine ⟨if (stripZeros vfr).isEmpty then .Int (Int.ofNat vip)
    else .Float ⟨false, vip, stripZeros vfr⟩, ?_, numFinish_pretty vip vfr,
    (numFinish_flags vip vfr).1, (numFinish_flags vip vfr).2⟩
  rw [pPrim_number_parse f vip vfr rest hwfd (followPrim_noDigitHead rest hf)
    (followPrim_noDotHead rest hf)]
  rw [numFinish_default vip (stripZeros vfr) rest hf]
  by_cases hemp : (stripZeros vfr).isEmpty
  · rw [if_pos hemp, if_pos hemp]
  · rw [if_neg hemp, if_neg hemp]

/-- The conclusion of the primary round-trip statement for one expression. -/
def PrimOut (fuel : Nat) (e : Expr) (rest : List Char) : Prop :=
  ∃ e2, pPrimary fuel ((Expr.pretty e).data ++ rest) = some (e2, rest) ∧
    Expr.pretty e2 = Expr.pretty e ∧ isCallE e2 = isCallE e ∧
    isContentE e2 = isContentE e

theorem stPrim_none (f : Nat) (rest : List Char) (hf : followPrim rest = true) :
    PrimOut (f + 1) .None rest := by
  refine ⟨.None, ?_, rfl, rfl, rfl⟩
  have hpe : Expr.pretty .None = "none" := by simp [Expr.pretty]
  rw [hpe]
  have hinput : ("none" : String).data ++ rest = 'n' :: ("one".data ++ rest) := rfl
  rw [hinput, pPrimary_alpha f 'n' _ (by decide)]
  have hta : takeAlpha ('n' :: ("one".data ++ rest)) = ("none".data, rest) :=
    takeAlpha_append "none".data rest (by decide) (followPrim_noAlphaHead rest hf)
  rw [hta]
  rfl

theorem stPrim_bool (f : Nat) (v : Bool) (rest : List Char)
    (hf : followPrim rest = true) : PrimOut (f + 1) (.Bool v) rest := by
  cases v with
  | false =>
      refine ⟨.Bool false, ?_, rfl, rfl, rfl⟩
      have hpe : Expr.pretty (.Bool false) = "false" := by simp [Expr.pretty]
      rw [hpe]
      have hinput : ("false" : String).data ++ rest = 'f' :: ("alse".data ++ rest) := rfl
      rw [hinput, pPrimary_alpha f 'f' _ (by decide)]
      have hta : takeAlpha ('f' :: ("alse".data ++ rest)) = ("false".data, rest) :=
        takeAlpha_append "false".data rest (by decide) (followPrim_noAlphaHead rest hf)
      rw [hta]
      rfl
  | true =>
      refine ⟨.Bool true, ?_, rfl, rfl, rfl⟩
      have hpe : Expr.pretty (.Bool true) = "true" := by simp [Expr.pretty]
      rw [hpe]
      have hinput : ("true" : String).data ++ rest = 't' :: ("rue".data ++ rest) := rfl
      rw [hinput, pPrimary_alpha f 't' _ (by decide)]
      have hta : takeAlpha ('t' :: ("rue".data ++ rest)) = ("true".data, rest) :=
        takeAlpha_append "true".data rest (by decide) (followPrim_noAlphaHead rest hf)
      rw [hta]
      rfl

theorem stPrim_ident (f : Nat) (v : String) (rest : List Char)
    (hii : identOk v = true) (hf : followPrim rest = true) :
    PrimOut (f + 1) (.Ident v) rest := by
  obtain ⟨hne, hall, hk1, hk2, hk3⟩ := identOk_spec hii
  refine ⟨.Ident v, ?_, rfl, rfl, rfl⟩
  have hpe : Expr.pretty (.Ident v) = v := by simp [Expr.pretty]
  rw [hpe]
  have hta := takeAlpha_append v.data rest hall (followPrim_noAlphaHead rest hf)
  cases hd : v.data with
  | nil => exact absurd hd hne
  | cons c cs =>
      rw [hd, List.cons_append] at hta
      rw [List.cons_append, pPrimary_alpha f c _ (hall c (by rw [hd]; simp))]
      rw [hta]
      simp only [← hd, string_mk_data]
      simp only [hk1, hk2, hk3, if_false]
      rcases followPrim_cases rest hf with rfl | ⟨c2, r2, rfl, hc2⟩
      · rfl
      · have hcne : ¬c2 = '(' := by
          rcases hc2 with rfl | rfl | rfl | rfl | rfl <;> decide
        simp [hcne]

theorem pPrimary_dash (f : Nat) (r : List Char) :
    pPrimary (f + 1) ('-' :: r) =
      (match pPrimary f r with
       | some (e, r') => some (.Unary .Neg e, r')
       | none => none) := rfl

theorem stPrim_int (f : Nat) (v : Int) (rest : List Char) (hfge : 2 ≤ f)
    (hf : followPrim rest = true) : PrimOut (f + 1) (.Int v) rest := by
  have hpe : Expr.pretty (.Int v) = intStr v := by simp [Expr.pretty]
  have hdi : FloatLit.display ⟨false, v.natAbs, []⟩ = natStr v.natAbs := by
    simp [FloatLit.display, stripZeros]
  have hparse : ∀ g, pPrimary (g + 1) ((natStr v.natAbs).data ++ rest) =
      some (.Int (Int.ofNat v.natAbs), rest) := by
    intro g
    have h1 := pPrim_number_parse g v.natAbs [] rest (by simp [stripZeros])
      (followPrim_noDigitHead rest hf) (followPrim_noDotHead rest hf)
    rw [hdi] at h1
    rw [h1, numFinish_default _ _ rest hf]
    simp [stripZeros]
  have hnn : ¬ (Int.ofNat v.natAbs < 0) := not_lt.mpr (Int.ofNat_nonneg _)
  have hpr2 : Expr.pretty (.Int (Int.ofNat v.natAbs)) = natStr v.natAbs := by
    simp only [Expr.pretty, intStr, Int.natAbs_ofNat]
    rw [if_neg hnn]
    simp [String.empty_append, Int.natAbs_abs]
  by_cases hv : v < 0
  · obtain ⟨g, rfl⟩ : ∃ g, f = g + 1 := ⟨f - 1, by omega⟩
    refine ⟨.Unary .Neg (.Int (Int.ofNat v.natAbs)), ?_, ?_, rfl, rfl⟩
    · rw [hpe]
      have hinput : (intStr v).data ++ rest =
          '-' :: ((natStr v.natAbs).data ++ rest) := by
        simp [intStr, if_pos hv, String.data_append]
      rw [hinput]
      rw [pPrimary_dash, hparse g]
    · simp only [Expr.pretty, UnOp.pretty, hpr2, intStr, if_pos hv]
  · refine ⟨.Int (Int.ofNat v.natAbs), ?_, ?_, rfl, rfl⟩
    · rw [hpe]
      have hinput : (intStr v).data ++ rest = (natStr v.natAbs).data ++ rest := by
        simp [intStr, if_neg hv, String.empty_append]
      rw [hinput]
      exact hparse f
    · rw [hpr2, hpe]
      simp [intStr, if_neg hv, String.empty_append]

theorem stPrim_float (f : Nat) (v : FloatLit) (rest : List Char) (hfge : 2 ≤ f)
    (hwfd : ∀ d ∈ stripZeros v.frac, d < 10) (hf : followPrim rest = true) :
    PrimOut (f + 1) (.Float v) rest := by
  obtain ⟨vneg, vip, vfr⟩ := v
  cases vneg with
  | false =>
      obtain ⟨e2, hp, hpr, hc1, hc2⟩ := pPrim_float_core f vip vfr rest hwfd hf
      have hpe : Expr.pretty (.Float ⟨false, vip, vfr⟩) =
          FloatLit.display ⟨false, vip, vfr⟩ := by simp [Expr.pretty]
      refine ⟨e2, by rw [hpe]; exact hp, by rw [hpe, hpr], by rw [hc1]; rfl,
        by rw [hc2]; rfl⟩
  | true =>
      obtain ⟨g, rfl⟩ : ∃ g, f = g + 1 := ⟨f - 1, by omega⟩
      obtain ⟨e2, hp, hpr, hc1, hc2⟩ := pPrim_float_core g vip vfr rest hwfd hf
      refine ⟨.Unary .Neg e2, ?_, ?_, rfl, rfl⟩
      · have hpe : Expr.pretty (.Float ⟨true, vip, vfr⟩) =
            "-" ++ FloatLit.display ⟨false, vip, vfr⟩ := by
          simp [Expr.pretty, display_neg]
        rw [hpe]
        have hinput : ("-" ++ FloatLit.display ⟨false, vip, vfr⟩).data ++ rest =
            '-' :: ((FloatLit.display ⟨false, vip, vfr⟩).data ++ rest) := by
          simp [String.data_append]
        rw [hinput]
        rw [pPrimary_dash, hp]
      · simp only [Expr.pretty, UnOp.pretty, hpr, display_neg]

theorem stPrim_length (f : Nat) (v : FloatLit) (u : LengthUnit) (rest : List Char)
    (hfge : 2 ≤ f) (hwfd : ∀ d ∈ stripZeros v.frac, d < 10) :
    PrimOut (f + 1) (.Length v u) rest := by
  obtain ⟨vneg, vip, vfr⟩ := v
  have hcore : ∀ g, pPrimary (g + 1)
      ((FloatLit.display ⟨false, vip, vfr⟩).data ++
        ((LengthUnit.display u).data ++ rest)) =
      some (.Length ⟨false, vip, stripZeros vfr⟩ u, rest) := by
    intro g
    rw [pPrim_number_parse g vip vfr _ hwfd (unit_noDigitHead u rest)
      (unit_noDotHead u rest)]
    rw [numFinish_unit u vip (stripZeros vfr) rest]
  have hpr2 : Expr.pretty (.Length ⟨false, vip, stripZeros vfr⟩ u) =
      FloatLit.display ⟨false, vip, vfr⟩ ++ LengthUnit.display u := by
    simp only [Expr.pretty, display_strip]
  cases vneg with
  | false =>
      refine ⟨.Length ⟨false, vip, stripZeros vfr⟩ u, ?_, ?_, rfl, rfl⟩
      · have hinput : (Expr.pretty (.Length ⟨false, vip, vfr⟩ u)).data ++ rest =
            (FloatLit.display ⟨false, vip, vfr⟩).data ++
              ((LengthUnit.display u).data ++ rest) := by
          simp [Expr.pretty, String.data_append]
        rw [hinput]
        exact hcore f
      · rw [hpr2]
        simp [Expr.pretty]
  | true =>
      obtain ⟨g, rfl⟩ : ∃ g, f = g + 1 := ⟨f - 1, by omega⟩
      refine ⟨.Unary .Neg (.Length ⟨false, vip, stripZeros vfr⟩ u), ?_, ?_, rfl, rfl⟩
      · have hinput : (Expr.pretty (.Length ⟨true, vip, vfr⟩ u)).data ++ rest =
            '-' :: ((FloatLit.display ⟨false, vip, vfr⟩).data ++
              ((LengthUnit.display u).data ++ rest)) := by
          simp [Expr.pretty, display_neg, String.data_append, String.append_assoc]
        rw [hinput]
        rw [pPrimary_dash, hcore g]
      · simp only [Expr.pretty, UnOp.pretty, hpr2, display_neg, String.append_assoc]

theorem stPrim_percent (f : Nat) (v : FloatLit) (rest : List Char) (hfge : 2 ≤ f)
    (hwfd : ∀ d ∈ stripZeros v.frac, d < 10) :
    PrimOut (f + 1) (.Percent v) rest := by
  obtain ⟨vneg, vip, vfr⟩ := v
  have hcore : ∀ g, pPrimary (g + 1)
      ((FloatLit.display ⟨false, vip, vfr⟩).data ++ ('%' :: rest)) =
      some (.Percent ⟨false, vip, stripZeros vfr⟩, rest) := by
    intro g
    rw [pPrim_number_parse g vip vfr _ hwfd (by rfl) (by rfl)]
    rfl
  have hpr2 : Expr.pretty (.Percent ⟨false, vip, stripZeros vfr⟩) =
      FloatLit.display ⟨false, vip, vfr⟩ ++ "%" := by
    simp only [Expr.pretty, display_strip]
  cases vneg with
  | false =>
      refine ⟨.Percent ⟨false, vip, stripZeros vfr⟩, ?_, ?_, rfl, rfl⟩
      · have hinput : (Expr.pretty (.Percent ⟨false, vip, vfr⟩)).data ++ rest =
            (FloatLit.display ⟨false, vip, vfr⟩).data ++ ('%' :: rest) := by
          simp [Expr.pretty, String.data_append]
        rw [hinput]
        exact hcore f
      · rw [hpr2]
        simp [Expr.pretty]
  | true =>
      obtain ⟨g, rfl⟩ : ∃ g, f = g + 1 := ⟨f - 1, by omega⟩
      refine ⟨.Unary .Neg (.Percent ⟨false, vip, stripZeros vfr⟩), ?_, ?_, rfl, rfl⟩
      · have hinput : (Expr.pretty (.Percent ⟨true, vip, vfr⟩)).data ++ rest =
            '-' :: ((FloatLit.display ⟨false, vip, vfr⟩).data ++ ('%' :: rest)) := by
          simp [Expr.pretty, display_neg, String.data_append, String.append_assoc]
        rw [hinput]
        rw [pPrimary_dash, hcore g]
      · simp only [Expr.pretty, UnOp.pretty, hpr2, display_neg, String.append_assoc]

theorem stPrim_color (f : Nat) (col : RgbaColor) (rest : List Char)
    (hok : colorOk col = true) (hf : followPrim rest = true) :
    PrimOut (f + 1) (.Color col) rest := by
  refine ⟨.Color col, ?_, rfl, rfl, rfl⟩
  have hinput : (Expr.pretty (.Color col)).data ++ rest =
      '#' :: ((hex2 col.r).data ++ ((hex2 col.g).data ++ ((hex2 col.b).data ++
        ((if col.a = 255 then [] else (hex2 col.a).data) ++ rest)))) := by
    simp only [Expr.pretty, RgbaColor.display, String.data_append,
      List.append_assoc, List.cons_append, List.singleton_append]
    by_cases ha : col.a = 255
    · rw [if_pos ha, if_pos ha]
      rfl
    · rw [if_neg ha, if_neg ha]
      rfl
  rw [hinput]
  have harm : pPrimary (f + 1) ('#' :: ((hex2 col.r).data ++ ((hex2 col.g).data ++
      ((hex2 col.b).data ++ ((if col.a = 255 then [] else (hex2 col.a).data) ++
        rest))))) =
      pColor ((hex2 col.r).data ++ ((hex2 col.g).data ++ ((hex2 col.b).data ++
        ((if col.a = 255 then [] else (hex2 col.a).data) ++ rest)))) := rfl
  rw [harm]
  exact pColor_display col rest hok (followPrim_noHexHead rest hf)

theorem stPrim_str (f : Nat) (s : String) (rest : List Char)
    (hlen : s.data.length < f) : PrimOut (f + 1) (.Str s) rest := by
  refine ⟨.Str s, ?_, rfl, rfl, rfl⟩
  have hinput : (Expr.pretty (.Str s)).data ++ rest =
      '"' :: ((s.data.map escapeChars).flatten ++ ('"' :: rest)) := by
    simp only [Expr.pretty, strLit, escapeStr, String.data_append,
      List.append_assoc, List.cons_append, List.singleton_append]
    rfl
  rw [hinput]
  have harm : pPrimary (f + 1) ('"' :: ((s.data.map escapeChars).flatten ++
      ('"' :: rest))) =
      (match pStrBody f ((s.data.map escapeChars).flatten ++ ('"' :: rest)) with
       | some (cs, r') => some (.Str (String.mk cs), r')
       | none => none) := rfl
  rw [harm, pStrBody_escape s.data f rest hlen]

theorem stPrim_unary (f : Nat) (op : UnOp) (e0 : Expr) (rest : List Char)
    (ihp : StPrim f) (hwf : wfE e0 = true) (hch : chainOps e0 = [])
    (hsz : szE e0 < f) (hfp : followPrim rest = true) :
    PrimOut (f + 1) (.Unary op e0) rest := by
  cases op
  obtain ⟨e2, hp, hpr, hc1, hc2⟩ := ihp e0 rest hwf hch hsz hfp
  refine ⟨.Unary .Neg e2, ?_, ?_, rfl, rfl⟩
  · have hinput : (Expr.pretty (.Unary .Neg e0)).data ++ rest =
        '-' :: ((Expr.pretty e0).data ++ rest) := by
      simp [Expr.pretty, UnOp.pretty, String.data_append]
    rw [hinput, pPrimary_dash]
    obtain ⟨g, rfl⟩ : ∃ g, f = g + 1 := ⟨f - 1, by have := szE_pos e0; omega⟩
    rw [hp]
  · simp only [Expr.pretty, hpr]

theorem stPrim_call (f : Nat) (name : String) (args : Args) (rest : List Char)
    (ihpa : StParenArgs f) (hwf : wfC (.mk name args) = true)
    (hsz : szAs args < f) :
    PrimOut (f + 1) (.Call (.mk name args)) rest := by
  simp only [wfC, Bool.and_eq_true] at hwf
  obtain ⟨hne, hall, hk1, hk2, hk3⟩ := identOk_spec hwf.1
  obtain ⟨l2, hpar, hm2⟩ := ihpa args.toList rest (wfAs_toList args hwf.2)
    (by rw [szAL_toList]; omega)
  have hinput : (Expr.pretty (.Call (.mk name args))).data ++ rest =
      name.data ++ ('(' ::
        ((sepBy ", " (args.toList.map Argument.pretty)).data ++ (')' :: rest))) := by
    simp [Expr.pretty, ExprCall.pretty, prettyArgs_sepBy, String.data_append,
      String.append_assoc, List.singleton_append, List.cons_append]
  have hta := takeAlpha_append name.data
    ('(' :: ((sepBy ", " (args.toList.map Argument.pretty)).data ++ (')' :: rest)))
    hall (by rfl)
  refine ⟨.Call (.mk name (Args.ofList l2)), ?_, ?_, rfl, rfl⟩
  · rw [hinput]
    cases hd : name.data with
    | nil => exact absurd hd hne
    | cons c cs =>
        rw [hd, List.cons_append] at hta
        rw [List.cons_append, pPrimary_alpha f c _ (hall c (by rw [hd]; simp))]
        rw [hta]
        simp only [← hd, string_mk_data]
        simp only [hk1, hk2, hk3, if_false, hpar]
  · simp only [Expr.pretty, ExprCall.pretty, prettyArgs_sepBy, Args.toList_ofList,
      hm2]

theorem pParen_array_start (g : Nat) (e1 : Expr) (X : List Char)
    (hwf1 : wfE e1 = true) (hfX : followExpr X = true) :
    pParen (g + 1) ((Expr.pretty e1).data ++ X) =
      pArrayStart g ((Expr.pretty e1).data ++ X) := by
  obtain ⟨c, cs, hdata, hclass⟩ := prE_head e1 hwf1
  have h1 : ¬c = ')' := (starter_not_stops c hclass).1
  have h2 : ¬c = ':' := (starter_not_stops c hclass).2.2.2.2.1
  have hsnd := takeAlpha_expr_snd e1 X hwf1 hfX
  have hinput : (Expr.pretty e1).data ++ X = c :: (cs ++ X) := by rw [hdata]; simp
  rw [hinput]
  rw [pParen_other g c _ h1 h2]
  have hsnd' : ∀ r', (takeAlpha (c :: (cs ++ X))).2 ≠ ':' :: r' := by
    rw [← hinput]
    exact hsnd
  cases hta : takeAlpha (c :: (cs ++ X)) with
  | mk nm r2 =>
    cases r2 with
    | nil => simp [hta]
    | cons c2 r3 =>
        by_cases hc2 : c2 = ':'
        · subst hc2
          have hcontra := hsnd' r3
          rw [hta] at hcontra
          exact absurd rfl hcontra
        · simp [hta, hc2]

theorem pArrayStart_eq (g : Nat) (X : List Char) :
    pArrayStart (g + 1) X =
      (match pExpr g X with
       | some (e, r) => pArrayLoop g [e] r
       | none => none) := rfl

theorem pArrayLoop_trail (g : Nat) (acc : List Expr) (r : List Char) :
    pArrayLoop (g + 1) acc (',' :: ')' :: r) = some (.Array (Exprs.ofList acc), r) := rfl

theorem stPrim_array (f : Nat) (items : Exprs) (rest : List Char)
    (ih : ∀ g, g ≤ f → StAll g) (hwf : wfEs items = true)
    (hsz : szE (.Array items) < f + 1) :
    PrimOut (f + 1) (.Array items) rest := by
  have hpe : Expr.pretty (.Array items) = "(" ++ prettyExprs items ++
      (if items.length = 1 then "," else "") ++ ")" := by
    simp [Expr.pretty]
  cases items with
  | nil =>
      obtain ⟨g, rfl⟩ : ∃ g, f = g + 1 :=
        ⟨f - 1, by simp only [szE, szEs] at hsz; omega⟩
      refine ⟨.Array .nil, ?_, rfl, rfl, rfl⟩
      rw [hpe]
      have hinput : ("(" ++ prettyExprs .nil ++
          (if (Exprs.nil).length = 1 then "," else "") ++ ")").data ++ rest =
          '(' :: (')' :: rest) := by
        simp [prettyExprs, Exprs.length, String.data_append]
      rw [hinput]
      rfl
  | cons e1 tl =>
    have hwf1 : wfE e1 = true := by
      simp only [wfEs, Bool.and_eq_true] at hwf
      exact hwf.1
    cases tl with
    | nil =>
        obtain ⟨g, rfl⟩ : ∃ g, f = g + 1 :=
          ⟨f - 1, by simp only [szE, szEs] at hsz; omega⟩
        obtain ⟨g2, rfl⟩ : ∃ g2, g = g2 + 1 :=
          ⟨g - 1, by simp only [szE, szEs] at hsz; have := szE_pos e1; omega⟩
        obtain ⟨g3, rfl⟩ : ∃ g3, g2 = g3 + 1 :=
          ⟨g2 - 1, by simp only [szE, szEs] at hsz; have := szE_pos e1; omega⟩
        obtain ⟨e1x, hpE, hprE, -, -⟩ :=
          (ih (g3 + 1) (by omega)).expr e1 (',' :: ')' :: rest) hwf1
            (by simp only [szE, szEs] at hsz; omega) (by rfl)
        refine ⟨.Array (.cons e1x .nil), ?_, ?_, rfl, rfl⟩
        · rw [hpe]
          have hinput : ("(" ++ prettyExprs (.cons e1 .nil) ++
              (if (Exprs.cons e1 .nil).length = 1 then "," else "") ++ ")").data
                ++ rest =
              '(' :: ((Expr.pretty e1).data ++ (',' :: ')' :: rest)) := by
            simp [prettyExprs, Exprs.length, String.data_append,
              String.append_assoc]
          rw [hinput]
          have harm : pPrimary (g3 + 1 + 1 + 1 + 1)
              ('(' :: ((Expr.pretty e1).data ++ (',' :: ')' :: rest))) =
              pParen (g3 + 1 + 1 + 1)
                ((Expr.pretty e1).data ++ (',' :: ')' :: rest)) := rfl
          rw [harm, pParen_array_start (g3 + 1 + 1) e1 _ hwf1 (by rfl)]
          rw [pArrayStart_eq, hpE]
          exact pArrayLoop_trail g3 [e1x] rest
        · simp [Expr.pretty, prettyExprs, Exprs.length, hprE]
    | cons e2h tl2 =>
        obtain ⟨g, rfl⟩ : ∃ g, f = g + 1 :=
          ⟨f - 1, by simp only [szE, szEs] at hsz; omega⟩
        obtain ⟨g2, rfl⟩ : ∃ g2, g = g2 + 1 :=
          ⟨g - 1, by simp only [szE, szEs] at hsz; have := szE_pos e1; omega⟩
        have hlen1 : ¬(Exprs.cons e1 (.cons e2h tl2)).length = 1 := by
          simp [Exprs.length]
        obtain ⟨e1x, hpE, hprE, -, -⟩ :=
          (ih g2 (by omega)).expr e1
            ((arrSep (Exprs.cons e2h tl2).toList).data ++ ')' :: rest) hwf1
            (by simp only [szE, szEs] at hsz; have := szEL_pos tl2.toList;
                rw [← szEL_toList tl2] at hsz; have := szE_pos e2h; omega)
            (followExpr_arrSep (Exprs.cons e2h tl2).toList rest)
        have hwtl : wfEs (Exprs.cons e2h tl2) = true := by
          simp only [wfEs, Bool.and_eq_true] at hwf ⊢
          exact hwf.2
        obtain ⟨l2, hpL, hm2⟩ :=
          (ih g2 (by omega)).arrLoop (Exprs.cons e2h tl2).toList [e1x] rest
            (wfEs_toList _ hwtl)
            (by rw [szEL_toList]
                simp only [szE, szEs] at hsz ⊢
                have := szE_pos e1
                omega)
        have hlen2 : l2.length = (Exprs.cons e2h tl2).toList.length := by
          have := congrArg List.length hm2
          simpa using this
        refine ⟨.Array (Exprs.ofList (e1x :: l2)), ?_, ?_, rfl, rfl⟩
        · rw [hpe]
          have hinput : ("(" ++ prettyExprs (.cons e1 (.cons e2h tl2)) ++
              (if (Exprs.cons e1 (.cons e2h tl2)).length = 1 then "," else "")
                ++ ")").data ++ rest =
              '(' :: ((Expr.pretty e1).data ++
                ((arrSep (Exprs.cons e2h tl2).toList).data ++ (')' :: rest))) := by
            rw [if_neg hlen1, prettyExprs_sepBy]
            rw [show (Exprs.cons e1 (.cons e2h tl2)).toList =
              e1 :: (Exprs.cons e2h tl2).toList from rfl]
            rw [sepBy_arrSep]
            simp [String.data_append, String.append_assoc]
          rw [hinput]
          have harm : pPrimary (g2 + 1 + 1 + 1)
              ('(' :: ((Expr.pretty e1).data ++
                ((arrSep (Exprs.cons e2h tl2).toList).data ++ (')' :: rest)))) =
              pParen (g2 + 1 + 1)
                ((Expr.pretty e1).data ++
                  ((arrSep (Exprs.cons e2h tl2).toList).data ++ (')' :: rest))) := rfl
          rw [harm, pParen_array_start (g2 + 1) e1 _ hwf1
            (followExpr_arrSep (Exprs.cons e2h tl2).toList rest)]
          rw [pArrayStart_eq, hpE]
          exact hpL
        · have hlneq : ¬(Exprs.ofList (e1x :: l2)).length = 1 := by
            rw [Exprs.length_toList, exprs_toList_ofList]
            simp only [List.length_cons, hlen2]
            rw [show (Exprs.cons e2h tl2).toList =
              e2h :: tl2.toList from rfl]
            simp
          rw [hpe]
          rw [show Expr.pretty (.Array (Exprs.ofList (e1x :: l2))) =
              "(" ++ prettyExprs (Exprs.ofList (e1x :: l2)) ++
              (if (Exprs.ofList (e1x :: l2)).length = 1 then "," else "") ++ ")" from
            by simp [Expr.pretty]]
          rw [if_neg hlneq, if_neg hlen1]
          rw [prettyExprs_sepBy, exprs_toList_ofList, sepBy_arrSep,
            prettyExprs_sepBy]
          rw [show (Exprs.cons e1 (.cons e2h tl2)).toList =
            e1 :: (Exprs.cons e2h tl2).toList from rfl]
          rw [sepBy_arrSep, hprE, arrSep_congr l2 (Exprs.cons e2h tl2).toList hm2]

theorem stPrim_dict (f : Nat) (pairs : Nameds) (rest : List Char)
    (ih : ∀ g, g ≤ f → StAll g) (hwf : wfNs pairs = true)
    (hsz : szE (.Dict pairs) < f + 1) :
    PrimOut (f + 1) (.Dict pairs) rest := by
  cases pairs with
  | nil =>
      obtain ⟨g, rfl⟩ : ∃ g, f = g + 1 :=
        ⟨f - 1, by simp only [szE, szNs] at hsz; omega⟩
      refine ⟨.Dict .nil, ?_, rfl, rfl, rfl⟩
      have hinput : (Expr.pretty (.Dict .nil)).data ++ rest =
          '(' :: (':' :: ')' :: rest) := by
        simp [Expr.pretty, String.data_append]
      rw [hinput]
      rfl
  | cons n tl =>
    obtain ⟨key, v⟩ := n
    obtain ⟨g, rfl⟩ : ∃ g, f = g + 1 :=
      ⟨f - 1, by simp only [szE, szNs] at hsz; omega⟩
    have hwfn : wfN (.mk key v) = true := by
      simp only [wfNs, Bool.and_eq_true] at hwf
      exact hwf.1
    have hwtl : wfNs tl = true := by
      simp only [wfNs, Bool.and_eq_true] at hwf
      exact hwf.2
    simp only [wfN, Bool.and_eq_true] at hwfn
    obtain ⟨hne, hall, -⟩ := identOk_spec hwfn.1
    have hkne : key.data.isEmpty = false := by
      cases hd : key.data with
      | nil => exact absurd hd hne
      | cons c cs => rfl
    obtain ⟨c0, cs0, hd0⟩ : ∃ c0 cs0, key.data = c0 :: cs0 := by
      cases hd : key.data with
      | nil => exact absurd hd hne
      | cons c cs => exact ⟨c, cs, rfl⟩
    have hc0a : c0.isAlpha = true := hall c0 (by rw [hd0]; simp)
    obtain ⟨v2, hpE, hprV, -, -⟩ := (ih g (by omega)).expr v
      ((dictSep tl.toList).data ++ ')' :: rest) hwfn.2
      (by simp only [szE, szNs, szN] at hsz
          have := szNL_pos tl.toList
          rw [← szNL_toList tl] at hsz
          omega)
      (followExpr_dictSep tl.toList rest)
    obtain ⟨l2, hpD, hm2⟩ := (ih g (by omega)).dictLoop tl.toList
      [Named.mk key v2] rest (wfNs_toList tl hwtl)
      (by rw [szNL_toList]
          simp only [szE, szNs, szN] at hsz ⊢
          have := szE_pos v
          omega)
    refine ⟨.Dict (Nameds.ofList (Named.mk key v2 :: l2)), ?_, ?_, rfl, rfl⟩
    · have hinput : (Expr.pretty (.Dict (.cons (.mk key v) tl))).data ++ rest =
          '(' :: (key.data ++ (':' :: ' ' :: ((Expr.pretty v).data ++
            ((dictSep tl.toList).data ++ (')' :: rest))))) := by
        rw [pretty_dict_cons, prettyNameds_sepBy]
        rw [show (Nameds.cons (.mk key v) tl).toList =
          Named.mk key v :: tl.toList from rfl]
        rw [sepBy_dictSep]
        simp [Named.pretty, String.data_append, String.append_assoc]
      rw [hinput]
      have harm : pPrimary (g + 1 + 1)
          ('(' :: (key.data ++ (':' :: ' ' :: ((Expr.pretty v).data ++
            ((dictSep tl.toList).data ++ (')' :: rest)))))) =
          pParen (g + 1) (key.data ++ (':' :: ' ' :: ((Expr.pretty v).data ++
            ((dictSep tl.toList).data ++ (')' :: rest))))) := rfl
      rw [harm]
      have hta := takeAlpha_append key.data
        (':' :: ' ' :: ((Expr.pretty v).data ++
          ((dictSep tl.toList).data ++ (')' :: rest)))) hall (by rfl)
      rw [hd0, List.cons_append] at hta
      rw [hd0, List.cons_append,
        pParen_other g c0 _ (alpha_not_special c0 hc0a).1 (alpha_not_special c0 hc0a).2.2.2.2.1]
      rw [hta]
      simp only [← hd0, hkne, Bool.false_eq_true, if_false, hpE, string_mk_data, hpD]
      simp
    · rw [show Nameds.ofList (Named.mk key v2 :: l2) =
          Nameds.cons (Named.mk key v2) (Nameds.ofList l2) from rfl]
      rw [pretty_dict_cons, pretty_dict_cons]
      rw [prettyNameds_sepBy, prettyNameds_sepBy]
      rw [show (Nameds.cons (Named.mk key v2) (Nameds.ofList l2)).toList =
        Named.mk key v2 :: (Nameds.ofList l2).toList from rfl]
      rw [show (Nameds.cons (Named.mk key v) tl).toList =
        Named.mk key v :: tl.toList from rfl]
      rw [nameds_toList_ofList, sepBy_dictSep, sepBy_dictSep]
      rw [dictSep_congr l2 tl.toList hm2]
      simp [Named.pretty, hprV]

theorem stPrim_content (f : Nat) (t : Tree') (rest : List Char)
    (ih : ∀ g, g ≤ f → StAll g) (hwf : wfT t = true)
    (hsz : szE (.Content t) < f + 1) (hf : followPrim rest = true) :
    PrimOut (f + 1) (.Content t) rest := by
  have hpe : Expr.pretty (.Content t) = pretty_content_expr t := by
    simp [Expr.pretty]
  rcases pce_shape t with ⟨cinner, rfl⟩ | hshape
  · obtain ⟨name, args⟩ := cinner
    have hwfc : wfC (.mk name args) = true := by
      simp only [wfT, wfNode, wfE, adjOk, Bool.and_eq_true] at hwf
      exact hwf.1.1
    obtain ⟨name2, args2, hpC, hn2, hbr2⟩ := (ih f le_rfl).call name args rest hwfc
      (by simp only [szE, szT, szNode, szC] at hsz ⊢; omega)
      (Or.inr (noLBracketHead_of_followPrim rest hf))
    refine ⟨.Content (.cons (.Expr (.Call (.mk name2 args2))) .nil), ?_, ?_, rfl, rfl⟩
    · rw [hpe]
      have hinput : (pretty_content_expr
          (.cons (.Expr (.Call (.mk name args))) .nil)).data ++ rest =
          '[' :: (name.data ++ ((bracketRest args).data ++ rest)) := by
        simp [pce_single, pretty_bracket_call_eq, String.data_append,
          String.append_assoc]
      rw [hinput]
      have harm : pPrimary (f + 1)
          ('[' :: (name.data ++ ((bracketRest args).data ++ rest))) =
          (match pBracketInner f (name.data ++ ((bracketRest args).data ++ rest)) with
           | some (c, r') =>
               some (.Content (.cons (.Expr (.Call c)) .nil), r')
           | none => none) := rfl
      rw [harm, hpC]
    · simp only [Expr.pretty, pce_single, pretty_bracket_call_eq, hn2, hbr2]
  · have hwt : wfT t = true := hwf
    obtain ⟨t2, hpM, hprT, hlenT2, hheadT2⟩ := (ih f le_rfl).markup t
      ('\x7d' :: rest) hwt (by simp only [szE] at hsz; omega) (by rfl)
    refine ⟨.Content t2, ?_, ?_, rfl, rfl⟩
    · rw [hpe]
      have hinput : (pretty_content_expr t).data ++ rest =
          '\x7b' :: ((Tree'.pretty t).data ++ ('\x7d' :: rest)) := by
        rw [hshape]
        simp [String.data_append, String.append_assoc]
      rw [hinput]
      have harm : pPrimary (f + 1)
          ('\x7b' :: ((Tree'.pretty t).data ++ ('\x7d' :: rest))) =
          (match pMarkup f ((Tree'.pretty t).data ++ ('\x7d' :: rest)) with
           | some (t0, '\x7d' :: r') => some (.Content t0, r')
           | _ => none) := rfl
      rw [harm, hpM]
      rfl
    · have htr := pce_transfer t t2 hshape hprT hlenT2 hheadT2
      simp only [Expr.pretty, htr]

theorem stPrim_step (f : Nat) (ih : ∀ g, g ≤ f → StAll g) : StPrim (f + 1) := by
  intro e rest hwf hch hsz hf
  cases e with
  | None => exact stPrim_none f rest hf
  | Ident v => exact stPrim_ident f v rest (by simpa [wfE] using hwf) hf
  | Bool v => exact stPrim_bool f v rest hf
  | Int v => exact stPrim_int f v rest (by simp only [szE] at hsz; omega) hf
  | Float v =>
      exact stPrim_float f v rest (by simp only [szE] at hsz; omega)
        (fun d hd => by
          have hm := stripZeros_mem hd
          simp only [wfE, floatOk, List.all_eq_true, decide_eq_true_eq] at hwf
          exact hwf d hm) hf
  | Length v u =>
      exact stPrim_length f v u rest (by simp only [szE] at hsz; omega)
        (fun d hd => by
          have hm := stripZeros_mem hd
          simp only [wfE, floatOk, List.all_eq_true, decide_eq_true_eq] at hwf
          exact hwf d hm)
  | Percent v =>
      exact stPrim_percent f v rest (by simp only [szE] at hsz; omega)
        (fun d hd => by
          have hm := stripZeros_mem hd
          simp only [wfE, floatOk, List.all_eq_true, decide_eq_true_eq] at hwf
          exact hwf d hm)
  | Color col => exact stPrim_color f col rest (by simpa [wfE] using hwf) hf
  | Str s => exact stPrim_str f s rest (by simp only [szE] at hsz; omega)
  | Call c =>
      obtain ⟨name, args⟩ := c
      exact stPrim_call f name args rest (ih f le_rfl).parenArgs
        (by simpa [wfE] using hwf) (by simp only [szE, szC] at hsz; omega)
  | Unary op e0 =>
      exact stPrim_unary f op e0 rest (ih f le_rfl).prim
        (by simpa [wfE] using hwf) (by simpa [chainOps] using hch)
        (by simp only [szE] at hsz; omega) hf
  | Binary l op r => exact absurd hch (by simp [chainOps])
  | Array items =>
      exact stPrim_array f items rest ih (by simpa [wfE] using hwf) hsz
  | Dict pairs =>
      exact stPrim_dict f pairs rest ih (by simpa [wfE] using hwf) hsz
  | Content t =>
      exact stPrim_content f t rest ih (by simpa [wfE] using hwf) hsz hf

/-- All round-trip statements hold at every fuel. -/
theorem stAll_total : ∀ fuel, StAll fuel := by
  intro fuel
  induction fuel using Nat.strong_induction_on with
  | _ fuel ih =>
    cases fuel with
    | zero => exact stAll_zero
    | succ f =>
        have ih2 : ∀ g, g ≤ f → StAll g := fun g hg => ih g (by omega)
        exact ⟨stMarkup_step f ih2, stCall_step f ih2, stAfterName_step f ih2,
          stLoopOthers_step f ih2, stLoopCont_step f ih2, stBody_step f ih2,
          stArg_step f ih2, stExpr_step f ih2, stBinTail_step f ih2,
          stPrim_step f ih2, stParenArgs_step f ih2, stParenLoop_step f ih2,
          stArrLoop_step f ih2, stDictLoop_step f ih2⟩

/-- C2 (amended): for every well-formed tree — upstream identifier validity,
digit and byte ranges, text characters outside the bracket/brace structure,
and no content sequence in which a call whose print ends with a bare header
bracket is immediately followed by another call node — parsing the printed
output with sufficient fuel succeeds, consumes the whole string, and
re-printing the parsed tree reproduces the printed output byte for byte
(print is a fixed point of one parse/print round trip). -/
theorem claim_C2_roundtrip (t : Tree') (fuel : Nat) (hwf : wfT t = true)
    (hsz : szT t < fuel) :
    ∃ t2, pMarkup fuel (Tree'.pretty t).data = some (t2, []) ∧
      Tree'.pretty t2 = Tree'.pretty t := by
  obtain ⟨t2, hp, hpr, -, -⟩ := (stAll_total fuel).markup t [] hwf hsz (by rfl)
  rw [List.append_nil] at hp
  exact ⟨t2, hp, hpr⟩

/-- A concrete well-formed tree, the markup `[v 1]{2}x`: a bracket call with a
non-content argument, an embedded integer expression and a text node. -/
def ex_stable : Tree' :=
  .cons (.Expr (.Call (.mk "v" (.cons (.Pos (.Int 1)) .nil))))
    (.cons (.Expr (.Int 2)) (.cons (.Text 'x') .nil))

/-- Witness: the amended C2 round trip applied to the concrete tree
`[v 1]{2}x` at fuel 64, with both hypotheses discharged by evaluation. -/
theorem claim_C2_roundtrip_witness :
    wfT ex_stable = true ∧ szT ex_stable < 64 ∧
      ∃ t2, pMarkup 64 (Tree'.pretty ex_stable).data = some (t2, []) ∧
        Tree'.pretty t2 = Tree'.pretty ex_stable :=
  ⟨by simp [ex_stable, wfT, wfNode, wfE, wfC, wfAs, wfA, adjOk, identOk, textOk],
   by simp [ex_stable, szT, szNode, szE, szC, szAs, szA],
   claim_C2_roundtrip ex_stable 64
     (by simp [ex_stable, wfT, wfNode, wfE, wfC, wfAs, wfA, adjOk, identOk, textOk])
     (by simp [ex_stable, szT, szNode, szE, szC, szAs, szA])⟩
